import Mathlib

/- Verification of the concept-alignment engine of the Runtime-Terrors
terminology-mapping repository: `scripts/step4_generate_conceptmaps.py`
together with the ConceptMap schema of `scripts/step3_store_db.py`.

Modelling conventions:
* Scores are exact rationals (the Python code uses floats; all thresholds and
  weights in the code are decimal constants, modelled by the same rationals).
* Similarity primitives imported from the external `rapidfuzz` library
  (`fuzz.WRatio`, `fuzz.token_set_ratio`, `JaroWinkler.normalized_distance`)
  are modelled from that library's documented algorithms: Indel/LCS based
  ratio, token sort/set/partial variants, the WRatio combination rules, and
  the standard Jaro-Winkler procedure.
* Text handling is modelled on the Latin fragment: `unidecode` and Unicode
  NFKD combining-mark stripping are the identity on ASCII text, and the
  whitespace produced by `_normalize_text` is the single space character.
* Python exceptions are modelled with `Except`; the external translation
  model is an opaque deterministic function supplied as a parameter.
-/

unseal Rat.mul Rat.add Rat.sub Rat.inv

namespace CM

def ciIsPre : List Char → List Char → Bool
  | [], _ => true
  | _ :: _, [] => false
  | p :: ps, c :: cs => (p.toLower == c.toLower) && ciIsPre ps cs

def ciSubAux (pat rep : List Char) : Nat → List Char → List Char
  | 0, s => s
  | _ + 1, [] => []
  | fuel + 1, c :: cs =>
    if ciIsPre pat (c :: cs) then
      rep ++ ciSubAux pat rep fuel (List.drop pat.length (c :: cs))
    else
      c :: ciSubAux pat rep fuel cs

def ciSub (pat rep s : String) : String :=
  ⟨ciSubAux pat.data rep.data s.data.length s.data⟩

def spellingVariants : List (String × String) :=
  [("tumour", "tumor"), ("oedema", "edema"), ("haemorrhage", "hemorrhage"),
   ("haem", "hem"), ("anaemia", "anemia"), ("foetal", "fetal"),
   ("paediatric", "pediatric"), ("oesoph", "esoph")]

def isAlnumLower (c : Char) : Bool :=
  ('a' ≤ c && c ≤ 'z') || ('0' ≤ c && c ≤ '9')

def splitWSAux : List Char → List Char → List String
  | [], cur => if cur.isEmpty then [] else [⟨cur.reverse⟩]
  | c :: cs, cur =>
    if c == ' ' then
      if cur.isEmpty then splitWSAux cs [] else ⟨cur.reverse⟩ :: splitWSAux cs []
    else splitWSAux cs (c :: cur)

def splitWS (s : String) : List String := splitWSAux s.data []

def normalizeText (s : String) : String :=
  let s1 := spellingVariants.foldl (fun acc kv => ciSub kv.1 kv.2 acc) s
  let s2 := s1.data.map Char.toLower
  let s3 := s2.map fun c => if isAlnumLower c then c else ' '
  String.intercalate " " (splitWS ⟨s3⟩)

def STOPWORDS : List String :=
  ["the", "and", "with", "without", "of", "in", "on", "to", "for", "from",
   "by", "at", "or", "disease", "disorder", "syndrome", "acute", "chronic",
   "unspecified", "other", "site", "due", "type"]

def tokensOf (s : String) : List String :=
  ((splitWS (normalizeText s)).filter fun t => 3 ≤ t.length).filter
    fun t => ¬ STOPWORDS.contains t

def setSize (l : List String) : Nat := l.eraseDups.length

def interSize (a b : List String) : Nat :=
  (a.eraseDups.filter fun x => b.contains x).length

def unionSize (a b : List String) : Nat := (a ++ b).eraseDups.length

def tokenOverlapQ (a b : List String) : ℚ :=
  if a.isEmpty || b.isEmpty then 0
  else
    let denom := max (setSize a) (setSize b)
    if denom = 0 then 0 else (interSize a b : ℚ) / denom

def jaccardQ (a b : List String) : ℚ :=
  if a.isEmpty || b.isEmpty then 0
  else
    let u := unionSize a b
    if u = 0 then 0 else (interSize a b : ℚ) / u

def isSubsetPy (a b : List String) : Bool :=
  (a.all fun x => b.contains x) && a.length < b.length

def RELATED_THRESHOLD : ℚ := 70

def decideRelationship (namText icdPrimary : String) (bestScore : ℚ) :
    Option String :=
  let namNorm := normalizeText namText
  let icdNorm := normalizeText icdPrimary
  let namToks := tokensOf namText
  let icdToks := tokensOf icdPrimary
  let jac := jaccardQ namToks icdToks
  if 96 ≤ bestScore ∨ namNorm = icdNorm ∨ (9 : ℚ)/10 ≤ jac then
    some "equivalent"
  else if 90 ≤ bestScore ∧ isSubsetPy icdToks namToks = true ∧
      (8 : ℚ)/10 ≤ tokenOverlapQ namToks icdToks then
    some "source-is-narrower-than-target"
  else if 88 ≤ bestScore ∧ isSubsetPy namToks icdToks = true ∧
      (7 : ℚ)/10 ≤ tokenOverlapQ namToks icdToks then
    some "source-is-broader-than-target"
  else if RELATED_THRESHOLD ≤ bestScore then some "related-to"
  else none

def strictSubsetSet (a b : List String) : Bool :=
  (a.all fun x => b.contains x) && (b.any fun x => ¬ a.contains x)

def specRelationship (namText icdPrimary : String) (bestScore : ℚ) :
    Option String :=
  let namNorm := normalizeText namText
  let icdNorm := normalizeText icdPrimary
  let namToks := tokensOf namText
  let icdToks := tokensOf icdPrimary
  let jac := jaccardQ namToks icdToks
  if 96 ≤ bestScore ∨ namNorm = icdNorm ∨ (9 : ℚ)/10 ≤ jac then
    some "equivalent"
  else if 90 ≤ bestScore ∧ strictSubsetSet icdToks namToks = true ∧
      (8 : ℚ)/10 ≤ tokenOverlapQ namToks icdToks then
    some "source-is-narrower-than-target"
  else if 88 ≤ bestScore ∧ strictSubsetSet namToks icdToks = true ∧
      (7 : ℚ)/10 ≤ tokenOverlapQ namToks icdToks then
    some "source-is-broader-than-target"
  else if RELATED_THRESHOLD ≤ bestScore then some "related-to"
  else none

def claimClassifyAmended (srcToks tgtToks : List String) (normEqual : Bool)
    (finalScore : ℚ) : Option String :=
  if 96 ≤ finalScore ∨ normEqual = true ∨
      (9 : ℚ)/10 ≤ jaccardQ srcToks tgtToks then
    some "equivalent"
  else if 90 ≤ finalScore ∧ isSubsetPy tgtToks srcToks = true ∧
      (8 : ℚ)/10 ≤ tokenOverlapQ srcToks tgtToks then
    some "source-is-narrower-than-target"
  else if 88 ≤ finalScore ∧ isSubsetPy srcToks tgtToks = true ∧
      (7 : ℚ)/10 ≤ tokenOverlapQ srcToks tgtToks then
    some "source-is-broader-than-target"
  else if 70 ≤ finalScore then some "related-to"
  else none

def lcsAux : Nat → List Char → List Char → Nat
  | 0, _, _ => 0
  | _ + 1, [], _ => 0
  | _ + 1, _ :: _, [] => 0
  | fuel + 1, a :: as, b :: bs =>
    if a = b then lcsAux fuel as bs + 1
    else max (lcsAux fuel as (b :: bs)) (lcsAux fuel (a :: as) bs)

def lcsLen (a b : List Char) : Nat := lcsAux (a.length + b.length) a b

def ratioL (a b : List Char) : ℚ :=
  if a.length + b.length = 0 then 100
  else mkRat (200 * lcsLen a b) (a.length + b.length)

def fuzzRatio (a b : String) : ℚ := ratioL a.data b.data

def strLtB : List Char → List Char → Bool
  | [], [] => false
  | [], _ :: _ => true
  | _ :: _, [] => false
  | a :: as, b :: bs =>
    if a.toNat < b.toNat then true
    else if b.toNat < a.toNat then false
    else strLtB as bs

def insStr (x : String) : List String → List String
  | [] => [x]
  | y :: ys => if strLtB y.data x.data then y :: insStr x ys else x :: y :: ys

def insSortStr (l : List String) : List String := l.foldr insStr []

def sortJoin (s : String) : String :=
  String.intercalate " " (insSortStr (splitWS s))

def tokenSortRatio (a b : String) : ℚ := fuzzRatio (sortJoin a) (sortJoin b)

def uniqSortedTokens (s : String) : List String :=
  insSortStr (splitWS s).eraseDups

def joinSect (sect : String) (l : List String) : String :=
  if sect = "" then String.intercalate " " l
  else if l.isEmpty then sect
  else sect ++ " " ++ String.intercalate " " l

def tokenSetRatio (a b : String) : ℚ :=
  let ta := uniqSortedTokens a
  let tb := uniqSortedTokens b
  if ta.isEmpty || tb.isEmpty then 0
  else
    let inter := ta.filter fun x => tb.contains x
    let dab := ta.filter fun x => ¬ tb.contains x
    let dba := tb.filter fun x => ¬ ta.contains x
    if ¬ inter.isEmpty ∧ (dab.isEmpty ∨ dba.isEmpty) then 100
    else
      let sect := String.intercalate " " inter
      max (fuzzRatio (String.intercalate " " dab) (String.intercalate " " dba))
        (max (fuzzRatio sect (joinSect sect dab))
          (fuzzRatio sect (joinSect sect dba)))

def tokenRatioFn (a b : String) : ℚ := max (tokenSortRatio a b) (tokenSetRatio a b)

def pimpl (s1 s2 : List Char) : ℚ :=
  let len1 := s1.length
  let len2 := s2.length
  let cs := s1.eraseDups
  let preScores := ((List.range len1).drop 1).filterMap fun i =>
    if cs.contains (s2.getD (i - 1) ' ') then some (ratioL s1 (s2.take i)) else none
  let fullScores := (List.range (len2 - len1 + 1)).filterMap fun i =>
    if cs.contains (s2.getD (i + len1 - 1) ' ') then
      some (ratioL s1 ((s2.drop i).take len1))
    else none
  let sufScores := (List.range len2).filterMap fun i =>
    if len2 - len1 + 1 ≤ i ∧ cs.contains (s2.getD i ' ') = true then
      some (ratioL s1 (s2.drop i))
    else none
  (preScores ++ fullScores ++ sufScores).foldl max 0

def partialRatio (a b : String) : ℚ :=
  let x := a.data
  let y := b.data
  if x.length = 0 ∧ y.length = 0 then 100
  else if x.length = 0 ∨ y.length = 0 then 0
  else if x.length = y.length then max (pimpl x y) (pimpl y x)
  else if x.length < y.length then pimpl x y else pimpl y x

def partialTokenRatio (a b : String) : ℚ :=
  let tsa := splitWS a
  let tsb := splitWS b
  if tsa.any fun t => tsb.contains t then 100
  else
    let r1 := partialRatio (String.intercalate " " (insSortStr tsa))
      (String.intercalate " " (insSortStr tsb))
    let ua := uniqSortedTokens a
    let ub := uniqSortedTokens b
    let dab := ua.filter fun t => ¬ tsb.contains t
    let dba := ub.filter fun t => ¬ tsa.contains t
    if tsa.length = dab.length ∧ tsb.length = dba.length then r1
    else
      max r1 (partialRatio (String.intercalate " " dab)
        (String.intercalate " " dba))

def wratio (a b : String) : ℚ :=
  let len1 := a.data.length
  let len2 := b.data.length
  if len1 = 0 ∨ len2 = 0 then 0
  else if 2 * max len1 len2 < 3 * min len1 len2 then
    max (fuzzRatio a b) (tokenRatioFn a b * mkRat 95 100)
  else
    let pscale : ℚ := if max len1 len2 < 8 * min len1 len2 then mkRat 9 10 else mkRat 6 10
    max (max (fuzzRatio a b) (partialRatio a b * pscale))
      (partialTokenRatio a b * mkRat 95 100 * pscale)

def jaroBound (l1 l2 : Nat) : Nat := max l1 l2 / 2 - 1

def jaroPick (i : Nat) (c : Char) (bound : Nat) (avail : List (Nat × Char)) :
    Option (Nat × Char) :=
  avail.find? fun jc => decide (i ≤ jc.1 + bound) && decide (jc.1 ≤ i + bound) && (jc.2 == c)

def jaroRun : List (Nat × Char) → List (Nat × Char) → Nat →
    List ((Nat × Char) × (Nat × Char))
  | [], _, _ => []
  | ic :: rest, avail, bound =>
    match jaroPick ic.1 ic.2 bound avail with
    | some jc => (ic, jc) :: jaroRun rest (avail.erase jc) bound
    | none => jaroRun rest avail bound

def insPair (x : (Nat × Char) × (Nat × Char)) :
    List ((Nat × Char) × (Nat × Char)) → List ((Nat × Char) × (Nat × Char))
  | [] => [x]
  | y :: ys => if y.2.1 < x.2.1 then y :: insPair x ys else x :: y :: ys

def sortByJ (l : List ((Nat × Char) × (Nat × Char))) :
    List ((Nat × Char) × (Nat × Char)) := l.foldr insPair []

def jaroK (P : List ((Nat × Char) × (Nat × Char))) : Nat :=
  (((P.map fun p => p.1.2).zip ((sortByJ P).map fun p => p.2.2)).filter
    fun cc => ¬ cc.1 = cc.2).length

def jaroSim (a b : String) : ℚ :=
  let x := a.data
  let y := b.data
  if x.isEmpty ∧ y.isEmpty then 1
  else if x.isEmpty ∨ y.isEmpty then 0
  else
    let P := jaroRun x.enum y.enum (jaroBound x.length y.length)
    let m := P.length
    if m = 0 then 0
    else
      (mkRat m x.length + mkRat m y.length +
        mkRat (2 * (m : Int) - (jaroK P : Int)) (2 * m)) * mkRat 1 3

def commonPreLen : List Char → List Char → Nat
  | a :: as, b :: bs => if a = b then commonPreLen as bs + 1 else 0
  | _, _ => 0

def commonPre4 (a b : List Char) : Nat := min 4 (commonPreLen a b)

def jaroWinklerSim (a b : String) : ℚ :=
  let j := jaroSim a b
  if mkRat 7 10 < j then j + mkRat (commonPre4 a.data b.data) 10 * (1 - j) else j

def compositeScore (a b : String) : ℚ :=
  mkRat 45 100 * wratio a b + mkRat 35 100 * tokenSetRatio a b +
    mkRat 20 100 * (100 * jaroWinklerSim a b)

def textSimilarity (a b : String) : ℚ :=
  compositeScore (normalizeText a) (normalizeText b)

structure ConceptEntry where
  code : String
  display : String
  definition : String
deriving DecidableEq

abbrev AliasIndex := List (String × List String)

structure MatchMeta where
  src_text : String
  src_lang : String
  en_text : String
  back_sim : ℚ
deriving DecidableEq

structure Cand where
  code : String
  label : String
  score : ℚ
  meta : MatchMeta
deriving DecidableEq

abbrev Call := String × String × String

structure Translator where
  run : String → String → String → Except Unit String

def trCall (t : Translator) (text src tgt : String) :
    Except Unit (String × List Call) :=
  if text = "" then .ok ("", [])
  else (t.run text src tgt).map fun r => (r, [(text, src, tgt)])

def batchTranslate (t : Translator) : List String → String → String →
    Except Unit (List String × List Call)
  | [], _, _ => .ok ([], [])
  | x :: xs, src, tgt => do
    let r ← t.run x src tgt
    let (rs, cs) ← batchTranslate t xs src tgt
    .ok (r :: rs, (x, src, tgt) :: cs)

def pyOrStr (a : Option String) (d : String) : String :=
  match a with
  | none => d
  | some s => if s = "" then d else s

structure Cfg where
  translateToEn : Bool
  batchMode : Bool
  usePerSystem : Bool
  fastMode : Bool
  useEmbeddings : Bool
  backtransMin : ℚ
  acceptThreshold : ℚ

def PER_SYSTEM_BACKTRANS : List (String × ℚ) :=
  [("NAMASTE-Ayurveda", 60), ("NAMASTE-Siddha", 70), ("NAMASTE-Unani", 70)]

def PER_SYSTEM_ACCEPT : List (String × ℚ) :=
  [("NAMASTE-Ayurveda", 65), ("NAMASTE-Siddha", 75), ("NAMASTE-Unani", 75)]

def NAMASTE_LANG_TAG : List (String × String) :=
  [("NAMASTE-Ayurveda", "hin_Deva"), ("NAMASTE-Siddha", "hin_Deva"),
   ("NAMASTE-Unani", "urd_Arab")]

def systemThresholds (cfg : Cfg) (name : String) : ℚ × ℚ :=
  if cfg.usePerSystem then
    ((PER_SYSTEM_BACKTRANS.lookup name).getD cfg.backtransMin,
      (PER_SYSTEM_ACCEPT.lookup name).getD cfg.acceptThreshold)
  else (cfg.backtransMin, cfg.acceptThreshold)

def maybeTranslate (cfg : Cfg) (tr : Option Translator) (srcTag : Option String)
    (text : String) : Except Unit ((String × String × ℚ) × List Call) :=
  if ¬ cfg.translateToEn ∨ text = "" then .ok ((text, "eng_Latn", 100), [])
  else
    match tr with
    | none => .ok ((text, "eng_Latn", 100), [])
    | some t =>
      let tag := pyOrStr srcTag "eng_Latn"
      if tag = "eng_Latn" then .ok ((text, tag, 100), [])
      else do
        let (en, c1) ← trCall t text tag "eng_Latn"
        if en = "" then .ok ((text, tag, 0), c1)
        else do
          let (back, c2) ← trCall t en "eng_Latn" tag
          .ok ((en, tag, textSimilarity text back), c1 ++ c2)

def joinedText (c : ConceptEntry) : String :=
  String.intercalate "; "
    (([c.display] ++ if c.definition = "" then [] else [c.definition]).filter
      fun t => t ≠ "")

def stripSemiSpace (s : String) : String :=
  ⟨((s.data.dropWhile fun c => c = ';' ∨ c = ' ').reverse.dropWhile
      fun c => c = ';' ∨ c = ' ').reverse⟩

def batchFallback (c : ConceptEntry) : String :=
  stripSemiSpace (c.display ++ "; " ++ c.definition)

structure EmbedOracle where
  shortlist : String → Option (List String)

def effShortlist (cfg : Cfg) (emb : EmbedOracle) (en : String) :
    Option (List String) :=
  if cfg.useEmbeddings then
    match emb.shortlist en with
    | some l => if l.isEmpty then none else some l
    | none => none
  else none

def MIN_TOKEN_OVERLAP : ℚ := mkRat 3 10

def bestLabelScore (namNorm : String) (labels : List String) (cap : Nat) :
    ℚ × String :=
  (labels.take cap).foldl
    (fun acc lb =>
      let sc := compositeScore namNorm (normalizeText lb)
      if acc.1 < sc then (sc, lb) else acc)
    (0, "")

def scanCandidate (cfg : Cfg) (shortActive : Bool) (namNorm : String)
    (namToks : List String) (meta : MatchMeta) (backSim : ℚ) (code : String)
    (labels : List String) : Option Cand :=
  if labels.isEmpty then none
  else
    let primary := labels.headD ""
    let skip :=
      if shortActive then false
      else
        let tokOv := tokenOverlapQ namToks (tokensOf primary)
        if cfg.fastMode ∧ tokOv < max MIN_TOKEN_OVERLAP (mkRat 1 2) then true
        else if tokOv < MIN_TOKEN_OVERLAP then
          decide (wratio namNorm (normalizeText primary) <
            (if cfg.fastMode then 92 else 90))
        else false
    if skip then none
    else
      let cap := if cfg.fastMode then 20 else 50
      let bs := bestLabelScore namNorm labels cap
      if bs.2 = "" then none
      else
        let score :=
          if shortActive then
            100 * (mkRat 1 2 + mkRat 35 100 * (bs.1 * mkRat 1 100) +
              mkRat 15 100 * (backSim * mkRat 1 100))
          else bs.1
        some ⟨code, bs.2, score, meta⟩

def insCand (x : Cand) : List Cand → List Cand
  | [] => [x]
  | y :: ys => if x.score < y.score then y :: insCand x ys else x :: y :: ys

def sortCandsDesc (l : List Cand) : List Cand := l.foldr insCand []

def findBestMatches (cfg : Cfg) (emb : EmbedOracle) (aliases : AliasIndex)
    (tr : Option Translator) (srcTag : Option String) (nam : ConceptEntry) :
    Except Unit (List Cand × List Call) :=
  let srcJoin := joinedText nam
  if srcJoin = "" then .ok ([], [])
  else do
    let ((enText, srcLang, backSim), calls) ← maybeTranslate cfg tr srcTag srcJoin
    let namNorm := normalizeText enText
    let namToks := tokensOf enText
    let sl := effShortlist cfg emb enText
    let meta : MatchMeta := ⟨srcJoin, srcLang, enText, backSim⟩
    let pairs : List (String × List String) :=
      match sl with
      | some l => l.map fun c => (c, (aliases.lookup c).getD [])
      | none => aliases
    let cands := pairs.filterMap fun p =>
      scanCandidate cfg sl.isSome namNorm namToks meta backSim p.1 p.2
    .ok ((sortCandsDesc cands).take 100, calls)

def rhe (x : ℚ) : Int :=
  let f := x.floor
  let r := x - f
  if r < mkRat 1 2 then f
  else if mkRat 1 2 < r then f + 1
  else if f % 2 = 0 then f else f + 1

def round2 (x : ℚ) : ℚ := mkRat (rhe (x * 100)) 100

structure MappingRec where
  source_code : String
  source_display : String
  target_code : String
  target_display : String
  mapping_type : String
  confidence : ℚ
  src_lang : String
  translated_text : String
  backtranslation_similarity : ℚ
deriving DecidableEq

structure ReviewRow where
  source_code : String
  source_display : String
  translated_text : String
  back_sim : ℚ
  candidates : List (String × String × ℚ)
  suggested : String
  final_score : ℚ
deriving DecidableEq

structure MapInputs where
  sourceName : String
  concepts : List ConceptEntry
  aliases : AliasIndex
  synonyms : List (String × String)
  cache : List (String × (String × String × ℚ))
  targets : List (String × String)
  store : List (String × List String)

inductive PTRes where
  | nothing
  | review (r : ReviewRow)
  | record (r : MappingRec)
deriving DecidableEq

def ptPrimary (aliases : AliasIndex) (top : Cand) : String :=
  ((aliases.lookup top.code).getD [top.label]).headD top.label

def ptRelText (nam : ConceptEntry) (bv : Option (String × String × ℚ))
    (top : Cand) : String :=
  match bv with
  | some v => v.1
  | none => if top.meta.en_text = "" then batchFallback nam else top.meta.en_text

def ptLang (bv : Option (String × String × ℚ)) (top : Cand) : String :=
  match bv with
  | some v => v.2.1
  | none => top.meta.src_lang

def ptText (bv : Option (String × String × ℚ)) (top : Cand) : String :=
  match bv with
  | some v => v.1
  | none => top.meta.en_text

def ptBack (bv : Option (String × String × ℚ)) (top : Cand) : ℚ :=
  match bv with
  | some v => v.2.2
  | none => top.meta.back_sim

def perTarget (cfg : Cfg) (aliases : AliasIndex)
    (synonyms : List (String × String)) (store : List (String × List String))
    (backMin acceptMin : ℚ) (nam : ConceptEntry) (ms top5 : List Cand)
    (batchVals : Option (String × String × ℚ)) (url : String) : PTRes :=
  let tCodes := (store.lookup url).getD []
  match ms.filter fun m => tCodes.contains m.code with
  | [] => .nothing
  | top :: _ =>
    if cfg.translateToEn ∧ top.meta.src_lang ≠ "eng_Latn" ∧
        top.meta.back_sim < backMin ∧
        (synonyms.lookup (normalizeText top.meta.src_text)).isNone then
      .nothing
    else if top.score < acceptMin then
      if 50 ≤ top.score ∧ top.score ≤ 85 then
        .review ⟨nam.code, nam.display, top.meta.en_text, top.meta.back_sim,
          top5.map fun c => (c.code, c.label, c.score),
          if 70 ≤ top.score then "related-to" else "review", top.score⟩
      else .nothing
    else
      match decideRelationship (ptRelText nam batchVals top) (ptPrimary aliases top)
        top.score with
      | none => .nothing
      | some rel =>
        .record ⟨nam.code, nam.display, top.code, top.label, rel,
          round2 top.score, ptLang batchVals top, ptText batchVals top,
          round2 (ptBack batchVals top)⟩

def lookupOr (m : List (String × String)) (k d : String) : String :=
  pyOrStr (m.lookup k) d

structure PreData where
  preEn : List (String × String)
  preLang : List (String × String)
  preBack : List (String × ℚ)

def queueBuild (srcTag : Option String) (synonyms : List (String × String))
    (cache : List (String × (String × String × ℚ))) :
    List ConceptEntry → PreData → PreData × List String × List String
  | [], pd => (pd, [], [])
  | nam :: rest, pd =>
    let joined := joinedText nam
    match synonyms.lookup (normalizeText joined) with
    | some en =>
      queueBuild srcTag synonyms cache rest
        ⟨(nam.code, en) :: pd.preEn, (nam.code, pyOrStr srcTag "eng_Latn") :: pd.preLang,
          (nam.code, 100) :: pd.preBack⟩
    | none =>
      match cache.lookup nam.code with
      | some (en, lang, sim) =>
        if en ≠ "" then
          queueBuild srcTag synonyms cache rest
            ⟨(nam.code, en) :: pd.preEn,
              (nam.code, pyOrStr (some lang) (pyOrStr srcTag "eng_Latn")) :: pd.preLang,
              (nam.code, sim) :: pd.preBack⟩
        else
          let (pd2, qc, qt) := queueBuild srcTag synonyms cache rest pd
          (pd2, nam.code :: qc, joined :: qt)
      | none =>
        let (pd2, qc, qt) := queueBuild srcTag synonyms cache rest pd
        (pd2, nam.code :: qc, joined :: qt)

def tagActive (srcTag : Option String) : Bool :=
  match srcTag with
  | none => false
  | some t => t ≠ "" && t ≠ "eng_Latn"

def batchFoldFn (srcTag : Option String) (pd : PreData)
    (e : String × String × String × String) : PreData :=
  let sim := if tagActive srcTag then textSimilarity e.2.1 e.2.2.2 else 100
  ⟨(e.1, e.2.2.1) :: pd.preEn, (e.1, pyOrStr srcTag "eng_Latn") :: pd.preLang,
    (e.1, sim) :: pd.preBack⟩

def batchPrep (t : Translator) (inp : MapInputs) :
    Except Unit (PreData × List Call) :=
  let srcTag := NAMASTE_LANG_TAG.lookup inp.sourceName
  let (pd0, codes, texts) := queueBuild srcTag inp.synonyms inp.cache inp.concepts ⟨[], [], []⟩
  do
    let (enL, c1) ←
      if texts.isEmpty then (.ok ([], []) : Except Unit (List String × List Call))
      else batchTranslate t texts (pyOrStr srcTag "eng_Latn") "eng_Latn"
    let (backL, c2) ←
      if enL.isEmpty then (.ok ([], []) : Except Unit (List String × List Call))
      else batchTranslate t enL "eng_Latn" (pyOrStr srcTag "eng_Latn")
    let entries := codes.zip (texts.zip (enL.zip backL))
    let pd := entries.foldl (batchFoldFn srcTag) pd0
    .ok (pd, c1 ++ c2)

def conceptStep (cfg : Cfg) (emb : EmbedOracle) (tr : Option Translator)
    (inp : MapInputs) (pre : Option PreData) (nam : ConceptEntry) :
    Except Unit (List Cand × List Cand × Option (String × String × ℚ) × List Call) :=
  match pre with
  | some p =>
    let en := pyOrStr (p.preEn.lookup nam.code) (batchFallback nam)
    let lang := (p.preLang.lookup nam.code).getD
      ((NAMASTE_LANG_TAG.lookup inp.sourceName).getD "eng_Latn")
    let bs := (p.preBack.lookup nam.code).getD 100
    do
      let (m0, cs) ← findBestMatches cfg emb inp.aliases none (some "eng_Latn")
        ⟨nam.code, en, ""⟩
      let m := m0.map fun c =>
        { c with meta := { c.meta with src_lang := lang, en_text := en, back_sim := bs } }
      .ok (m, m.take 5, some (en, lang, bs), cs)
  | none => do
    let (m, cs) ← findBestMatches cfg emb inp.aliases tr
      (NAMASTE_LANG_TAG.lookup inp.sourceName) nam
    .ok (m, m.take 5, none, cs)

structure MapOut where
  mappings : List (String × List MappingRec)
  unmapped : List String
  review : List ReviewRow
  calls : List Call
deriving DecidableEq

instance {ε α : Type} [DecidableEq ε] [DecidableEq α] :
    DecidableEq (Except ε α) := fun a b =>
  match a, b with
  | .ok x, .ok y =>
    if h : x = y then isTrue (by rw [h])
    else isFalse fun hh => h (Except.ok.inj hh)
  | .error x, .error y =>
    if h : x = y then isTrue (by rw [h])
    else isFalse fun hh => h (Except.error.inj hh)
  | .ok _, .error _ => isFalse fun hh => Except.noConfusion hh
  | .error _, .ok _ => isFalse fun hh => Except.noConfusion hh

def initMapsMem (url : String) (l : List (String × String)) : Bool :=
  l.any fun t => t.2 = url

def initMaps : List (String × String) → List (String × List MappingRec)
  | [] => []
  | t :: rest =>
    let m := initMaps rest
    if initMapsMem t.2 rest then m else (t.2, []) :: m

def updateMaps (maps : List (String × List MappingRec)) (url : String)
    (r : MappingRec) : List (String × List MappingRec) :=
  maps.map fun p => if p.1 = url then (p.1, p.2 ++ [r]) else p

structure TAcc where
  maps : List (String × List MappingRec)
  review : List ReviewRow
  found : Bool

def targetsFold (cfg : Cfg) (inp : MapInputs) (backMin acceptMin : ℚ)
    (nam : ConceptEntry) (ms top5 : List Cand)
    (bv : Option (String × String × ℚ)) : List (String × String) → TAcc → TAcc
  | [], acc => acc
  | t :: rest, acc =>
    let acc' :=
      match perTarget cfg inp.aliases inp.synonyms inp.store backMin acceptMin
        nam ms top5 bv t.2 with
      | .nothing => acc
      | .review r => { acc with review := acc.review ++ [r] }
      | .record r => { acc with maps := updateMaps acc.maps t.2 r, found := true }
    targetsFold cfg inp backMin acceptMin nam ms top5 bv rest acc'

def mapLoop (cfg : Cfg) (emb : EmbedOracle) (tr : Option Translator)
    (inp : MapInputs) (pre : Option PreData) (backMin acceptMin : ℚ) :
    List ConceptEntry → MapOut → Except Unit MapOut
  | [], acc => .ok acc
  | nam :: rest, acc => do
    let (ms, top5, bv, cs) ← conceptStep cfg emb tr inp pre nam
    let tacc := targetsFold cfg inp backMin acceptMin nam ms top5 bv
      inp.targets ⟨acc.mappings, acc.review, false⟩
    mapLoop cfg emb tr inp pre backMin acceptMin rest
      ⟨tacc.maps,
        (if tacc.found then acc.unmapped else acc.unmapped ++ [nam.code]),
        tacc.review, acc.calls ++ cs⟩

def mapSystem (cfg : Cfg) (emb : EmbedOracle) (tr : Option Translator)
    (inp : MapInputs) : Except Unit MapOut :=
  let bm := systemThresholds cfg inp.sourceName
  let init : MapOut := ⟨initMaps inp.targets, [], [], []⟩
  match tr with
  | some t =>
    if cfg.translateToEn ∧ cfg.batchMode then do
      let (pre, cs0) ← batchPrep t inp
      mapLoop cfg emb (some t) inp (some pre) bm.1 bm.2 inp.concepts
        { init with calls := cs0 }
    else
      mapLoop cfg emb (some t) inp none bm.1 bm.2 inp.concepts init
  | none => mapLoop cfg emb none inp none bm.1 bm.2 inp.concepts init

def tr0 : Translator :=
  ⟨fun text _src tgt =>
    if text = "vata" ∧ tgt = "eng_Latn" then .ok "gout"
    else if text = "gout" then .ok "vata"
    else .ok ""⟩

def emb0 : EmbedOracle := ⟨fun _ => none⟩

def cfgS : Cfg := ⟨true, false, false, false, false, 70, 75⟩

def cfgB : Cfg := { cfgS with batchMode := true }

def inp0 : MapInputs :=
  { sourceName := "NAMASTE-Ayurveda"
    concepts := [⟨"C1", "vata", ""⟩]
    aliases := [("T1", ["gout"])]
    synonyms := [("vata", "vata dosha vikara")]
    cache := []
    targets := [("ICD-11 TM2", "tm2url")]
    store := [("tm2url", ["T1"])] }

def recS : MappingRec :=
  ⟨"C1", "vata", "T1", "gout", "equivalent", 100, "hin_Deva", "gout", 100⟩

def mappedAt (r : Except Unit MapOut) (url : String) : Option (List MappingRec) :=
  r.toOption.map fun o => (o.mappings.lookup url).getD []

def unmappedOf (r : Except Unit MapOut) : Option (List String) :=
  r.toOption.map fun o => o.unmapped

def callsOf (r : Except Unit MapOut) : Option (List Call) :=
  r.toOption.map fun o => o.calls

structure CMRow where
  source_id : Nat
  source_code : String
  target_id : Nat
  target_code : String
  mapping_type : String
  confidence : ℚ
  src_lang : String
  translated_text : String
  backtranslation_similarity : ℚ
  source_display : String
  target_display : String
deriving DecidableEq

def rowKey (r : CMRow) : Nat × String × Nat × String :=
  (r.source_id, r.source_code, r.target_id, r.target_code)

def keyPresent (tbl : List CMRow) (k : Nat × String × Nat × String) : Bool :=
  tbl.any fun x => rowKey x = k

def insertOrIgnore (tbl : List CMRow) (r : CMRow) : List CMRow :=
  if keyPresent tbl (rowKey r) then tbl else tbl ++ [r]

def mkRow (srcId tgtId : Nat) (m : MappingRec) : CMRow :=
  ⟨srcId, m.source_code, tgtId, m.target_code, m.mapping_type, m.confidence,
    m.src_lang, m.translated_text, m.backtranslation_similarity,
    m.source_display, m.target_display⟩

def persistGroup (srcId tgtId : Nat) (maps : List MappingRec)
    (tbl : List CMRow) : List CMRow :=
  maps.foldl (fun t m => insertOrIgnore t (mkRow srcId tgtId m)) tbl

def persistGroups (ids : List (String × Nat)) (srcId : Nat)
    (groups : List (String × String × List MappingRec)) (tbl : List CMRow) :
    List CMRow :=
  groups.foldl
    (fun t g =>
      match ids.lookup g.2.1 with
      | none => t
      | some tgtId => persistGroup srcId tgtId g.2.2 t)
    tbl

def persistDb (ids : List (String × Nat)) (sourceUrl : String)
    (groups : List (String × String × List MappingRec)) (tbl : List CMRow) :
    List CMRow :=
  match ids.lookup sourceUrl with
  | none => tbl
  | some srcId => persistGroups ids srcId groups tbl

def rowW : CMRow :=
  ⟨1, "C1", 2, "T1", "equivalent", 100, "hin_Deva", "gout", 100, "vata", "gout"⟩

def storeOK (store : List (String × List String))
    (maps : List (String × List MappingRec)) : Prop :=
  ∀ p ∈ maps, ∀ r ∈ p.2, r.target_code ∈ (store.lookup p.1).getD []

def outS : MapOut :=
  ⟨[("tm2url", [recS])], [], [],
    [("vata", "hin_Deva", "eng_Latn"), ("gout", "eng_Latn", "hin_Deva")]⟩

def candW : Cand := ⟨"T1", "ccc ddd", 72, ⟨"src text", "hin_Deva", "aaa bbb", 80⟩⟩

def AllRecs (Q : String → MappingRec → Prop)
    (maps : List (String × List MappingRec)) : Prop :=
  ∀ p ∈ maps, ∀ r ∈ p.2, Q p.1 r

def inpB2 : MapInputs := { inp0 with synonyms := [("vata", "gout")] }

def outB2 : MapOut := ⟨[("tm2url", [recS])], [], [], []⟩

def inpC : MapInputs :=
  { inp0 with synonyms := [], cache := [("C1", ("gout", "hin_Deva", 100))] }

def qbC := queueBuild (NAMASTE_LANG_TAG.lookup inpC.sourceName) inpC.synonyms
  inpC.cache inpC.concepts ⟨[], [], []⟩

def trE : Translator :=
  ⟨fun text _src _tgt =>
    if text = "vata" then .ok "gout"
    else if text = "gout" then .ok "vata"
    else .error ()⟩

def inpE : MapInputs :=
  { inp0 with
      synonyms := [],
      concepts := [⟨"C1", "vata", ""⟩, ⟨"C2", "pitta", ""⟩] }

def inpE1 : MapInputs := { inpE with concepts := [⟨"C1", "vata", ""⟩] }

def trBlank : Translator := ⟨fun _ _ _ => .ok ""⟩

def setMeta (mt : MatchMeta) (c : Cand) : Cand := { c with meta := mt }

def candSkel (cfg : Cfg) (aliases : AliasIndex) (en : String) : List Cand :=
  (sortCandsDesc (aliases.filterMap fun p =>
    scanCandidate cfg false (normalizeText en) (tokensOf en) ⟨"", "", "", 0⟩ 0
      p.1 p.2)).take 100

def inpA : MapInputs := { inp0 with synonyms := [] }

def cfgE : Cfg := { cfgS with useEmbeddings := true }

def embE : EmbedOracle := ⟨fun _ => some ["T1"]⟩

def strLeB (a b : String) : Prop := strLtB b.data a.data = false

def tpc : Nat → List Nat → List Nat → Nat → List (Nat × Nat)
  | 0, _, _, _ => []
  | _ + 1, [], _, _ => []
  | _ + 1, _ :: _, [], _ => []
  | fuel + 1, i :: is, j :: js, bd =>
    if j + bd < i then tpc fuel (i :: is) js bd
    else if i + bd < j then tpc fuel is (j :: js) bd
    else (i, j) :: tpc fuel is js bd

def grdyPick (i bd : Nat) (js : List Nat) : Option Nat :=
  js.find? fun j => decide (i ≤ j + bd) && decide (j ≤ i + bd)

def grdy : List Nat → List Nat → Nat → List (Nat × Nat)
  | [], _, _ => []
  | i :: is, js, bd =>
    match grdyPick i bd js with
    | some j => (i, j) :: grdy is (js.erase j) bd
    | none => grdy is js bd

def posC (c : Char) (l : List (Nat × Char)) : List Nat :=
  (l.filter fun p => p.2 = c).map Prod.fst

def sndKeyLe (p q : (Nat × Char) × (Nat × Char)) : Prop := p.2.1 ≤ q.2.1

def swapP (p : (Nat × Char) × (Nat × Char)) : (Nat × Char) × (Nat × Char) :=
  (p.2, p.1)

def joinSp (ts : List String) : List Char :=
  (ts.map fun t => ' ' :: t.data).flatten

/-! ## Theorems -/

theorem keyPresent_insertOrIgnore (tbl : List CMRow) (r : CMRow)
    (k : Nat × String × Nat × String) (h : keyPresent tbl k = true) :
    keyPresent (insertOrIgnore tbl r) k = true := by
  unfold insertOrIgnore
  split
  · exact h
  · unfold keyPresent at h ⊢
    simp only [List.any_append, h, Bool.true_or]

theorem keyPresent_self (tbl : List CMRow) (r : CMRow) :
    keyPresent (insertOrIgnore tbl r) (rowKey r) = true := by
  unfold insertOrIgnore
  split
  · assumption
  · unfold keyPresent
    simp [List.any_append]

theorem insertOrIgnore_of_present (tbl : List CMRow) (r : CMRow)
    (h : keyPresent tbl (rowKey r) = true) : insertOrIgnore tbl r = tbl := by
  unfold insertOrIgnore
  simp [h]

theorem keyPresent_persistGroup (srcId tgtId : Nat) (maps : List MappingRec)
    (tbl : List CMRow) (k : Nat × String × Nat × String)
    (h : keyPresent tbl k = true) :
    keyPresent (persistGroup srcId tgtId maps tbl) k = true := by
  induction maps generalizing tbl with
  | nil => exact h
  | cons m rest ih =>
    exact ih _ (keyPresent_insertOrIgnore _ _ _ h)

theorem keyPresent_persistGroup_self (srcId tgtId : Nat)
    (maps : List MappingRec) (tbl : List CMRow) (m : MappingRec)
    (hm : m ∈ maps) :
    keyPresent (persistGroup srcId tgtId maps tbl) (rowKey (mkRow srcId tgtId m)) = true := by
  induction maps generalizing tbl with
  | nil => cases hm
  | cons m0 rest ih =>
    rcases List.mem_cons.mp hm with h | h
    · subst h
      show keyPresent
        (persistGroup srcId tgtId rest (insertOrIgnore tbl (mkRow srcId tgtId m))) _ = true
      exact keyPresent_persistGroup _ _ _ _ _ (keyPresent_self _ _)
    · show keyPresent
        (persistGroup srcId tgtId rest (insertOrIgnore tbl (mkRow srcId tgtId m0))) _ = true
      exact ih _ h

theorem persistGroup_of_present (srcId tgtId : Nat) (maps : List MappingRec)
    (tbl : List CMRow)
    (h : ∀ m ∈ maps, keyPresent tbl (rowKey (mkRow srcId tgtId m)) = true) :
    persistGroup srcId tgtId maps tbl = tbl := by
  induction maps generalizing tbl with
  | nil => rfl
  | cons m rest ih =>
    unfold persistGroup
    simp only [List.foldl_cons]
    rw [insertOrIgnore_of_present _ _ (h m (List.mem_cons_self _ _))]
    exact ih _ fun m' hm' => h m' (List.mem_cons_of_mem _ hm')

theorem keyPresent_persistGroups (ids : List (String × Nat)) (srcId : Nat)
    (groups : List (String × String × List MappingRec)) (tbl : List CMRow)
    (k : Nat × String × Nat × String) (h : keyPresent tbl k = true) :
    keyPresent (persistGroups ids srcId groups tbl) k = true := by
  induction groups generalizing tbl with
  | nil => exact h
  | cons g rest ih =>
    show keyPresent (persistGroups ids srcId rest _) k = true
    cases hg : ids.lookup g.2.1 with
    | none =>
      simp only [persistGroups, List.foldl_cons, hg]
      exact ih _ h
    | some tgtId =>
      simp only [persistGroups, List.foldl_cons, hg]
      exact ih _ (keyPresent_persistGroup _ _ _ _ _ h)

theorem keyPresent_persistGroups_self (ids : List (String × Nat)) (srcId : Nat)
    (groups : List (String × String × List MappingRec)) (tbl : List CMRow)
    (g : String × String × List MappingRec) (hg : g ∈ groups) (tgtId : Nat)
    (hid : ids.lookup g.2.1 = some tgtId) (m : MappingRec) (hm : m ∈ g.2.2) :
    keyPresent (persistGroups ids srcId groups tbl)
      (rowKey (mkRow srcId tgtId m)) = true := by
  induction groups generalizing tbl with
  | nil => cases hg
  | cons g0 rest ih =>
    rcases List.mem_cons.mp hg with h | h
    · subst h
      simp only [persistGroups, List.foldl_cons, hid]
      exact keyPresent_persistGroups _ _ _ _ _
        (keyPresent_persistGroup_self _ _ _ _ _ hm)
    · simp only [persistGroups, List.foldl_cons]
      cases hg0 : ids.lookup g0.2.1 with
      | none =>
        simp only [hg0]
        exact ih _ h
      | some t0 =>
        simp only [hg0]
        exact ih _ h

theorem persistGroups_of_present (ids : List (String × Nat)) (srcId : Nat)
    (groups : List (String × String × List MappingRec)) (tbl : List CMRow)
    (h : ∀ g ∈ groups, ∀ tgtId, ids.lookup g.2.1 = some tgtId →
      ∀ m ∈ g.2.2, keyPresent tbl (rowKey (mkRow srcId tgtId m)) = true) :
    persistGroups ids srcId groups tbl = tbl := by
  induction groups generalizing tbl with
  | nil => rfl
  | cons g0 rest ih =>
    simp only [persistGroups, List.foldl_cons]
    cases hg0 : ids.lookup g0.2.1 with
    | none =>
      simp only [hg0]
      exact ih _ fun g hg tgtId hid m hm =>
        h g (List.mem_cons_of_mem _ hg) tgtId hid m hm
    | some t0 =>
      simp only [hg0]
      rw [persistGroup_of_present _ _ _ _
        (h g0 (List.mem_cons_self _ _) t0 hg0)]
      exact ih _ fun g hg tgtId hid m hm =>
        h g (List.mem_cons_of_mem _ hg) tgtId hid m hm

theorem persistDb_idempotent :
    (∀ tbl r, keyPresent tbl (rowKey r) = true → insertOrIgnore tbl r = tbl) ∧
    ∀ ids sourceUrl groups tbl,
      persistDb ids sourceUrl groups (persistDb ids sourceUrl groups tbl) =
        persistDb ids sourceUrl groups tbl := by
  refine ⟨insertOrIgnore_of_present, ?_⟩
  intro ids url groups tbl
  unfold persistDb
  cases h : ids.lookup url with
  | none => rfl
  | some srcId =>
    exact persistGroups_of_present _ _ _ _ fun g hg tgtId hid m hm =>
      keyPresent_persistGroups_self _ _ _ _ g hg tgtId hid m hm

theorem persistDb_idempotent_witness :
    insertOrIgnore [rowW] rowW = [rowW] ∧
    persistDb [("s", 1), ("t", 2)] "s" [("T", "t", [recS])]
        (persistDb [("s", 1), ("t", 2)] "s" [("T", "t", [recS])] []) =
      persistDb [("s", 1), ("t", 2)] "s" [("T", "t", [recS])] [] :=
  ⟨persistDb_idempotent.1 [rowW] rowW (by decide),
    persistDb_idempotent.2 [("s", 1), ("t", 2)] "s" [("T", "t", [recS])] []⟩

theorem except_bind_ok {α β : Type} (v : α) (f : α → Except Unit β) :
    (Except.ok v >>= f) = f v := rfl

theorem perTarget_record_mem (cfg : Cfg) (aliases : AliasIndex)
    (synonyms : List (String × String)) (store : List (String × List String))
    (backMin acceptMin : ℚ) (nam : ConceptEntry) (ms top5 : List Cand)
    (bv : Option (String × String × ℚ)) (url : String) (r : MappingRec)
    (h : perTarget cfg aliases synonyms store backMin acceptMin nam ms top5 bv url =
      .record r) : r.target_code ∈ (store.lookup url).getD [] := by
  cases hf : ms.filter fun m => ((store.lookup url).getD []).contains m.code with
  | nil =>
    simp only [perTarget, hf] at h
    cases h
  | cons top rest =>
    have htop : top ∈ ms.filter fun m => ((store.lookup url).getD []).contains m.code := by
      rw [hf]; exact List.mem_cons_self _ _
    have hc : ((store.lookup url).getD []).contains top.code = true := by
      have := List.mem_filter.mp htop
      exact this.2
    have hmem : top.code ∈ (store.lookup url).getD [] := by
      simpa using hc
    simp only [perTarget, hf] at h
    split at h
    · cases h
    · split at h
      · split at h <;> cases h
      · split at h
        · cases h
        · cases h
          exact hmem

theorem storeOK_updateMaps (store : List (String × List String))
    (maps : List (String × List MappingRec)) (url : String) (r : MappingRec)
    (hok : storeOK store maps) (hr : r.target_code ∈ (store.lookup url).getD []) :
    storeOK store (updateMaps maps url r) := by
  intro p hp r' hr'
  unfold updateMaps at hp
  rcases List.mem_map.mp hp with ⟨q, hq, hpq⟩
  by_cases hqu : q.1 = url
  · rw [if_pos hqu] at hpq
    subst hpq
    rcases List.mem_append.mp hr' with h | h
    · exact hok q hq r' h
    · rcases List.mem_singleton.mp h with rfl
      rw [hqu]
      exact hr
  · rw [if_neg hqu] at hpq
    subst hpq
    exact hok q hq r' hr'

theorem storeOK_targetsFold (cfg : Cfg) (inp : MapInputs)
    (backMin acceptMin : ℚ) (nam : ConceptEntry) (ms top5 : List Cand)
    (bv : Option (String × String × ℚ)) (targets : List (String × String))
    (acc : TAcc) (hok : storeOK inp.store acc.maps) :
    storeOK inp.store
      (targetsFold cfg inp backMin acceptMin nam ms top5 bv targets acc).maps := by
  induction targets generalizing acc with
  | nil => exact hok
  | cons t rest ih =>
    unfold targetsFold
    cases hpt : perTarget cfg inp.aliases inp.synonyms inp.store backMin acceptMin
      nam ms top5 bv t.2 with
    | nothing => exact ih _ hok
    | review r => exact ih _ hok
    | record r =>
      exact ih _ (storeOK_updateMaps _ _ _ _ hok
        (perTarget_record_mem _ _ _ _ _ _ _ _ _ _ _ _ hpt))

theorem storeOK_mapLoop (cfg : Cfg) (emb : EmbedOracle) (tr : Option Translator)
    (inp : MapInputs) (pre : Option PreData) (backMin acceptMin : ℚ)
    (l : List ConceptEntry) (acc : MapOut) (out : MapOut)
    (h : mapLoop cfg emb tr inp pre backMin acceptMin l acc = .ok out)
    (hok : storeOK inp.store acc.mappings) : storeOK inp.store out.mappings := by
  induction l generalizing acc with
  | nil =>
    unfold mapLoop at h
    cases h
    exact hok
  | cons nam rest ih =>
    unfold mapLoop at h
    cases hstep : conceptStep cfg emb tr inp pre nam with
    | error e => rw [hstep] at h; cases h
    | ok v =>
      rw [hstep, except_bind_ok] at h
      exact ih _ h (storeOK_targetsFold _ _ _ _ _ _ _ _ _ _ hok)

theorem storeOK_initMaps (store : List (String × List String))
    (targets : List (String × String)) : storeOK store (initMaps targets) := by
  intro p hp r hr
  exfalso
  induction targets with
  | nil => cases hp
  | cons t rest ih =>
    unfold initMaps at hp
    by_cases hmem : initMapsMem t.2 rest = true
    · rw [if_pos hmem] at hp
      exact ih hp
    · rw [if_neg hmem] at hp
      rcases List.mem_cons.mp hp with h | h
      · rw [h] at hr
        cases hr
      · exact ih h

theorem mapSystem_targetCode_in_store (cfg : Cfg) (emb : EmbedOracle)
    (tr : Option Translator) (inp : MapInputs) (out : MapOut)
    (h : mapSystem cfg emb tr inp = .ok out) :
    ∀ p ∈ out.mappings, ∀ r ∈ p.2,
      r.target_code ∈ (inp.store.lookup p.1).getD [] := by
  have hinit : storeOK inp.store (initMaps inp.targets) := storeOK_initMaps _ _
  cases tr with
  | none =>
    simp only [mapSystem] at h
    exact storeOK_mapLoop _ _ _ _ _ _ _ _ _ _ h hinit
  | some t =>
    simp only [mapSystem] at h
    by_cases hb : cfg.translateToEn = true ∧ cfg.batchMode = true
    · rw [if_pos hb] at h
      cases hprep : batchPrep t inp with
      | error e => rw [hprep] at h; cases h
      | ok v =>
        obtain ⟨pre, cs0⟩ := v
        rw [hprep, except_bind_ok] at h
        exact storeOK_mapLoop _ _ _ _ _ _ _ _ _ _ h hinit
    · rw [if_neg hb] at h
      exact storeOK_mapLoop _ _ _ _ _ _ _ _ _ _ h hinit

theorem mapSystem_targetCode_in_store_witness :
    recS.target_code ∈ (inp0.store.lookup "tm2url").getD [] :=
  mapSystem_targetCode_in_store cfgS emb0 (some tr0) inp0 outS (by decide)
    ("tm2url", [recS]) (by decide) recS (by decide)

theorem decideRelationship_strictSubset_counterexample :
    specRelationship "ear ear eye arm" "ear eye arm leg" 89 =
      some "source-is-broader-than-target" ∧
    strictSubsetSet (tokensOf "ear ear eye arm") (tokensOf "ear eye arm leg") = true ∧
    (7 : ℚ)/10 ≤ tokenOverlapQ (tokensOf "ear ear eye arm") (tokensOf "ear eye arm leg") ∧
    decideRelationship "ear ear eye arm" "ear eye arm leg" 89 = some "related-to" := by
  refine ⟨by decide, by decide, by decide, by decide⟩

theorem decideRelationship_eq_claimClassifyAmended (namText icdPrimary : String)
    (s : ℚ) :
    decideRelationship namText icdPrimary s =
      claimClassifyAmended (tokensOf namText) (tokensOf icdPrimary)
        (normalizeText namText == normalizeText icdPrimary) s := by
  by_cases hn : normalizeText namText = normalizeText icdPrimary <;>
    simp [decideRelationship, claimClassifyAmended, RELATED_THRESHOLD, hn]

theorem perTarget_score72_related (cfg : Cfg) (aliases : AliasIndex)
    (synonyms : List (String × String)) (store : List (String × List String))
    (backMin acceptMin : ℚ) (nam : ConceptEntry) (ms top5 : List Cand)
    (bv : Option (String × String × ℚ)) (url : String) (top : Cand)
    (rest : List Cand)
    (hf : ms.filter (fun m => ((store.lookup url).getD []).contains m.code) =
      top :: rest)
    (hscore : top.score = 72)
    (hgate : ¬ (cfg.translateToEn = true ∧ top.meta.src_lang ≠ "eng_Latn" ∧
      top.meta.back_sim < backMin ∧
      (synonyms.lookup (normalizeText top.meta.src_text)).isNone = true))
    (haccept : acceptMin ≤ 72)
    (hnorm : normalizeText (ptRelText nam bv top) ≠
      normalizeText (ptPrimary aliases top))
    (hjac : jaccardQ (tokensOf (ptRelText nam bv top))
      (tokensOf (ptPrimary aliases top)) < (9 : ℚ)/10) :
    perTarget cfg aliases synonyms store backMin acceptMin nam ms top5 bv url =
      .record ⟨nam.code, nam.display, top.code, top.label, "related-to", 72,
        ptLang bv top, ptText bv top, round2 (ptBack bv top)⟩ := by
  have h96 : ¬ ((96 : ℚ) ≤ 72 ∨
      normalizeText (ptRelText nam bv top) = normalizeText (ptPrimary aliases top) ∨
      (9 : ℚ)/10 ≤ jaccardQ (tokensOf (ptRelText nam bv top))
        (tokensOf (ptPrimary aliases top))) := by
    push_neg
    exact ⟨by norm_num, hnorm, hjac⟩
  have hrel : decideRelationship (ptRelText nam bv top) (ptPrimary aliases top)
      72 = some "related-to" := by
    simp only [decideRelationship, RELATED_THRESHOLD]
    rw [if_neg h96, if_neg ?hB, if_neg ?hC, if_pos ?hD]
    case hB => rintro ⟨h, -⟩; norm_num at h
    case hC => rintro ⟨h, -⟩; norm_num at h
    case hD => norm_num
  simp only [perTarget, hf]
  rw [if_neg hgate, hscore, if_neg (not_lt.mpr haccept), hrel]
  rw [show round2 (72 : ℚ) = 72 from by decide]

theorem perTarget_score72_related_witness :
    perTarget cfgS [("T1", ["ccc ddd"])] [] [("u", ["T1"])] 60 65
      ⟨"C9", "disp", ""⟩ [candW] [candW] none "u" =
      .record ⟨"C9", "disp", "T1", "ccc ddd", "related-to", 72,
        ptLang none candW, ptText none candW, round2 (ptBack none candW)⟩ :=
  perTarget_score72_related cfgS [("T1", ["ccc ddd"])] [] [("u", ["T1"])] 60 65
    ⟨"C9", "disp", ""⟩ [candW] [candW] none "u" candW []
    (by decide) (by decide) (by decide) (by norm_num) (by decide) (by decide)

theorem AllRecs_updateMaps (Q : String → MappingRec → Prop)
    (maps : List (String × List MappingRec)) (url : String) (r : MappingRec)
    (h : AllRecs Q maps) (hr : Q url r) : AllRecs Q (updateMaps maps url r) := by
  intro p hp r' hr'
  unfold updateMaps at hp
  rcases List.mem_map.mp hp with ⟨q, hq, hpq⟩
  by_cases hqu : q.1 = url
  · rw [if_pos hqu] at hpq
    subst hpq
    rcases List.mem_append.mp hr' with hmem | hmem
    · exact h q hq r' hmem
    · rcases List.mem_singleton.mp hmem with rfl
      rw [hqu]
      exact hr
  · rw [if_neg hqu] at hpq
    subst hpq
    exact h q hq r' hr'

theorem AllRecs_targetsFold (Q : String → MappingRec → Prop) (cfg : Cfg)
    (inp : MapInputs) (backMin acceptMin : ℚ) (nam : ConceptEntry)
    (ms top5 : List Cand) (bv : Option (String × String × ℚ))
    (targets : List (String × String)) (acc : TAcc)
    (hacc : AllRecs Q acc.maps)
    (hpt : ∀ url r, perTarget cfg inp.aliases inp.synonyms inp.store backMin
      acceptMin nam ms top5 bv url = .record r → Q url r) :
    AllRecs Q (targetsFold cfg inp backMin acceptMin nam ms top5 bv targets acc).maps := by
  induction targets generalizing acc with
  | nil => exact hacc
  | cons t rest ih =>
    unfold targetsFold
    cases hstep : perTarget cfg inp.aliases inp.synonyms inp.store backMin
      acceptMin nam ms top5 bv t.2 with
    | nothing => exact ih _ hacc
    | review r => exact ih _ hacc
    | record r => exact ih _ (AllRecs_updateMaps _ _ _ _ hacc (hpt _ _ hstep))

theorem AllRecs_mapLoop (Q : String → MappingRec → Prop) (cfg : Cfg)
    (emb : EmbedOracle) (tr : Option Translator) (inp : MapInputs)
    (pre : Option PreData) (backMin acceptMin : ℚ) (l : List ConceptEntry)
    (acc : MapOut) (out : MapOut)
    (h : mapLoop cfg emb tr inp pre backMin acceptMin l acc = .ok out)
    (hacc : AllRecs Q acc.mappings)
    (hstep : ∀ nam ∈ l, ∀ v, conceptStep cfg emb tr inp pre nam = .ok v →
      ∀ url r, perTarget cfg inp.aliases inp.synonyms inp.store backMin
        acceptMin nam v.1 v.2.1 v.2.2.1 url = .record r → Q url r) :
    AllRecs Q out.mappings := by
  induction l generalizing acc with
  | nil =>
    unfold mapLoop at h
    cases h
    exact hacc
  | cons nam rest ih =>
    unfold mapLoop at h
    cases hv : conceptStep cfg emb tr inp pre nam with
    | error e => rw [hv] at h; cases h
    | ok v =>
      rw [hv, except_bind_ok] at h
      obtain ⟨ms, top5, bv, cs⟩ := v
      refine ih _ h ?_ fun nam' hmem' => hstep nam' (List.mem_cons_of_mem _ hmem')
      exact AllRecs_targetsFold _ _ _ _ _ _ _ _ _ _ _ hacc
        fun url r hrec => hstep nam (List.mem_cons_self _ _) _ hv url r hrec

theorem perTarget_record_shape (cfg : Cfg) (aliases : AliasIndex)
    (synonyms : List (String × String)) (store : List (String × List String))
    (backMin acceptMin : ℚ) (nam : ConceptEntry) (ms top5 : List Cand)
    (bv : Option (String × String × ℚ)) (url : String) (r : MappingRec)
    (h : perTarget cfg aliases synonyms store backMin acceptMin nam ms top5 bv url =
      .record r) :
    ∃ top rel, r = ⟨nam.code, nam.display, top.code, top.label, rel,
      round2 top.score, ptLang bv top, ptText bv top, round2 (ptBack bv top)⟩ := by
  cases hf : ms.filter fun m => ((store.lookup url).getD []).contains m.code with
  | nil =>
    simp only [perTarget, hf] at h
    cases h
  | cons top rest =>
    simp only [perTarget, hf] at h
    split at h
    · cases h
    · split at h
      · split at h <;> cases h
      · split at h
        · cases h
        · cases h
          exact ⟨top, _, rfl⟩

theorem maybeTranslate_none (cfg : Cfg) (srcTag : Option String) (text : String) :
    ∃ v, maybeTranslate cfg none srcTag text = .ok (v, []) := by
  unfold maybeTranslate
  split
  · exact ⟨_, rfl⟩
  · exact ⟨_, rfl⟩

theorem findBestMatches_none (cfg : Cfg) (emb : EmbedOracle)
    (aliases : AliasIndex) (srcTag : Option String) (nam : ConceptEntry) :
    ∃ l, findBestMatches cfg emb aliases none srcTag nam = .ok (l, []) := by
  by_cases hj : joinedText nam = ""
  · refine ⟨[], ?_⟩
    simp only [findBestMatches, hj, if_pos]
  · obtain ⟨v, hv⟩ := maybeTranslate_none cfg srcTag (joinedText nam)
    obtain ⟨en, lang, bs⟩ := v
    simp only [findBestMatches, if_neg hj, hv, except_bind_ok]
    exact ⟨_, rfl⟩

theorem conceptStep_batch (cfg : Cfg) (emb : EmbedOracle) (t : Translator)
    (inp : MapInputs) (p : PreData) (nam : ConceptEntry) :
    ∃ m, conceptStep cfg emb (some t) inp (some p) nam =
      .ok (m, m.take 5,
        some (pyOrStr (p.preEn.lookup nam.code) (batchFallback nam),
          (p.preLang.lookup nam.code).getD
            ((NAMASTE_LANG_TAG.lookup inp.sourceName).getD "eng_Latn"),
          (p.preBack.lookup nam.code).getD 100), []) := by
  obtain ⟨l, hl⟩ := findBestMatches_none cfg emb inp.aliases (some "eng_Latn")
    ⟨nam.code, pyOrStr (p.preEn.lookup nam.code) (batchFallback nam), ""⟩
  refine ⟨l.map fun c =>
    { c with meta := { c.meta with
        src_lang := (p.preLang.lookup nam.code).getD
          ((NAMASTE_LANG_TAG.lookup inp.sourceName).getD "eng_Latn"),
        en_text := pyOrStr (p.preEn.lookup nam.code) (batchFallback nam),
        back_sim := (p.preBack.lookup nam.code).getD 100 } }, ?_⟩
  simp only [conceptStep]
  rw [hl, except_bind_ok]

theorem batchTranslate_calls (t : Translator) (texts : List String)
    (src tgt : String) (rs : List String) (cs : List Call)
    (h : batchTranslate t texts src tgt = .ok (rs, cs)) :
    cs = texts.map (fun x => (x, src, tgt)) ∧ rs.length = texts.length := by
  induction texts generalizing rs cs with
  | nil =>
    unfold batchTranslate at h
    cases h
    exact ⟨rfl, rfl⟩
  | cons x xs ih =>
    unfold batchTranslate at h
    cases hr : t.run x src tgt with
    | error e => rw [hr] at h; cases h
    | ok r =>
      rw [hr, except_bind_ok] at h
      cases hrest : batchTranslate t xs src tgt with
      | error e => rw [hrest] at h; cases h
      | ok v =>
        obtain ⟨rs', cs'⟩ := v
        rw [hrest, except_bind_ok] at h
        cases h
        obtain ⟨hc, hl⟩ := ih rs' cs' hrest
        exact ⟨by rw [List.map_cons, hc], by simp [hl]⟩

theorem lookup_cons_ne {β : Type} (k a : String) (b : β)
    (l : List (String × β)) (h : (k == a) = false) :
    List.lookup k ((a, b) :: l) = List.lookup k l := by
  simp [List.lookup, h]

theorem lookup_cons_self {β : Type} (k : String) (b : β)
    (l : List (String × β)) : List.lookup k ((k, b) :: l) = some b := by
  simp [List.lookup]

theorem queueBuild_preserve (srcTag : Option String)
    (synonyms : List (String × String))
    (cache : List (String × (String × String × ℚ)))
    (concepts : List ConceptEntry) (pd : PreData) (k : String)
    (hk : ∀ c ∈ concepts, c.code ≠ k) :
    (queueBuild srcTag synonyms cache concepts pd).1.preEn.lookup k =
        pd.preEn.lookup k ∧
    (queueBuild srcTag synonyms cache concepts pd).1.preLang.lookup k =
        pd.preLang.lookup k ∧
    (queueBuild srcTag synonyms cache concepts pd).1.preBack.lookup k =
        pd.preBack.lookup k ∧
    k ∉ (queueBuild srcTag synonyms cache concepts pd).2.1 := by
  induction concepts generalizing pd with
  | nil => simp [queueBuild]
  | cons c rest ih =>
    have hck : c.code ≠ k := hk c (List.mem_cons_self _ _)
    have hbeq : (k == c.code) = false := beq_eq_false_iff_ne.mpr (Ne.symm hck)
    have hkr : ∀ c' ∈ rest, c'.code ≠ k := fun c' hc' =>
      hk c' (List.mem_cons_of_mem _ hc')
    simp only [queueBuild]
    cases hs : synonyms.lookup (normalizeText (joinedText c)) with
    | some en =>
      simp only [hs]
      obtain ⟨h1, h2, h3, h4⟩ := ih ⟨(c.code, en) :: pd.preEn,
        (c.code, pyOrStr srcTag "eng_Latn") :: pd.preLang,
        (c.code, 100) :: pd.preBack⟩ hkr
      refine ⟨?_, ?_, ?_, h4⟩
      · rw [h1]; exact lookup_cons_ne _ _ _ _ hbeq
      · rw [h2]; exact lookup_cons_ne _ _ _ _ hbeq
      · rw [h3]; exact lookup_cons_ne _ _ _ _ hbeq
    | none =>
      simp only [hs]
      cases hc : cache.lookup c.code with
      | some trip =>
        obtain ⟨en, lang, sim⟩ := trip
        simp only [hc]
        by_cases hen : en ≠ ""
        · rw [if_pos hen]
          obtain ⟨h1, h2, h3, h4⟩ := ih ⟨(c.code, en) :: pd.preEn,
            (c.code, pyOrStr (some lang) (pyOrStr srcTag "eng_Latn")) :: pd.preLang,
            (c.code, sim) :: pd.preBack⟩ hkr
          refine ⟨?_, ?_, ?_, h4⟩
          · rw [h1]; exact lookup_cons_ne _ _ _ _ hbeq
          · rw [h2]; exact lookup_cons_ne _ _ _ _ hbeq
          · rw [h3]; exact lookup_cons_ne _ _ _ _ hbeq
        · rw [if_neg hen]
          rcases hqb : queueBuild srcTag synonyms cache rest pd with ⟨pd2, qc, qt⟩
          obtain ⟨h1, h2, h3, h4⟩ := ih pd hkr
          rw [hqb] at h1 h2 h3 h4
          refine ⟨h1, h2, h3, ?_⟩
          simp only [List.mem_cons]
          rintro (rfl | hmem)
          · exact hck rfl
          · exact h4 hmem
      | none =>
        simp only [hc]
        rcases hqb : queueBuild srcTag synonyms cache rest pd with ⟨pd2, qc, qt⟩
        obtain ⟨h1, h2, h3, h4⟩ := ih pd hkr
        rw [hqb] at h1 h2 h3 h4
        refine ⟨h1, h2, h3, ?_⟩
        simp only [List.mem_cons]
        rintro (rfl | hmem)
        · exact hck rfl
        · exact h4 hmem

theorem queueBuild_syn (srcTag : Option String)
    (synonyms : List (String × String))
    (cache : List (String × (String × String × ℚ)))
    (concepts : List ConceptEntry) (pd : PreData) (nam : ConceptEntry)
    (v : String) (hnd : (concepts.map ConceptEntry.code).Nodup)
    (hmem : nam ∈ concepts)
    (hsyn : synonyms.lookup (normalizeText (joinedText nam)) = some v) :
    (queueBuild srcTag synonyms cache concepts pd).1.preEn.lookup nam.code = some v ∧
    (queueBuild srcTag synonyms cache concepts pd).1.preLang.lookup nam.code =
      some (pyOrStr srcTag "eng_Latn") ∧
    (queueBuild srcTag synonyms cache concepts pd).1.preBack.lookup nam.code = some 100 ∧
    nam.code ∉ (queueBuild srcTag synonyms cache concepts pd).2.1 := by
  induction concepts generalizing pd with
  | nil => cases hmem
  | cons c rest ih =>
    rw [List.map_cons, List.nodup_cons] at hnd
    rcases List.mem_cons.mp hmem with rfl | hmem'
    · simp only [queueBuild, hsyn]
      have hkr : ∀ c' ∈ rest, c'.code ≠ nam.code := fun c' hc' heq =>
        hnd.1 (heq ▸ List.mem_map_of_mem _ hc')
      obtain ⟨h1, h2, h3, h4⟩ := queueBuild_preserve srcTag synonyms cache rest
        ⟨(nam.code, v) :: pd.preEn,
          (nam.code, pyOrStr srcTag "eng_Latn") :: pd.preLang,
          (nam.code, 100) :: pd.preBack⟩ nam.code hkr
      refine ⟨?_, ?_, ?_, h4⟩
      · rw [h1]; exact lookup_cons_self _ _ _
      · rw [h2]; exact lookup_cons_self _ _ _
      · rw [h3]; exact lookup_cons_self _ _ _
    · have hcne : c.code ≠ nam.code := fun heq => by
        have : nam.code ∈ rest.map ConceptEntry.code := List.mem_map_of_mem _ hmem'
        exact hnd.1 (heq ▸ this)
      simp only [queueBuild]
      cases hs : synonyms.lookup (normalizeText (joinedText c)) with
      | some en =>
        simp only [hs]
        exact ih _ hnd.2 hmem'
      | none =>
        simp only [hs]
        cases hc : cache.lookup c.code with
        | some trip =>
          obtain ⟨en, lang, sim⟩ := trip
          simp only [hc]
          by_cases hen : en ≠ ""
          · rw [if_pos hen]
            exact ih _ hnd.2 hmem'
          · rw [if_neg hen]
            rcases hqb : queueBuild srcTag synonyms cache rest pd with ⟨pd2, qc, qt⟩
            obtain ⟨h1, h2, h3, h4⟩ := ih pd hnd.2 hmem'
            rw [hqb] at h1 h2 h3 h4
            refine ⟨h1, h2, h3, ?_⟩
            simp only [List.mem_cons]
            rintro (heq | hq)
            · exact hcne heq.symm
            · exact h4 hq
        | none =>
          simp only [hc]
          rcases hqb : queueBuild srcTag synonyms cache rest pd with ⟨pd2, qc, qt⟩
          obtain ⟨h1, h2, h3, h4⟩ := ih pd hnd.2 hmem'
          rw [hqb] at h1 h2 h3 h4
          refine ⟨h1, h2, h3, ?_⟩
          simp only [List.mem_cons]
          rintro (heq | hq)
          · exact hcne heq.symm
          · exact h4 hq

theorem queueBuild_cache (srcTag : Option String)
    (synonyms : List (String × String))
    (cache : List (String × (String × String × ℚ)))
    (concepts : List ConceptEntry) (pd : PreData) (nam : ConceptEntry)
    (en lang : String) (sim : ℚ)
    (hnd : (concepts.map ConceptEntry.code).Nodup) (hmem : nam ∈ concepts)
    (hsyn : synonyms.lookup (normalizeText (joinedText nam)) = none)
    (hcache : cache.lookup nam.code = some (en, lang, sim)) (hen : en ≠ "") :
    (queueBuild srcTag synonyms cache concepts pd).1.preEn.lookup nam.code = some en ∧
    (queueBuild srcTag synonyms cache concepts pd).1.preLang.lookup nam.code =
      some (pyOrStr (some lang) (pyOrStr srcTag "eng_Latn")) ∧
    (queueBuild srcTag synonyms cache concepts pd).1.preBack.lookup nam.code = some sim ∧
    nam.code ∉ (queueBuild srcTag synonyms cache concepts pd).2.1 := by
  induction concepts generalizing pd with
  | nil => cases hmem
  | cons c rest ih =>
    rw [List.map_cons, List.nodup_cons] at hnd
    rcases List.mem_cons.mp hmem with rfl | hmem'
    · simp only [queueBuild, hsyn, hcache, if_pos hen]
      have hkr : ∀ c' ∈ rest, c'.code ≠ nam.code := fun c' hc' heq =>
        hnd.1 (heq ▸ List.mem_map_of_mem _ hc')
      obtain ⟨h1, h2, h3, h4⟩ := queueBuild_preserve srcTag synonyms cache rest
        ⟨(nam.code, en) :: pd.preEn,
          (nam.code, pyOrStr (some lang) (pyOrStr srcTag "eng_Latn")) :: pd.preLang,
          (nam.code, sim) :: pd.preBack⟩ nam.code hkr
      refine ⟨?_, ?_, ?_, h4⟩
      · rw [h1]; exact lookup_cons_self _ _ _
      · rw [h2]; exact lookup_cons_self _ _ _
      · rw [h3]; exact lookup_cons_self _ _ _
    · have hcne : c.code ≠ nam.code := fun heq => by
        have : nam.code ∈ rest.map ConceptEntry.code := List.mem_map_of_mem _ hmem'
        exact hnd.1 (heq ▸ this)
      simp only [queueBuild]
      cases hs : synonyms.lookup (normalizeText (joinedText c)) with
      | some en' =>
        simp only [hs]
        exact ih _ hnd.2 hmem'
      | none =>
        simp only [hs]
        cases hc : cache.lookup c.code with
        | some trip =>
          obtain ⟨en', lang', sim'⟩ := trip
          simp only [hc]
          by_cases hen' : en' ≠ ""
          · rw [if_pos hen']
            exact ih _ hnd.2 hmem'
          · rw [if_neg hen']
            rcases hqb : queueBuild srcTag synonyms cache rest pd with ⟨pd2, qc, qt⟩
            obtain ⟨h1, h2, h3, h4⟩ := ih pd hnd.2 hmem'
            rw [hqb] at h1 h2 h3 h4
            refine ⟨h1, h2, h3, ?_⟩
            simp only [List.mem_cons]
            rintro (heq | hq)
            · exact hcne heq.symm
            · exact h4 hq
        | none =>
          simp only [hc]
          rcases hqb : queueBuild srcTag synonyms cache rest pd with ⟨pd2, qc, qt⟩
          obtain ⟨h1, h2, h3, h4⟩ := ih pd hnd.2 hmem'
          rw [hqb] at h1 h2 h3 h4
          refine ⟨h1, h2, h3, ?_⟩
          simp only [List.mem_cons]
          rintro (heq | hq)
          · exact hcne heq.symm
          · exact h4 hq

theorem batchFold_preserve (srcTag : Option String)
    (entries : List (String × String × String × String)) (pd : PreData)
    (k : String) (hk : ∀ e ∈ entries, e.1 ≠ k) :
    (entries.foldl (batchFoldFn srcTag) pd).preEn.lookup k = pd.preEn.lookup k ∧
    (entries.foldl (batchFoldFn srcTag) pd).preLang.lookup k = pd.preLang.lookup k ∧
    (entries.foldl (batchFoldFn srcTag) pd).preBack.lookup k = pd.preBack.lookup k := by
  induction entries generalizing pd with
  | nil => exact ⟨rfl, rfl, rfl⟩
  | cons e rest ih =>
    have he : e.1 ≠ k := hk e (List.mem_cons_self _ _)
    have hbeq : (k == e.1) = false := beq_eq_false_iff_ne.mpr (Ne.symm he)
    have hr : ∀ e' ∈ rest, e'.1 ≠ k := fun e' h' => hk e' (List.mem_cons_of_mem _ h')
    obtain ⟨h1, h2, h3⟩ := ih (batchFoldFn srcTag pd e) hr
    simp only [List.foldl_cons]
    refine ⟨?_, ?_, ?_⟩
    · rw [h1]; exact lookup_cons_ne _ _ _ _ hbeq
    · rw [h2]; exact lookup_cons_ne _ _ _ _ hbeq
    · rw [h3]; exact lookup_cons_ne _ _ _ _ hbeq

theorem batchPrep_parts (t : Translator) (inp : MapInputs) (pre : PreData)
    (cs : List Call) (h : batchPrep t inp = .ok (pre, cs)) :
    (∀ k, k ∉ (queueBuild (NAMASTE_LANG_TAG.lookup inp.sourceName) inp.synonyms
        inp.cache inp.concepts ⟨[], [], []⟩).2.1 →
      pre.preEn.lookup k =
        (queueBuild (NAMASTE_LANG_TAG.lookup inp.sourceName) inp.synonyms
          inp.cache inp.concepts ⟨[], [], []⟩).1.preEn.lookup k ∧
      pre.preLang.lookup k =
        (queueBuild (NAMASTE_LANG_TAG.lookup inp.sourceName) inp.synonyms
          inp.cache inp.concepts ⟨[], [], []⟩).1.preLang.lookup k ∧
      pre.preBack.lookup k =
        (queueBuild (NAMASTE_LANG_TAG.lookup inp.sourceName) inp.synonyms
          inp.cache inp.concepts ⟨[], [], []⟩).1.preBack.lookup k) ∧
    ∃ enL : List String,
      cs = ((queueBuild (NAMASTE_LANG_TAG.lookup inp.sourceName) inp.synonyms
          inp.cache inp.concepts ⟨[], [], []⟩).2.2.map fun x =>
            (x, pyOrStr (NAMASTE_LANG_TAG.lookup inp.sourceName) "eng_Latn",
              "eng_Latn")) ++
        (enL.map fun x =>
          (x, "eng_Latn", pyOrStr (NAMASTE_LANG_TAG.lookup inp.sourceName)
            "eng_Latn")) := by
  rcases hqb : queueBuild (NAMASTE_LANG_TAG.lookup inp.sourceName) inp.synonyms
    inp.cache inp.concepts ⟨[], [], []⟩ with ⟨pd0, codes, texts⟩
  simp only [batchPrep, hqb]
  simp only [batchPrep, hqb] at h
  by_cases hte : texts.isEmpty
  · rw [if_pos hte, except_bind_ok] at h
    rw [if_pos (by simp)] at h
    rw [except_bind_ok] at h
    cases h
    have hzip : codes.zip (texts.zip (([] : List String).zip ([] : List String))) = [] := by
      simp
    rw [hzip]
    constructor
    · intro k hk
      exact ⟨rfl, rfl, rfl⟩
    · refine ⟨[], ?_⟩
      have : texts = [] := List.isEmpty_iff.mp hte
      simp [this]
  · rw [if_neg hte] at h
    cases hbt : batchTranslate t texts
      (pyOrStr (NAMASTE_LANG_TAG.lookup inp.sourceName) "eng_Latn") "eng_Latn" with
    | error e => rw [hbt] at h; cases h
    | ok v1 =>
      obtain ⟨enL, c1⟩ := v1
      rw [hbt, except_bind_ok] at h
      obtain ⟨hc1, hl1⟩ := batchTranslate_calls _ _ _ _ _ _ hbt
      have hneL : ¬ enL.isEmpty := by
        have htne : texts ≠ [] := fun hh => hte (by simp [hh])
        intro hh
        have : enL = [] := List.isEmpty_iff.mp hh
        rw [this] at hl1
        exact htne (List.eq_nil_of_length_eq_zero hl1.symm)
      rw [if_neg hneL] at h
      cases hbt2 : batchTranslate t enL "eng_Latn"
        (pyOrStr (NAMASTE_LANG_TAG.lookup inp.sourceName) "eng_Latn") with
      | error e => rw [hbt2] at h; cases h
      | ok v2 =>
        obtain ⟨backL, c2⟩ := v2
        rw [hbt2, except_bind_ok] at h
        obtain ⟨hc2, hl2⟩ := batchTranslate_calls _ _ _ _ _ _ hbt2
        cases h
        constructor
        · intro k hk
          have hents : ∀ e ∈ codes.zip (texts.zip (enL.zip backL)), e.1 ≠ k := by
            intro e he heq
            have hmem := (List.of_mem_zip he).1
            rw [heq] at hmem
            exact hk hmem
          exact batchFold_preserve _ _ _ _ hents
        · exact ⟨enL, by rw [hc1, hc2]⟩

theorem mapLoop_calls_batch (cfg : Cfg) (emb : EmbedOracle) (t : Translator)
    (inp : MapInputs) (p : PreData) (backMin acceptMin : ℚ)
    (l : List ConceptEntry) (acc : MapOut) (out : MapOut)
    (h : mapLoop cfg emb (some t) inp (some p) backMin acceptMin l acc = .ok out) :
    out.calls = acc.calls := by
  induction l generalizing acc with
  | nil =>
    unfold mapLoop at h
    cases h
    rfl
  | cons nam rest ih =>
    unfold mapLoop at h
    obtain ⟨m, hm⟩ := conceptStep_batch cfg emb t inp p nam
    rw [hm, except_bind_ok] at h
    have := ih _ h
    rw [this]
    simp

theorem AllRecs_initMaps (Q : String → MappingRec → Prop)
    (targets : List (String × String)) : AllRecs Q (initMaps targets) := by
  intro p hp r hr
  exfalso
  induction targets with
  | nil => cases hp
  | cons t rest ih =>
    unfold initMaps at hp
    by_cases hmem : initMapsMem t.2 rest = true
    · rw [if_pos hmem] at hp
      exact ih hp
    · rw [if_neg hmem] at hp
      rcases List.mem_cons.mp hp with h | h
      · rw [h] at hr
        cases hr
      · exact ih h

theorem mapSystem_override_fields (cfg : Cfg) (emb : EmbedOracle)
    (t : Translator) (inp : MapInputs) (out : MapOut) (nam : ConceptEntry)
    (v : String)
    (hmode : cfg.translateToEn = true ∧ cfg.batchMode = true)
    (hrun : mapSystem cfg emb (some t) inp = .ok out)
    (hnd : (inp.concepts.map ConceptEntry.code).Nodup)
    (hmem : nam ∈ inp.concepts)
    (hsyn : inp.synonyms.lookup (normalizeText (joinedText nam)) = some v)
    (hv : v ≠ "") :
    ∀ p ∈ out.mappings, ∀ r ∈ p.2, r.source_code = nam.code →
      r.translated_text = v ∧ r.backtranslation_similarity = 100 := by
  simp only [mapSystem] at hrun
  rw [if_pos hmode] at hrun
  cases hprep : batchPrep t inp with
  | error e => rw [hprep] at hrun; cases hrun
  | ok vp =>
    obtain ⟨pre, cs0⟩ := vp
    rw [hprep, except_bind_ok] at hrun
    obtain ⟨hEn, hLang, hBack, hq⟩ := queueBuild_syn
      (NAMASTE_LANG_TAG.lookup inp.sourceName) inp.synonyms inp.cache
      inp.concepts ⟨[], [], []⟩ nam v hnd hmem hsyn
    obtain ⟨hpres, -⟩ := batchPrep_parts t inp pre cs0 hprep
    obtain ⟨pEn, pLang, pBack⟩ := hpres nam.code hq
    have hQ := AllRecs_mapLoop
      (fun _ r => r.source_code = nam.code →
        r.translated_text = v ∧ r.backtranslation_similarity = 100)
      cfg emb (some t) inp (some pre) _ _ inp.concepts _ out hrun
      (AllRecs_initMaps _ _) ?_
    · exact fun p hp r hr => hQ p hp r hr
    · intro nam' hmem' v' hcs url r hrec
      obtain ⟨m, hm⟩ := conceptStep_batch cfg emb t inp pre nam'
      rw [hm] at hcs
      have hv' := Except.ok.inj hcs
      subst hv'
      obtain ⟨top, rel, hr⟩ := perTarget_record_shape _ _ _ _ _ _ _ _ _ _ _ _ hrec
      subst hr
      intro hsrc
      have hsrc' : nam'.code = nam.code := hsrc
      constructor
      · show pyOrStr (pre.preEn.lookup nam'.code) (batchFallback nam') = v
        rw [hsrc', pEn, hEn]
        simp [pyOrStr, hv]
      · show round2 ((pre.preBack.lookup nam'.code).getD 100) = 100
        rw [hsrc', pBack, hBack, Option.getD_some]
        decide

theorem mapSystem_override_fields_witness :
    recS.translated_text = "gout" ∧ recS.backtranslation_similarity = 100 :=
  mapSystem_override_fields cfgB emb0 tr0 inpB2 outB2 ⟨"C1", "vata", ""⟩ "gout"
    (by decide) (by decide) (by decide) (by decide) (by decide) (by decide)
    ("tm2url", [recS]) (by decide) recS (by decide) (by decide)

theorem override_single_counterexample :
    inp0.synonyms.lookup (normalizeText (joinedText ⟨"C1", "vata", ""⟩)) =
      some "vata dosha vikara" ∧
    mappedAt (mapSystem cfgS emb0 (some tr0) inp0) "tm2url" = some [recS] ∧
    recS.translated_text ≠ "vata dosha vikara" :=
  ⟨by decide, by decide, by decide⟩

theorem mapSystem_cache_hit (cfg : Cfg) (emb : EmbedOracle) (t : Translator)
    (inp : MapInputs) (out : MapOut) (nam : ConceptEntry) (en lang : String)
    (sim : ℚ)
    (hmode : cfg.translateToEn = true ∧ cfg.batchMode = true)
    (hrun : mapSystem cfg emb (some t) inp = .ok out)
    (hnd : (inp.concepts.map ConceptEntry.code).Nodup)
    (hmem : nam ∈ inp.concepts)
    (hsyn : inp.synonyms.lookup (normalizeText (joinedText nam)) = none)
    (hcache : inp.cache.lookup nam.code = some (en, lang, sim))
    (hen : en ≠ "") :
    nam.code ∉ (queueBuild (NAMASTE_LANG_TAG.lookup inp.sourceName)
      inp.synonyms inp.cache inp.concepts ⟨[], [], []⟩).2.1 ∧
    (∃ enL : List String,
      out.calls = ((queueBuild (NAMASTE_LANG_TAG.lookup inp.sourceName)
          inp.synonyms inp.cache inp.concepts ⟨[], [], []⟩).2.2.map fun x =>
            (x, pyOrStr (NAMASTE_LANG_TAG.lookup inp.sourceName) "eng_Latn",
              "eng_Latn")) ++
        (enL.map fun x =>
          (x, "eng_Latn",
            pyOrStr (NAMASTE_LANG_TAG.lookup inp.sourceName) "eng_Latn"))) ∧
    ∃ pre cs0 m, batchPrep t inp = .ok (pre, cs0) ∧
      conceptStep cfg emb (some t) inp (some pre) nam =
        .ok (m, m.take 5,
          some (en, pyOrStr (some lang)
            (pyOrStr (NAMASTE_LANG_TAG.lookup inp.sourceName) "eng_Latn"), sim),
          []) := by
  simp only [mapSystem] at hrun
  rw [if_pos hmode] at hrun
  cases hprep : batchPrep t inp with
  | error e => rw [hprep] at hrun; cases hrun
  | ok vp =>
    obtain ⟨pre, cs0⟩ := vp
    rw [hprep, except_bind_ok] at hrun
    obtain ⟨hEn, hLang, hBack, hq⟩ := queueBuild_cache
      (NAMASTE_LANG_TAG.lookup inp.sourceName) inp.synonyms inp.cache
      inp.concepts ⟨[], [], []⟩ nam en lang sim hnd hmem hsyn hcache hen
    obtain ⟨hpres, hcalls⟩ := batchPrep_parts t inp pre cs0 hprep
    obtain ⟨pEn, pLang, pBack⟩ := hpres nam.code hq
    refine ⟨hq, ?_, ?_⟩
    · have houtc : out.calls = cs0 :=
        mapLoop_calls_batch cfg emb t inp pre _ _ inp.concepts _ out hrun
      rw [houtc]
      exact hcalls
    · obtain ⟨m, hm⟩ := conceptStep_batch cfg emb t inp pre nam
      refine ⟨pre, cs0, m, rfl, ?_⟩
      rw [pEn, hEn, pLang, hLang, pBack, hBack] at hm
      rw [show pyOrStr (some en) (batchFallback nam) = en from by
        simp [pyOrStr, hen]] at hm
      rw [Option.getD_some, Option.getD_some] at hm
      exact hm

theorem mapSystem_cache_hit_witness :
    ("C1" : String) ∉ (queueBuild (NAMASTE_LANG_TAG.lookup inpC.sourceName)
      inpC.synonyms inpC.cache inpC.concepts ⟨[], [], []⟩).2.1 ∧
    (∃ enL : List String,
      outB2.calls = ((queueBuild (NAMASTE_LANG_TAG.lookup inpC.sourceName)
          inpC.synonyms inpC.cache inpC.concepts ⟨[], [], []⟩).2.2.map fun x =>
            (x, pyOrStr (NAMASTE_LANG_TAG.lookup inpC.sourceName) "eng_Latn",
              "eng_Latn")) ++
        (enL.map fun x =>
          (x, "eng_Latn",
            pyOrStr (NAMASTE_LANG_TAG.lookup inpC.sourceName) "eng_Latn"))) ∧
    ∃ pre cs0 m, batchPrep tr0 inpC = .ok (pre, cs0) ∧
      conceptStep cfgB emb0 (some tr0) inpC (some pre)
          (⟨"C1", "vata", ""⟩ : ConceptEntry) =
        .ok (m, m.take 5,
          some ("gout", pyOrStr (some "hin_Deva")
            (pyOrStr (NAMASTE_LANG_TAG.lookup inpC.sourceName) "eng_Latn"), 100),
          []) :=
  mapSystem_cache_hit cfgB emb0 tr0 inpC outB2 ⟨"C1", "vata", ""⟩ "gout"
    "hin_Deva" 100 (by decide) (by decide) (by decide) (by decide) (by decide)
    (by decide) (by decide)

theorem cache_single_counterexample :
    inpC.cache.lookup "C1" = some ("gout", "hin_Deva", 100) ∧
    callsOf (mapSystem cfgS emb0 (some tr0) inpC) =
      some [("vata", "hin_Deva", "eng_Latn"), ("gout", "eng_Latn", "hin_Deva")] ∧
    (([("vata", "hin_Deva", "eng_Latn"), ("gout", "eng_Latn", "hin_Deva")] :
      List Call) ≠ []) :=
  ⟨by decide, by decide, by decide⟩

theorem batch_single_divergence_counterexample :
    mappedAt (mapSystem cfgS emb0 (some tr0) inp0) "tm2url" = some [recS] ∧
    mappedAt (mapSystem cfgB emb0 (some tr0) inp0) "tm2url" = some [] ∧
    unmappedOf (mapSystem cfgB emb0 (some tr0) inp0) = some ["C1"] :=
  ⟨by decide, by decide, by decide⟩

theorem translate_error_aborts_counterexample :
    mappedAt (mapSystem cfgS emb0 (some trE) inpE1) "tm2url" = some [recS] ∧
    mapSystem cfgS emb0 (some trE) inpE = .error () :=
  ⟨by decide, by decide⟩

theorem maybeTranslate_empty_degrades (cfg : Cfg) (t : Translator)
    (srcTag : Option String) (text : String)
    (hcfg : cfg.translateToEn = true) (htext : text ≠ "")
    (htag : pyOrStr srcTag "eng_Latn" ≠ "eng_Latn")
    (hrun : t.run text (pyOrStr srcTag "eng_Latn") "eng_Latn" = .ok "") :
    maybeTranslate cfg (some t) srcTag text =
      .ok ((text, pyOrStr srcTag "eng_Latn", 0),
        [(text, pyOrStr srcTag "eng_Latn", "eng_Latn")]) := by
  simp only [maybeTranslate, hcfg, htext, trCall, hrun]
  simp only [if_neg htag, if_neg htext]
  rfl

theorem maybeTranslate_empty_degrades_witness :
    maybeTranslate cfgS (some trBlank) (some "hin_Deva") "vata" =
      .ok (("vata", pyOrStr (some "hin_Deva") "eng_Latn", 0),
        [("vata", pyOrStr (some "hin_Deva") "eng_Latn", "eng_Latn")]) :=
  maybeTranslate_empty_degrades cfgS trBlank (some "hin_Deva") "vata"
    (by decide) (by decide) (by decide) rfl

theorem scanCandidate_meta (cfg : Cfg) (nn : String) (nt : List String)
    (mt mt' : MatchMeta) (bs bs' : ℚ) (code : String) (labels : List String) :
    scanCandidate cfg false nn nt mt bs code labels =
      (scanCandidate cfg false nn nt mt' bs' code labels).map
        fun c => setMeta mt c := by
  simp only [scanCandidate, setMeta]
  repeat' split
  all_goals rfl

theorem insCand_map_setMeta (mt : MatchMeta) (x : Cand) (l : List Cand) :
    insCand (setMeta mt x) (l.map (setMeta mt)) = (insCand x l).map (setMeta mt) := by
  induction l with
  | nil => rfl
  | cons y ys ih =>
    simp only [List.map_cons, insCand, setMeta]
    split
    · rw [show ({ y with meta := mt } : Cand) :: insCand { x with meta := mt }
          (List.map (setMeta mt) ys) = ({ y with meta := mt } : Cand) ::
          (insCand x ys).map (setMeta mt) from by rw [← ih]; rfl]
      rfl
    · rfl

theorem sortCands_map_setMeta (mt : MatchMeta) (l : List Cand) :
    sortCandsDesc (l.map (setMeta mt)) = (sortCandsDesc l).map (setMeta mt) := by
  induction l with
  | nil => rfl
  | cons x xs ih =>
    simp only [List.map_cons, sortCandsDesc, List.foldr_cons]
    rw [show List.foldr insCand [] (List.map (setMeta mt) xs) =
      sortCandsDesc (List.map (setMeta mt) xs) from rfl, ih]
    exact insCand_map_setMeta mt x (List.foldr insCand [] xs)

theorem except_map_ok {α β : Type} (f : α → β) (a : α) :
    (Except.map f (.ok a) : Except Unit β) = .ok (f a) := rfl

theorem joinedText_synth (code en : String) (hen : en ≠ "") :
    joinedText ⟨code, en, ""⟩ = en := by
  simp only [joinedText]
  simp [hen]
  rfl

theorem filterMap_scan_skel (cfg : Cfg) (aliases : AliasIndex) (en : String)
    (M : MatchMeta) (S : ℚ) :
    (sortCandsDesc (aliases.filterMap fun p =>
      scanCandidate cfg false (normalizeText en) (tokensOf en) M S
        p.1 p.2)).take 100 =
      (candSkel cfg aliases en).map (setMeta M) := by
  have hscan : (aliases.filterMap fun p =>
      scanCandidate cfg false (normalizeText en) (tokensOf en) M S p.1 p.2) =
      (aliases.filterMap fun p =>
        scanCandidate cfg false (normalizeText en) (tokensOf en) ⟨"", "", "", 0⟩ 0
          p.1 p.2).map (setMeta M) := by
    rw [List.map_filterMap]
    congr 1
    funext p
    exact scanCandidate_meta cfg (normalizeText en) (tokensOf en) M
      ⟨"", "", "", 0⟩ S 0 p.1 p.2
  rw [hscan, sortCands_map_setMeta, candSkel, ← List.map_take]

theorem findBestMatches_single_shape (cfg : Cfg) (emb : EmbedOracle)
    (aliases : AliasIndex) (t : Translator) (nam : ConceptEntry)
    (tag en back : String)
    (hcfg : cfg.translateToEn = true) (hne : cfg.useEmbeddings = false)
    (htag0 : tag ≠ "") (htagE : tag ≠ "eng_Latn")
    (hj : joinedText nam ≠ "")
    (hfwd : t.run (joinedText nam) tag "eng_Latn" = .ok en) (hen : en ≠ "")
    (hback : t.run en "eng_Latn" tag = .ok back) :
    findBestMatches cfg emb aliases (some t) (some tag) nam =
      .ok ((candSkel cfg aliases en).map
        (setMeta ⟨joinedText nam, tag, en, textSimilarity (joinedText nam) back⟩),
        [(joinedText nam, tag, "eng_Latn"), (en, "eng_Latn", tag)]) := by
  have hptag : pyOrStr (some tag) "eng_Latn" = tag := by
    simp [pyOrStr, htag0]
  have hmt : maybeTranslate cfg (some t) (some tag) (joinedText nam) =
      .ok ((en, tag, textSimilarity (joinedText nam) back),
        [(joinedText nam, tag, "eng_Latn"), (en, "eng_Latn", tag)]) := by
    simp only [maybeTranslate, hcfg, hptag, not_true, false_or, if_neg hj,
      if_neg htagE, trCall, hfwd, except_map_ok, except_bind_ok, if_neg hen,
      hback]
    rfl
  have hsl : effShortlist cfg emb en = none := by simp [effShortlist, hne]
  simp only [findBestMatches, if_neg hj, hmt, except_bind_ok, hsl]
  rw [show (Option.isSome (none : Option (List String))) = false from rfl]
  rw [filterMap_scan_skel]

theorem findBestMatches_synth_shape (cfg : Cfg) (emb : EmbedOracle)
    (aliases : AliasIndex) (code en : String)
    (hne : cfg.useEmbeddings = false) (hen : en ≠ "") :
    findBestMatches cfg emb aliases none (some "eng_Latn") ⟨code, en, ""⟩ =
      .ok ((candSkel cfg aliases en).map (setMeta ⟨en, "eng_Latn", en, 100⟩),
        []) := by
  have hjs : joinedText ⟨code, en, ""⟩ = en := joinedText_synth code en hen
  have hmt : maybeTranslate cfg none (some "eng_Latn") en =
      .ok ((en, "eng_Latn", 100), []) := by
    unfold maybeTranslate
    split
    · rfl
    · rfl
  have hsl : effShortlist cfg emb en = none := by simp [effShortlist, hne]
  simp only [findBestMatches, hjs, if_neg hen, hmt, except_bind_ok, hsl]
  rw [show (Option.isSome (none : Option (List String))) = false from rfl]
  rw [filterMap_scan_skel]

theorem setMeta_code (mt : MatchMeta) (c : Cand) :
    (setMeta mt c).code = c.code := rfl

theorem setMeta_label (mt : MatchMeta) (c : Cand) :
    (setMeta mt c).label = c.label := rfl

theorem setMeta_score (mt : MatchMeta) (c : Cand) :
    (setMeta mt c).score = c.score := rfl

theorem setMeta_meta (mt : MatchMeta) (c : Cand) :
    (setMeta mt c).meta = mt := rfl

theorem perTarget_meta_cong (cfgA cfgB : Cfg)
    (hTE : cfgA.translateToEn = cfgB.translateToEn) (aliases : AliasIndex)
    (synonyms : List (String × String)) (store : List (String × List String))
    (backMin acceptMin : ℚ) (nam : ConceptEntry) (skel t5 : List Cand)
    (en joined tag : String) (sim : ℚ) (hen : en ≠ "")
    (hsE : synonyms.lookup (normalizeText en) = none)
    (hsJ : synonyms.lookup (normalizeText joined) = none) (url : String) :
    perTarget cfgA aliases synonyms store backMin acceptMin nam
      (skel.map (setMeta ⟨en, tag, en, sim⟩))
      (t5.map (setMeta ⟨en, tag, en, sim⟩)) (some (en, tag, sim)) url =
    perTarget cfgB aliases synonyms store backMin acceptMin nam
      (skel.map (setMeta ⟨joined, tag, en, sim⟩))
      (t5.map (setMeta ⟨joined, tag, en, sim⟩)) none url := by
  have hfil : ∀ mt : MatchMeta,
      (skel.map (setMeta mt)).filter
        (fun m => (((store.lookup url).getD []).contains m.code)) =
      (skel.filter fun m =>
        (((store.lookup url).getD []).contains m.code)).map (setMeta mt) := by
    intro mt
    rw [List.filter_map]
    congr 1
  cases hc : skel.filter
      (fun m => (((store.lookup url).getD []).contains m.code)) with
  | nil => simp only [perTarget, hfil, hc, List.map_nil]
  | cons top rest =>
    simp only [perTarget, hfil, hc, List.map_cons, setMeta_meta, hsE, hsJ,
      Option.isNone_none, eq_self_iff_true, and_true, hTE]
    by_cases hg : cfgB.translateToEn = true ∧ ¬ tag = "eng_Latn" ∧ sim < backMin
    · rw [if_pos hg, if_pos hg]
    · rw [if_neg hg, if_neg hg]
      by_cases ha : top.score < acceptMin
      · have haA : (setMeta (⟨en, tag, en, sim⟩ : MatchMeta) top).score <
            acceptMin := ha
        have haB : (setMeta (⟨joined, tag, en, sim⟩ : MatchMeta) top).score <
            acceptMin := ha
        rw [if_pos haA, if_pos haB]
        by_cases hr : 50 ≤ top.score ∧ top.score ≤ 85
        · have hrA : 50 ≤ (setMeta (⟨en, tag, en, sim⟩ : MatchMeta) top).score ∧
              (setMeta (⟨en, tag, en, sim⟩ : MatchMeta) top).score ≤ 85 := hr
          have hrB : 50 ≤ (setMeta (⟨joined, tag, en, sim⟩ : MatchMeta) top).score ∧
              (setMeta (⟨joined, tag, en, sim⟩ : MatchMeta) top).score ≤ 85 := hr
          rw [if_pos hrA, if_pos hrB]
          simp only [List.map_map, Function.comp, setMeta_code, setMeta_label,
            setMeta_score, setMeta_meta]
          rfl
        · have hrA : ¬ (50 ≤ (setMeta (⟨en, tag, en, sim⟩ : MatchMeta) top).score ∧
              (setMeta (⟨en, tag, en, sim⟩ : MatchMeta) top).score ≤ 85) := hr
          have hrB : ¬ (50 ≤ (setMeta (⟨joined, tag, en, sim⟩ : MatchMeta) top).score ∧
              (setMeta (⟨joined, tag, en, sim⟩ : MatchMeta) top).score ≤ 85) := hr
          rw [if_neg hrA, if_neg hrB]
      · have haA : ¬ (setMeta (⟨en, tag, en, sim⟩ : MatchMeta) top).score <
            acceptMin := ha
        have haB : ¬ (setMeta (⟨joined, tag, en, sim⟩ : MatchMeta) top).score <
            acceptMin := ha
        rw [if_neg haA, if_neg haB]
        simp only [ptRelText, ptLang, ptText, ptBack, ptPrimary, setMeta_meta,
          setMeta_code, setMeta_label, setMeta_score, if_neg hen]

theorem targetsFold_meta_cong (cfgA cfgB : Cfg)
    (hTE : cfgA.translateToEn = cfgB.translateToEn) (inp : MapInputs)
    (backMin acceptMin : ℚ) (nam : ConceptEntry) (skel t5 : List Cand)
    (en joined tag : String) (sim : ℚ) (hen : en ≠ "")
    (hsE : inp.synonyms.lookup (normalizeText en) = none)
    (hsJ : inp.synonyms.lookup (normalizeText joined) = none)
    (ts : List (String × String)) (acc : TAcc) :
    targetsFold cfgA inp backMin acceptMin nam
      (skel.map (setMeta ⟨en, tag, en, sim⟩))
      (t5.map (setMeta ⟨en, tag, en, sim⟩)) (some (en, tag, sim)) ts acc =
    targetsFold cfgB inp backMin acceptMin nam
      (skel.map (setMeta ⟨joined, tag, en, sim⟩))
      (t5.map (setMeta ⟨joined, tag, en, sim⟩)) none ts acc := by
  induction ts generalizing acc with
  | nil => rfl
  | cons tg rest ih =>
    simp only [targetsFold]
    rw [perTarget_meta_cong cfgA cfgB hTE inp.aliases inp.synonyms inp.store
      backMin acceptMin nam skel t5 en joined tag sim hen hsE hsJ tg.2]
    exact ih _

theorem batch_single_agree (cfg : Cfg) (emb : EmbedOracle) (t : Translator)
    (inp : MapInputs) (nam : ConceptEntry) (tag en back : String)
    (hconc : inp.concepts = [nam])
    (hcfg : cfg.translateToEn = true) (hne : cfg.useEmbeddings = false)
    (htagL : NAMASTE_LANG_TAG.lookup inp.sourceName = some tag)
    (htag0 : tag ≠ "") (htagE : tag ≠ "eng_Latn")
    (hj : joinedText nam ≠ "")
    (hsynJ : inp.synonyms.lookup (normalizeText (joinedText nam)) = none)
    (hsynE : inp.synonyms.lookup (normalizeText en) = none)
    (hcache : inp.cache.lookup nam.code = none)
    (hfwd : t.run (joinedText nam) tag "eng_Latn" = .ok en) (hen : en ≠ "")
    (hback : t.run en "eng_Latn" tag = .ok back) :
    ∃ outB outS,
      mapSystem { cfg with batchMode := true } emb (some t) inp = .ok outB ∧
      mapSystem { cfg with batchMode := false } emb (some t) inp = .ok outS ∧
      outB.mappings = outS.mappings ∧ outB.unmapped = outS.unmapped ∧
      outB.review = outS.review := by
  have hptag : pyOrStr (some tag) "eng_Latn" = tag := by simp [pyOrStr, htag0]
  have hqb : queueBuild (some tag) inp.synonyms inp.cache [nam] ⟨[], [], []⟩ =
      (⟨[], [], []⟩, [nam.code], [joinedText nam]) := by
    simp only [queueBuild, hsynJ, hcache]
  have hbt1 : batchTranslate t [joinedText nam] tag "eng_Latn" =
      .ok ([en], [(joinedText nam, tag, "eng_Latn")]) := by
    simp only [batchTranslate, hfwd, except_bind_ok]
  have hbt2 : batchTranslate t [en] "eng_Latn" tag =
      .ok ([back], [(en, "eng_Latn", tag)]) := by
    simp only [batchTranslate, hback, except_bind_ok]
  have hta : tagActive (some tag) = true := by simp [tagActive, htag0, htagE]
  have hbp : batchPrep t inp = .ok
      (⟨[(nam.code, en)], [(nam.code, tag)],
        [(nam.code, textSimilarity (joinedText nam) back)]⟩,
        [(joinedText nam, tag, "eng_Latn"), (en, "eng_Latn", tag)]) := by
    simp only [batchPrep, hconc, htagL, hqb, hptag, hbt1, hbt2, except_bind_ok]
    simp [batchFoldFn, hta, hptag]
  have hpe : pyOrStr (some en) (batchFallback nam) = en := by
    simp [pyOrStr, hen]
  have hsynth := findBestMatches_synth_shape { cfg with batchMode := true }
    emb inp.aliases nam.code en hne hen
  have hcsB : conceptStep { cfg with batchMode := true } emb (some t) inp
      (some ⟨[(nam.code, en)], [(nam.code, tag)],
        [(nam.code, textSimilarity (joinedText nam) back)]⟩) nam =
      .ok ((candSkel { cfg with batchMode := true } inp.aliases en).map
          (setMeta ⟨en, tag, en, textSimilarity (joinedText nam) back⟩),
        ((candSkel { cfg with batchMode := true } inp.aliases en).map
          (setMeta ⟨en, tag, en, textSimilarity (joinedText nam) back⟩)).take 5,
        some (en, tag, textSimilarity (joinedText nam) back), []) := by
    simp only [conceptStep, lookup_cons_self, Option.getD_some, hpe, hsynth,
      except_bind_ok, List.map_map]
    rfl
  have hsing := findBestMatches_single_shape { cfg with batchMode := false }
    emb inp.aliases t nam tag en back hcfg hne htag0 htagE hj hfwd hen hback
  have hcsS : conceptStep { cfg with batchMode := false } emb (some t) inp
      none nam =
      .ok ((candSkel { cfg with batchMode := false } inp.aliases en).map
          (setMeta ⟨joinedText nam, tag, en,
            textSimilarity (joinedText nam) back⟩),
        ((candSkel { cfg with batchMode := false } inp.aliases en).map
          (setMeta ⟨joinedText nam, tag, en,
            textSimilarity (joinedText nam) back⟩)).take 5,
        none,
        [(joinedText nam, tag, "eng_Latn"), (en, "eng_Latn", tag)]) := by
    simp only [conceptStep, htagL, hsing, except_bind_ok]
  set TB := targetsFold { cfg with batchMode := true } inp
      (systemThresholds { cfg with batchMode := true } inp.sourceName).1
      (systemThresholds { cfg with batchMode := true } inp.sourceName).2 nam
      ((candSkel { cfg with batchMode := true } inp.aliases en).map
        (setMeta ⟨en, tag, en, textSimilarity (joinedText nam) back⟩))
      (((candSkel { cfg with batchMode := true } inp.aliases en).map
        (setMeta ⟨en, tag, en, textSimilarity (joinedText nam) back⟩)).take 5)
      (some (en, tag, textSimilarity (joinedText nam) back)) inp.targets
      ⟨initMaps inp.targets, [], false⟩ with hTBdef
  set TS := targetsFold { cfg with batchMode := false } inp
      (systemThresholds { cfg with batchMode := false } inp.sourceName).1
      (systemThresholds { cfg with batchMode := false } inp.sourceName).2 nam
      ((candSkel { cfg with batchMode := false } inp.aliases en).map
        (setMeta ⟨joinedText nam, tag, en,
          textSimilarity (joinedText nam) back⟩))
      (((candSkel { cfg with batchMode := false } inp.aliases en).map
        (setMeta ⟨joinedText nam, tag, en,
          textSimilarity (joinedText nam) back⟩)).take 5) none inp.targets
      ⟨initMaps inp.targets, [], false⟩ with hTSdef
  have hsk : candSkel { cfg with batchMode := false } inp.aliases en =
      candSkel { cfg with batchMode := true } inp.aliases en := rfl
  have hst : systemThresholds { cfg with batchMode := false } inp.sourceName =
      systemThresholds { cfg with batchMode := true } inp.sourceName := rfl
  have hkey : TB = TS := by
    rw [hTBdef, hTSdef, hsk, hst, ← List.map_take, ← List.map_take]
    exact targetsFold_meta_cong { cfg with batchMode := true }
      { cfg with batchMode := false } rfl inp
      (systemThresholds { cfg with batchMode := true } inp.sourceName).1
      (systemThresholds { cfg with batchMode := true } inp.sourceName).2 nam
      (candSkel { cfg with batchMode := true } inp.aliases en)
      ((candSkel { cfg with batchMode := true } inp.aliases en).take 5) en
      (joinedText nam) tag (textSimilarity (joinedText nam) back) hen hsynE
      hsynJ inp.targets ⟨initMaps inp.targets, [], false⟩
  refine ⟨⟨TB.maps, if TB.found then [] else [nam.code], TB.review,
      [(joinedText nam, tag, "eng_Latn"), (en, "eng_Latn", tag)] ++ []⟩,
    ⟨TS.maps, if TS.found then [] else [nam.code], TS.review,
      [] ++ [(joinedText nam, tag, "eng_Latn"), (en, "eng_Latn", tag)]⟩,
    ?_, ?_, ?_, ?_, ?_⟩
  · rw [hTBdef]
    simp only [mapSystem]
    rw [if_pos ⟨hcfg, by trivial⟩, hbp, except_bind_ok]
    simp only [hconc, mapLoop, hcsB, except_bind_ok]
    rfl
  · rw [hTSdef]
    simp only [mapSystem]
    rw [if_neg fun h => absurd h.2 (by decide)]
    simp only [hconc, mapLoop, hcsS, except_bind_ok]
    rfl
  · rw [hkey]
  · rw [hkey]
  · rw [hkey]

theorem batch_single_agree_witness :
    ∃ outB outS,
      mapSystem { cfgS with batchMode := true } emb0 (some tr0) inpA =
        .ok outB ∧
      mapSystem { cfgS with batchMode := false } emb0 (some tr0) inpA =
        .ok outS ∧
      outB.mappings = outS.mappings ∧ outB.unmapped = outS.unmapped ∧
      outB.review = outS.review :=
  batch_single_agree cfgS emb0 tr0 inpA ⟨"C1", "vata", ""⟩ "hin_Deva" "gout"
    "vata" (by decide) rfl rfl (by decide) (by decide) (by decide) (by decide)
    rfl rfl rfl (by decide) (by decide) (by decide)

theorem lcsAux_le_left (fuel : Nat) : ∀ a b : List Char,
    lcsAux fuel a b ≤ a.length := by
  induction fuel with
  | zero => intro a b; simp [lcsAux]
  | succ n ih =>
    intro a b
    match a, b with
    | [], _ => simp [lcsAux]
    | _ :: _, [] => simp [lcsAux]
    | x :: as, y :: bs =>
      simp only [lcsAux, List.length_cons]
      split
      · exact Nat.succ_le_succ (ih as bs)
      · exact max_le (Nat.le_succ_of_le (ih as (y :: bs))) (ih (x :: as) bs)

theorem lcsAux_le_right (fuel : Nat) : ∀ a b : List Char,
    lcsAux fuel a b ≤ b.length := by
  induction fuel with
  | zero => intro a b; simp [lcsAux]
  | succ n ih =>
    intro a b
    match a, b with
    | [], _ => simp [lcsAux]
    | _ :: _, [] => simp [lcsAux]
    | x :: as, y :: bs =>
      simp only [lcsAux, List.length_cons]
      split
      · exact Nat.succ_le_succ (ih as bs)
      · exact max_le (ih as (y :: bs)) (Nat.le_succ_of_le (ih (x :: as) bs))

theorem ratioL_nonneg (a b : List Char) : 0 ≤ ratioL a b := by
  unfold ratioL
  split
  · norm_num
  · rw [Rat.mkRat_eq_div]
    positivity

theorem ratioL_le_100 (a b : List Char) : ratioL a b ≤ 100 := by
  unfold ratioL
  split
  · norm_num
  · rename_i hne
    have h1 : lcsLen a b ≤ a.length := lcsAux_le_left _ a b
    have h2 : lcsLen a b ≤ b.length := lcsAux_le_right _ a b
    have hpos : 0 < ((a.length + b.length : Nat) : ℚ) := by
      have : 0 < a.length + b.length := Nat.pos_of_ne_zero hne
      exact_mod_cast this
    rw [Rat.mkRat_eq_div, div_le_iff₀ hpos]
    push_cast
    have : (lcsLen a b : ℚ) ≤ a.length ∧ (lcsLen a b : ℚ) ≤ b.length :=
      ⟨by exact_mod_cast h1, by exact_mod_cast h2⟩
    nlinarith [this.1, this.2]

theorem fuzzRatio_nonneg (a b : String) : 0 ≤ fuzzRatio a b :=
  ratioL_nonneg a.data b.data

theorem fuzzRatio_le_100 (a b : String) : fuzzRatio a b ≤ 100 :=
  ratioL_le_100 a.data b.data

theorem tokenSetRatio_nonneg (a b : String) : 0 ≤ tokenSetRatio a b := by
  unfold tokenSetRatio
  dsimp only
  split
  · norm_num
  · split
    · norm_num
    · exact le_trans (fuzzRatio_nonneg _ _) (le_max_left _ _)

theorem tokenSetRatio_le_100 (a b : String) : tokenSetRatio a b ≤ 100 := by
  unfold tokenSetRatio
  dsimp only
  split
  · norm_num
  · split
    · norm_num
    · exact max_le (fuzzRatio_le_100 _ _)
        (max_le (fuzzRatio_le_100 _ _) (fuzzRatio_le_100 _ _))

theorem tokenRatioFn_nonneg (a b : String) : 0 ≤ tokenRatioFn a b :=
  le_trans (fuzzRatio_nonneg _ _) (le_max_left _ _)

theorem tokenRatioFn_le_100 (a b : String) : tokenRatioFn a b ≤ 100 :=
  max_le (fuzzRatio_le_100 _ _) (tokenSetRatio_le_100 _ _)

theorem le_foldl_max (z : ℚ) (l : List ℚ) : z ≤ l.foldl max z := by
  induction l generalizing z with
  | nil => exact le_refl z
  | cons x xs ih => exact le_trans (le_max_left z x) (ih (max z x))

theorem foldl_max_le (z c : ℚ) (l : List ℚ) (hz : z ≤ c)
    (hl : ∀ x ∈ l, x ≤ c) : l.foldl max z ≤ c := by
  induction l generalizing z with
  | nil => exact hz
  | cons x xs ih =>
    exact ih (max z x) (max_le hz (hl x (List.mem_cons_self x xs)))
      fun y hy => hl y (List.mem_cons_of_mem x hy)

theorem pimpl_nonneg (s1 s2 : List Char) : 0 ≤ pimpl s1 s2 :=
  le_foldl_max 0 _

theorem pimpl_le_100 (s1 s2 : List Char) : pimpl s1 s2 ≤ 100 := by
  unfold pimpl
  dsimp only
  apply foldl_max_le _ _ _ (by norm_num)
  intro x hx
  rcases List.mem_append.mp hx with h | h
  · rcases List.mem_append.mp h with h2 | h2
    · obtain ⟨i, _, hi⟩ := List.mem_filterMap.mp h2
      split at hi
      · cases Option.some.inj hi; exact ratioL_le_100 _ _
      · cases hi
    · obtain ⟨i, _, hi⟩ := List.mem_filterMap.mp h2
      split at hi
      · cases Option.some.inj hi; exact ratioL_le_100 _ _
      · cases hi
  · obtain ⟨i, _, hi⟩ := List.mem_filterMap.mp h
    split at hi
    · cases Option.some.inj hi; exact ratioL_le_100 _ _
    · cases hi

theorem partialRatio_nonneg (a b : String) : 0 ≤ partialRatio a b := by
  unfold partialRatio
  dsimp only
  split
  · norm_num
  split
  · norm_num
  split
  · exact le_trans (pimpl_nonneg _ _) (le_max_left _ _)
  split
  · exact pimpl_nonneg _ _
  · exact pimpl_nonneg _ _

theorem partialRatio_le_100 (a b : String) : partialRatio a b ≤ 100 := by
  unfold partialRatio
  dsimp only
  split
  · norm_num
  split
  · norm_num
  split
  · exact max_le (pimpl_le_100 _ _) (pimpl_le_100 _ _)
  split
  · exact pimpl_le_100 _ _
  · exact pimpl_le_100 _ _

theorem partialTokenRatio_nonneg (a b : String) : 0 ≤ partialTokenRatio a b := by
  unfold partialTokenRatio
  dsimp only
  split
  · norm_num
  split
  · exact partialRatio_nonneg _ _
  · exact le_trans (partialRatio_nonneg _ _) (le_max_left _ _)

theorem partialTokenRatio_le_100 (a b : String) : partialTokenRatio a b ≤ 100 := by
  unfold partialTokenRatio
  dsimp only
  split
  · norm_num
  split
  · exact partialRatio_le_100 _ _
  · exact max_le (partialRatio_le_100 _ _) (partialRatio_le_100 _ _)

theorem wratio_nonneg (a b : String) : 0 ≤ wratio a b := by
  unfold wratio
  dsimp only
  split
  · norm_num
  split
  · exact le_trans (fuzzRatio_nonneg _ _) (le_max_left _ _)
  · exact le_trans (le_trans (fuzzRatio_nonneg _ _) (le_max_left _ _))
      (le_max_left _ _)

theorem wratio_le_100 (a b : String) : wratio a b ≤ 100 := by
  unfold wratio
  dsimp only
  split
  · norm_num
  split
  · refine max_le (fuzzRatio_le_100 _ _) ?_
    have h1 : tokenRatioFn a b ≤ 100 := tokenRatioFn_le_100 a b
    have h0 : 0 ≤ tokenRatioFn a b := tokenRatioFn_nonneg a b
    have h95 : (mkRat 95 100 : ℚ) = 95 / 100 := by
      rw [Rat.mkRat_eq_div]; norm_num
    rw [h95]
    nlinarith
  · generalize hps : (if a.data.length ⊔ b.data.length <
        8 * (a.data.length ⊓ b.data.length) then (mkRat 9 10 : ℚ)
        else mkRat 6 10) = p
    have hp0 : 0 ≤ p := by
      rw [← hps]; split <;> (rw [Rat.mkRat_eq_div]; norm_num)
    have hp1 : p ≤ 1 := by
      rw [← hps]; split <;> (rw [Rat.mkRat_eq_div]; norm_num)
    have h95 : (mkRat 95 100 : ℚ) = 95 / 100 := by
      rw [Rat.mkRat_eq_div]; norm_num
    rw [h95]
    refine max_le (max_le (fuzzRatio_le_100 _ _) ?_) ?_
    · have h1 := partialRatio_le_100 a b
      have h0 := partialRatio_nonneg a b
      nlinarith [mul_le_mul_of_nonneg_right h1 hp0,
        mul_le_mul_of_nonneg_left hp1 h0]
    · have h1 := partialTokenRatio_le_100 a b
      have h0 := partialTokenRatio_nonneg a b
      nlinarith [mul_le_mul_of_nonneg_right h1 hp0,
        mul_le_mul_of_nonneg_left hp1 h0]

theorem jaroRun_length_le_left : ∀ (l av : List (Nat × Char)) (bd : Nat),
    (jaroRun l av bd).length ≤ l.length := by
  intro l
  induction l with
  | nil => intro av bd; simp [jaroRun]
  | cons ic rest ih =>
    intro av bd
    cases hp : jaroPick ic.1 ic.2 bd av with
    | some jc =>
      simp only [jaroRun, hp, List.length_cons]
      exact Nat.succ_le_succ (ih (av.erase jc) bd)
    | none =>
      simp only [jaroRun, hp, List.length_cons]
      exact Nat.le_succ_of_le (ih av bd)

theorem jaroRun_length_le_avail : ∀ (l av : List (Nat × Char)) (bd : Nat),
    (jaroRun l av bd).length ≤ av.length := by
  intro l
  induction l with
  | nil => intro av bd; simp [jaroRun]
  | cons ic rest ih =>
    intro av bd
    cases hp : jaroPick ic.1 ic.2 bd av with
    | some jc =>
      simp only [jaroRun, hp, List.length_cons]
      have hmem : jc ∈ av := List.mem_of_find?_eq_some hp
      have hlen : (av.erase jc).length = av.length - 1 :=
        List.length_erase_of_mem hmem
      have hpos : 0 < av.length := List.length_pos_of_mem hmem
      have hrec := ih (av.erase jc) bd
      omega
    | none =>
      simp only [jaroRun, hp]
      exact ih av bd

theorem insPair_length (x : (Nat × Char) × (Nat × Char))
    (l : List ((Nat × Char) × (Nat × Char))) :
    (insPair x l).length = l.length + 1 := by
  induction l with
  | nil => rfl
  | cons y ys ih =>
    simp only [insPair]
    split
    · simp [ih]
    · simp

theorem sortByJ_length (l : List ((Nat × Char) × (Nat × Char))) :
    (sortByJ l).length = l.length := by
  induction l with
  | nil => rfl
  | cons x xs ih =>
    simp only [sortByJ, List.foldr_cons] at ih ⊢
    rw [insPair_length, ih, List.length_cons]

theorem jaroK_le (P : List ((Nat × Char) × (Nat × Char))) :
    jaroK P ≤ P.length := by
  unfold jaroK
  refine le_trans (List.length_filter_le _ _) ?_
  rw [List.length_zip, List.length_map, List.length_map, sortByJ_length]
  exact min_le_left _ _

theorem jaroSim_nonneg (a b : String) : 0 ≤ jaroSim a b := by
  unfold jaroSim
  dsimp only
  split
  · norm_num
  split
  · norm_num
  split
  · norm_num
  rename_i h1 h2 hm
  generalize hP : jaroRun a.data.enum b.data.enum
      (jaroBound a.data.length b.data.length) = P at hm ⊢
  have hkm : jaroK P ≤ P.length := jaroK_le P
  have hmpos : 0 < P.length := Nat.pos_of_ne_zero hm
  rw [Rat.mkRat_eq_div, Rat.mkRat_eq_div, Rat.mkRat_eq_div, Rat.mkRat_eq_div]
  have t1 : (0 : ℚ) ≤ ((P.length : Int) : ℚ) / ((a.data.length : Nat) : ℚ) := by
    positivity
  have t2 : (0 : ℚ) ≤ ((P.length : Int) : ℚ) / ((b.data.length : Nat) : ℚ) := by
    positivity
  have t3 : (0 : ℚ) ≤ ((2 * (P.length : Int) - (jaroK P : Int) : Int) : ℚ) /
      ((2 * P.length : Nat) : ℚ) := by
    apply div_nonneg
    · have : (jaroK P : ℚ) ≤ (P.length : ℚ) := by exact_mod_cast hkm
      push_cast
      linarith
    · positivity
  push_cast at t1 t2 t3 ⊢
  nlinarith

theorem jaroSim_le_one (a b : String) : jaroSim a b ≤ 1 := by
  unfold jaroSim
  dsimp only
  split
  · norm_num
  split
  · norm_num
  split
  · norm_num
  rename_i h1 h2 hm
  have hml : (jaroRun a.data.enum b.data.enum
      (jaroBound a.data.length b.data.length)).length ≤ a.data.length := by
    refine le_trans (jaroRun_length_le_left _ _ _) ?_
    rw [List.enum_length]
  have hmr : (jaroRun a.data.enum b.data.enum
      (jaroBound a.data.length b.data.length)).length ≤ b.data.length := by
    refine le_trans (jaroRun_length_le_avail _ _ _) ?_
    rw [List.enum_length]
  generalize hP : jaroRun a.data.enum b.data.enum
      (jaroBound a.data.length b.data.length) = P at hm hml hmr ⊢
  have hkm : jaroK P ≤ P.length := jaroK_le P
  have hmpos : 0 < P.length := Nat.pos_of_ne_zero hm
  have hapos : 0 < a.data.length := lt_of_lt_of_le hmpos hml
  have hbpos : 0 < b.data.length := lt_of_lt_of_le hmpos hmr
  rw [Rat.mkRat_eq_div, Rat.mkRat_eq_div, Rat.mkRat_eq_div, Rat.mkRat_eq_div]
  have hapq : (0 : ℚ) < ((a.data.length : Nat) : ℚ) := by exact_mod_cast hapos
  have hbpq : (0 : ℚ) < ((b.data.length : Nat) : ℚ) := by exact_mod_cast hbpos
  have hmpq : (0 : ℚ) < ((2 * P.length : Nat) : ℚ) := by
    have : 0 < 2 * P.length := by omega
    exact_mod_cast this
  have t1 : ((P.length : Int) : ℚ) / ((a.data.length : Nat) : ℚ) ≤ 1 := by
    rw [div_le_one hapq]
    push_cast
    exact_mod_cast hml
  have t2 : ((P.length : Int) : ℚ) / ((b.data.length : Nat) : ℚ) ≤ 1 := by
    rw [div_le_one hbpq]
    push_cast
    exact_mod_cast hmr
  have t3 : ((2 * (P.length : Int) - (jaroK P : Int) : Int) : ℚ) /
      ((2 * P.length : Nat) : ℚ) ≤ 1 := by
    rw [div_le_one hmpq]
    push_cast
    have : (0 : ℚ) ≤ (jaroK P : ℚ) := by positivity
    linarith
  have t1n : (0 : ℚ) ≤ ((P.length : Int) : ℚ) / ((a.data.length : Nat) : ℚ) := by
    positivity
  have t2n : (0 : ℚ) ≤ ((P.length : Int) : ℚ) / ((b.data.length : Nat) : ℚ) := by
    positivity
  push_cast at t1 t2 t3 t1n t2n ⊢
  nlinarith

theorem jaroWinklerSim_nonneg (a b : String) : 0 ≤ jaroWinklerSim a b := by
  unfold jaroWinklerSim
  dsimp only
  split
  · have h0 := jaroSim_nonneg a b
    have hle := jaroSim_le_one a b
    have hp : (0 : ℚ) ≤ mkRat (commonPre4 a.data b.data) 10 := by
      rw [Rat.mkRat_eq_div]; positivity
    nlinarith
  · exact jaroSim_nonneg a b

theorem jaroWinklerSim_le_one (a b : String) : jaroWinklerSim a b ≤ 1 := by
  unfold jaroWinklerSim
  dsimp only
  split
  · have hle := jaroSim_le_one a b
    have hc4 : commonPre4 a.data b.data ≤ 4 := min_le_left _ _
    have hp1 : mkRat (commonPre4 a.data b.data) 10 ≤ 1 := by
      rw [Rat.mkRat_eq_div]
      rw [div_le_one (by norm_num : (0:ℚ) < ((10 : Nat) : ℚ))]
      have h4 : ((commonPre4 a.data b.data : Int) : ℚ) ≤ 4 := by
        exact_mod_cast hc4
      push_cast at h4 ⊢
      linarith
    have hp0 : (0 : ℚ) ≤ mkRat (commonPre4 a.data b.data) 10 := by
      rw [Rat.mkRat_eq_div]; positivity
    nlinarith
  · exact jaroSim_le_one a b

theorem compositeScore_nonneg (a b : String) : 0 ≤ compositeScore a b := by
  unfold compositeScore
  have h1 := wratio_nonneg a b
  have h2 := tokenSetRatio_nonneg a b
  have h3 := jaroWinklerSim_nonneg a b
  have e1 : (mkRat 45 100 : ℚ) = 45 / 100 := by rw [Rat.mkRat_eq_div]; norm_num
  have e2 : (mkRat 35 100 : ℚ) = 35 / 100 := by rw [Rat.mkRat_eq_div]; norm_num
  have e3 : (mkRat 20 100 : ℚ) = 20 / 100 := by rw [Rat.mkRat_eq_div]; norm_num
  rw [e1, e2, e3]
  nlinarith

theorem compositeScore_le_100 (a b : String) : compositeScore a b ≤ 100 := by
  unfold compositeScore
  have h1 := wratio_le_100 a b
  have h2 := tokenSetRatio_le_100 a b
  have h3 := jaroWinklerSim_le_one a b
  have e1 : (mkRat 45 100 : ℚ) = 45 / 100 := by rw [Rat.mkRat_eq_div]; norm_num
  have e2 : (mkRat 35 100 : ℚ) = 35 / 100 := by rw [Rat.mkRat_eq_div]; norm_num
  have e3 : (mkRat 20 100 : ℚ) = 20 / 100 := by rw [Rat.mkRat_eq_div]; norm_num
  rw [e1, e2, e3]
  nlinarith

theorem textSimilarity_nonneg (a b : String) : 0 ≤ textSimilarity a b :=
  compositeScore_nonneg _ _

theorem textSimilarity_le_100 (a b : String) : textSimilarity a b ≤ 100 :=
  compositeScore_le_100 _ _

theorem foldl_best_bounds (nn : String) : ∀ (ls : List String) (acc : ℚ × String),
    0 ≤ acc.1 → acc.1 ≤ 100 →
    0 ≤ (ls.foldl (fun acc lb =>
      let sc := compositeScore nn (normalizeText lb)
      if acc.1 < sc then (sc, lb) else acc) acc).1 ∧
    (ls.foldl (fun acc lb =>
      let sc := compositeScore nn (normalizeText lb)
      if acc.1 < sc then (sc, lb) else acc) acc).1 ≤ 100 := by
  intro ls
  induction ls with
  | nil => intro acc h0 h1; exact ⟨h0, h1⟩
  | cons x xs ih =>
    intro acc h0 h1
    simp only [List.foldl_cons]
    apply ih
    · dsimp only
      split
      · exact compositeScore_nonneg _ _
      · exact h0
    · dsimp only
      split
      · exact compositeScore_le_100 _ _
      · exact h1

theorem bestLabelScore_nonneg (nn : String) (labels : List String) (cap : Nat) :
    0 ≤ (bestLabelScore nn labels cap).1 :=
  (foldl_best_bounds nn (labels.take cap) (0, "") le_rfl (by norm_num)).1

theorem bestLabelScore_le_100 (nn : String) (labels : List String) (cap : Nat) :
    (bestLabelScore nn labels cap).1 ≤ 100 :=
  (foldl_best_bounds nn (labels.take cap) (0, "") le_rfl (by norm_num)).2

theorem maybeTranslate_backSim_bounds (cfg : Cfg) (tr : Option Translator)
    (srcTag : Option String) (text : String) (v : String × String × ℚ)
    (calls : List Call)
    (h : maybeTranslate cfg tr srcTag text = .ok (v, calls)) :
    0 ≤ v.2.2 ∧ v.2.2 ≤ 100 := by
  unfold maybeTranslate at h
  split at h
  · have hv := (Except.ok.inj h)
    rw [Prod.mk.injEq] at hv
    rw [← hv.1]
    norm_num
  · cases tr with
    | none =>
      have hv := (Except.ok.inj h)
      rw [Prod.mk.injEq] at hv
      rw [← hv.1]
      norm_num
    | some t =>
      dsimp only at h
      split at h
      · have hv := (Except.ok.inj h)
        rw [Prod.mk.injEq] at hv
        rw [← hv.1]
        norm_num
      · cases hc1 : trCall t text (pyOrStr srcTag "eng_Latn") "eng_Latn" with
        | error e => rw [hc1] at h; cases h
        | ok p1 =>
          obtain ⟨en, c1⟩ := p1
          rw [hc1, except_bind_ok] at h
          split at h
          · have hv := (Except.ok.inj h)
            rw [Prod.mk.injEq] at hv
            rw [← hv.1]
            norm_num
          · cases hc2 : trCall t en "eng_Latn" (pyOrStr srcTag "eng_Latn") with
            | error e => rw [hc2] at h; cases h
            | ok p2 =>
              obtain ⟨back, c2⟩ := p2
              rw [hc2, except_bind_ok] at h
              have hv := (Except.ok.inj h)
              rw [Prod.mk.injEq] at hv
              rw [← hv.1]
              exact ⟨textSimilarity_nonneg _ _, textSimilarity_le_100 _ _⟩

theorem mem_insCand {x y : Cand} {l : List Cand} (h : x ∈ insCand y l) :
    x = y ∨ x ∈ l := by
  induction l with
  | nil => exact Or.inl (by simpa [insCand] using h)
  | cons z zs ih =>
    simp only [insCand] at h
    split at h
    · rcases List.mem_cons.mp h with h2 | h2
      · exact Or.inr (List.mem_cons.mpr (Or.inl h2))
      · rcases ih h2 with h3 | h3
        · exact Or.inl h3
        · exact Or.inr (List.mem_cons_of_mem z h3)
    · rcases List.mem_cons.mp h with h2 | h2
      · exact Or.inl h2
      · exact Or.inr h2

theorem mem_sortCands {x : Cand} {l : List Cand} (h : x ∈ sortCandsDesc l) :
    x ∈ l := by
  induction l with
  | nil => simpa [sortCandsDesc] using h
  | cons y ys ih =>
    simp only [sortCandsDesc, List.foldr_cons] at h
    rcases mem_insCand h with h2 | h2
    · exact List.mem_cons.mpr (Or.inl h2)
    · exact List.mem_cons_of_mem y (ih h2)

theorem findBestMatches_shortlist_score (cfg : Cfg) (emb : EmbedOracle)
    (aliases : AliasIndex) (tr : Option Translator) (srcTag : Option String)
    (nam : ConceptEntry) (cands : List Cand) (calls : List Call)
    (hemb : cfg.useEmbeddings = true)
    (hsl : ∀ s, ∃ l, emb.shortlist s = some l ∧ l ≠ [])
    (hrun : findBestMatches cfg emb aliases tr srcTag nam = .ok (cands, calls)) :
    ∀ c ∈ cands, ∃ lex bsim : ℚ, 0 ≤ lex ∧ lex ≤ 100 ∧ 0 ≤ bsim ∧
      bsim ≤ 100 ∧
      c.score = 100 * (mkRat 1 2 + mkRat 35 100 * (lex * mkRat 1 100) +
        mkRat 15 100 * (bsim * mkRat 1 100)) ∧
      50 ≤ c.score ∧ c.score ≤ 100 := by
  intro c hc
  unfold findBestMatches at hrun
  dsimp only at hrun
  split at hrun
  · have hv := (Except.ok.inj hrun)
    rw [Prod.mk.injEq] at hv
    rw [← hv.1] at hc
    cases hc
  · cases hmt : maybeTranslate cfg tr srcTag (joinedText nam) with
    | error e => rw [hmt] at hrun; cases hrun
    | ok vc =>
      obtain ⟨⟨en, lang, bs⟩, cl⟩ := vc
      rw [hmt, except_bind_ok] at hrun
      obtain ⟨l', hl', hlne⟩ := hsl en
      have hsl' : effShortlist cfg emb en = some l' := by
        rw [effShortlist, if_pos hemb, hl']
        simp [hlne]
      dsimp only at hrun
      rw [hsl'] at hrun
      have hv := (Except.ok.inj hrun)
      rw [Prod.mk.injEq] at hv
      rw [← hv.1] at hc
      have hc2 := mem_sortCands (List.mem_of_mem_take hc)
      obtain ⟨p, hp, hscan⟩ := List.mem_filterMap.mp hc2
      have hbs := maybeTranslate_backSim_bounds cfg tr srcTag (joinedText nam)
        (en, lang, bs) cl hmt
      unfold scanCandidate at hscan
      rw [Option.isSome_some] at hscan
      simp only [eq_self_iff_true, if_true, Bool.false_eq_true, if_false]
        at hscan
      generalize (if cfg.fastMode = true then (20 : Nat) else 50) = cap
        at hscan
      split at hscan
      · cases hscan
      · by_cases hbl : (bestLabelScore (normalizeText en) p.2 cap).2 = ""
        · rw [if_pos hbl] at hscan
          cases hscan
        · rw [if_neg hbl] at hscan
          have hinj := Option.some.inj hscan
          refine ⟨(bestLabelScore (normalizeText en) p.2 cap).1, bs,
            bestLabelScore_nonneg _ _ _, bestLabelScore_le_100 _ _ _,
            hbs.1, hbs.2, ?_, ?_, ?_⟩
          · rw [← hinj]
          · rw [← hinj]
            show (50 : ℚ) ≤ 100 * (mkRat 1 2 + mkRat 35 100 *
              ((bestLabelScore (normalizeText en) p.2 cap).1 * mkRat 1 100) +
              mkRat 15 100 * (bs * mkRat 1 100))
            have hl0 := bestLabelScore_nonneg (normalizeText en) p.2 cap
            have hb0 := hbs.1
            rw [show (mkRat 1 2 : ℚ) = 1/2 from by rw [Rat.mkRat_eq_div]; norm_num]
            rw [show (mkRat 35 100 : ℚ) = 35/100 from by
              rw [Rat.mkRat_eq_div]; norm_num]
            rw [show (mkRat 15 100 : ℚ) = 15/100 from by
              rw [Rat.mkRat_eq_div]; norm_num]
            rw [show (mkRat 1 100 : ℚ) = 1/100 from by rw [Rat.mkRat_eq_div]; norm_num]
            nlinarith
          · rw [← hinj]
            show 100 * (mkRat 1 2 + mkRat 35 100 *
              ((bestLabelScore (normalizeText en) p.2 cap).1 * mkRat 1 100) +
              mkRat 15 100 * (bs * mkRat 1 100)) ≤ 100
            have hl1 := bestLabelScore_le_100 (normalizeText en) p.2 cap
            have hb1 := hbs.2
            rw [show (mkRat 1 2 : ℚ) = 1/2 from by rw [Rat.mkRat_eq_div]; norm_num]
            rw [show (mkRat 35 100 : ℚ) = 35/100 from by
              rw [Rat.mkRat_eq_div]; norm_num]
            rw [show (mkRat 15 100 : ℚ) = 15/100 from by
              rw [Rat.mkRat_eq_div]; norm_num]
            rw [show (mkRat 1 100 : ℚ) = 1/100 from by rw [Rat.mkRat_eq_div]; norm_num]
            nlinarith

theorem findBestMatches_shortlist_score_witness :
    ∃ lex bsim : ℚ, 0 ≤ lex ∧ lex ≤ 100 ∧ 0 ≤ bsim ∧ bsim ≤ 100 ∧
      Cand.score ⟨"T1", "gout", 100, ⟨"gout", "eng_Latn", "gout", 100⟩⟩ =
        100 * (mkRat 1 2 + mkRat 35 100 * (lex * mkRat 1 100) +
          mkRat 15 100 * (bsim * mkRat 1 100)) ∧
      50 ≤ Cand.score ⟨"T1", "gout", 100, ⟨"gout", "eng_Latn", "gout", 100⟩⟩ ∧
      Cand.score ⟨"T1", "gout", 100, ⟨"gout", "eng_Latn", "gout", 100⟩⟩ ≤ 100 :=
  findBestMatches_shortlist_score cfgE embE [("T1", ["gout"])] none
    (some "eng_Latn") ⟨"C1", "gout", ""⟩
    [⟨"T1", "gout", 100, ⟨"gout", "eng_Latn", "gout", 100⟩⟩] [] rfl
    (fun _ => ⟨["T1"], rfl, by decide⟩) (by decide)
    ⟨"T1", "gout", 100, ⟨"gout", "eng_Latn", "gout", 100⟩⟩
    (List.mem_cons_self _ _)

theorem lcsAux_comm (fuel : Nat) : ∀ a b : List Char,
    lcsAux fuel a b = lcsAux fuel b a := by
  induction fuel with
  | zero => intro a b; rfl
  | succ n ih =>
    intro a b
    match a, b with
    | [], [] => rfl
    | [], _ :: _ => rfl
    | _ :: _, [] => rfl
    | x :: as, y :: bs =>
      simp only [lcsAux]
      by_cases hxy : x = y
      · rw [if_pos hxy, if_pos hxy.symm, ih as bs]
      · rw [if_neg hxy, if_neg (fun h => hxy h.symm), ih as (y :: bs),
          ih (x :: as) bs, max_comm]

theorem lcsLen_comm (a b : List Char) : lcsLen a b = lcsLen b a := by
  unfold lcsLen
  rw [Nat.add_comm, lcsAux_comm]

theorem ratioL_comm (a b : List Char) : ratioL a b = ratioL b a := by
  unfold ratioL
  rw [Nat.add_comm b.length a.length, lcsLen_comm b a]

theorem fuzzRatio_comm (a b : String) : fuzzRatio a b = fuzzRatio b a :=
  ratioL_comm a.data b.data

theorem tokenSortRatio_comm (a b : String) :
    tokenSortRatio a b = tokenSortRatio b a :=
  fuzzRatio_comm (sortJoin a) (sortJoin b)

theorem partialRatio_comm (a b : String) : partialRatio a b = partialRatio b a := by
  unfold partialRatio
  dsimp only
  by_cases h00 : a.data.length = 0 ∧ b.data.length = 0
  · rw [if_pos h00,
      if_pos (show b.data.length = 0 ∧ a.data.length = 0 from ⟨h00.2, h00.1⟩)]
  · rw [if_neg h00,
      if_neg (show ¬ (b.data.length = 0 ∧ a.data.length = 0) from
        fun h => h00 ⟨h.2, h.1⟩)]
    by_cases h0 : a.data.length = 0 ∨ b.data.length = 0
    · rw [if_pos h0,
        if_pos (show b.data.length = 0 ∨ a.data.length = 0 from Or.symm h0)]
    · rw [if_neg h0,
        if_neg (show ¬ (b.data.length = 0 ∨ a.data.length = 0) from
          fun h => h0 (Or.symm h))]
      by_cases heq : a.data.length = b.data.length
      · rw [if_pos heq,
          if_pos (show b.data.length = a.data.length from heq.symm), max_comm]
      · rw [if_neg heq,
          if_neg (show ¬ b.data.length = a.data.length from
            fun h => heq h.symm)]
        by_cases hlt : a.data.length < b.data.length
        · rw [if_pos hlt,
            if_neg (show ¬ b.data.length < a.data.length from
              not_lt.mpr (le_of_lt hlt))]
        · rw [if_neg hlt]
          have hlt2 : b.data.length < a.data.length :=
            lt_of_le_of_ne (not_lt.mp hlt) (fun h => heq h.symm)
          rw [if_pos hlt2]

theorem commonPreLen_comm : ∀ a b : List Char,
    commonPreLen a b = commonPreLen b a := by
  intro a
  induction a with
  | nil => intro b; cases b <;> rfl
  | cons x as ih =>
    intro b
    cases b with
    | nil => rfl
    | cons y bs =>
      simp only [commonPreLen]
      by_cases hxy : x = y
      · rw [if_pos hxy, if_pos hxy.symm, ih bs]
      · rw [if_neg hxy, if_neg (fun h => hxy h.symm)]

theorem char_eq_of_toNat_eq {c d : Char} (h : c.toNat = d.toNat) : c = d :=
  Char.ext (UInt32.toNat.inj h)

theorem string_eq_of_data_eq {s t : String} (h : s.data = t.data) : s = t := by
  cases s; cases t; congr

theorem strLtB_asymm : ∀ a b : List Char,
    strLtB a b = true → strLtB b a = false := by
  intro a
  induction a with
  | nil =>
    intro b h
    cases b with
    | nil => cases h
    | cons y ys => rfl
  | cons x as ih =>
    intro b h
    cases b with
    | nil => cases h
    | cons y ys =>
      simp only [strLtB] at h ⊢
      by_cases hxy : x.toNat < y.toNat
      · rw [if_neg (show ¬ y.toNat < x.toNat by omega), if_pos hxy]
      · rw [if_neg hxy] at h
        by_cases hyx : y.toNat < x.toNat
        · rw [if_pos hyx] at h; cases h
        · rw [if_neg hyx] at h
          rw [if_neg hyx, if_neg hxy]
          exact ih ys h

theorem strLtB_le_antisymm : ∀ a b : List Char,
    strLtB a b = false → strLtB b a = false → a = b := by
  intro a
  induction a with
  | nil =>
    intro b h1 h2
    cases b with
    | nil => rfl
    | cons y ys => cases h1
  | cons x as ih =>
    intro b h1 h2
    cases b with
    | nil => cases h2
    | cons y ys =>
      simp only [strLtB] at h1 h2
      by_cases hxy : x.toNat < y.toNat
      · rw [if_pos hxy] at h1; cases h1
      · by_cases hyx : y.toNat < x.toNat
        · rw [if_pos hyx] at h2; cases h2
        · rw [if_neg hxy, if_neg hyx] at h1
          rw [if_neg hyx, if_neg hxy] at h2
          have hc : x = y := char_eq_of_toNat_eq (by omega)
          rw [hc, ih ys h1 h2]

theorem strLtB_le_trans : ∀ a b c : List Char,
    strLtB b a = false → strLtB c b = false → strLtB c a = false := by
  intro a
  induction a with
  | nil =>
    intro b c h1 h2
    cases c with
    | nil => rfl
    | cons z zs => rfl
  | cons x as ih =>
    intro b c h1 h2
    cases b with
    | nil => exact Bool.noConfusion h1
    | cons y ys =>
      cases c with
      | nil => exact Bool.noConfusion h2
      | cons z zs =>
        simp only [strLtB] at h1 h2 ⊢
        by_cases h_yx : y.toNat < x.toNat
        · rw [if_pos h_yx] at h1; cases h1
        · by_cases h_zy : z.toNat < y.toNat
          · rw [if_pos h_zy] at h2; cases h2
          · rw [if_neg (by omega : ¬ z.toNat < x.toNat)]
            by_cases h_xz : x.toNat < z.toNat
            · rw [if_pos h_xz]
            · rw [if_neg h_xz]
              have hxy : x.toNat = y.toNat := by omega
              have hyz : y.toNat = z.toNat := by omega
              rw [if_neg (by omega : ¬ x.toNat < y.toNat),
                if_neg (by omega : ¬ y.toNat < x.toNat)] at h1
              rw [if_neg (by omega : ¬ y.toNat < z.toNat),
                if_neg (by omega : ¬ z.toNat < y.toNat)] at h2
              exact ih ys zs h1 h2

theorem strLeB_antisymm {a b : String} (h1 : strLeB a b) (h2 : strLeB b a) :
    a = b :=
  string_eq_of_data_eq (strLtB_le_antisymm a.data b.data h2 h1)

theorem strLeB_trans {a b c : String} (h1 : strLeB a b) (h2 : strLeB b c) :
    strLeB a c :=
  strLtB_le_trans a.data b.data c.data h1 h2

theorem insStr_mem (x y : String) : ∀ l : List String,
    (y ∈ insStr x l ↔ y = x ∨ y ∈ l) := by
  intro l
  induction l with
  | nil => simp [insStr]
  | cons z zs ih =>
    simp only [insStr]
    split
    · rw [List.mem_cons, ih, List.mem_cons]
      tauto
    · rw [List.mem_cons, List.mem_cons]

theorem insStr_pairwise (x : String) : ∀ l : List String,
    l.Pairwise strLeB → (insStr x l).Pairwise strLeB := by
  intro l
  induction l with
  | nil => intro _; simp [insStr, List.pairwise_cons]
  | cons z zs ih =>
    intro hp
    rw [List.pairwise_cons] at hp
    simp only [insStr]
    split
    · rename_i hlt
      rw [List.pairwise_cons]
      constructor
      · intro w hw
        rcases (insStr_mem x w zs).mp hw with h | h
        · rw [h]
          exact strLtB_asymm z.data x.data hlt
        · exact hp.1 w h
      · exact ih hp.2
    · rename_i hnlt
      have hF : strLeB x z := by simpa using hnlt
      rw [List.pairwise_cons]
      constructor
      · intro w hw
        rcases List.mem_cons.mp hw with h | h
        · rw [h]
          exact hF
        · exact strLeB_trans hF (hp.1 w h)
      · exact List.pairwise_cons.mpr hp

theorem insStr_nodup (x : String) : ∀ l : List String,
    x ∉ l → l.Nodup → (insStr x l).Nodup := by
  intro l
  induction l with
  | nil => intro _ _; simp [insStr]
  | cons z zs ih =>
    intro hx hn
    rw [List.nodup_cons] at hn
    simp only [insStr]
    split
    · rw [List.nodup_cons]
      constructor
      · intro hz
        rcases (insStr_mem x z zs).mp hz with h | h
        · exact hx (by rw [h]; exact List.mem_cons_self _ _)
        · exact hn.1 h
      · exact ih (fun h => hx (List.mem_cons_of_mem z h)) hn.2
    · exact List.nodup_cons.mpr ⟨hx, List.nodup_cons.mpr hn⟩

theorem insSortStr_mem (y : String) : ∀ l : List String,
    (y ∈ insSortStr l ↔ y ∈ l) := by
  intro l
  induction l with
  | nil => simp [insSortStr]
  | cons x xs ih =>
    simp only [insSortStr, List.foldr_cons] at ih ⊢
    rw [insStr_mem, ih, List.mem_cons]

theorem insSortStr_pairwise : ∀ l : List String,
    (insSortStr l).Pairwise strLeB := by
  intro l
  induction l with
  | nil => simp [insSortStr]
  | cons x xs ih =>
    simp only [insSortStr, List.foldr_cons] at ih ⊢
    exact insStr_pairwise x _ ih

theorem insSortStr_nodup : ∀ l : List String,
    l.Nodup → (insSortStr l).Nodup := by
  intro l
  induction l with
  | nil => intro _; simp [insSortStr]
  | cons x xs ih =>
    intro hn
    rw [List.nodup_cons] at hn
    simp only [insSortStr, List.foldr_cons] at ih ⊢
    exact insStr_nodup x _ (fun h => hn.1 ((insSortStr_mem x xs).mp h)) (ih hn.2)

theorem mem_eraseDups_loop {α : Type} [BEq α] [LawfulBEq α] :
    ∀ (as bs : List α) (x : α),
      (x ∈ List.eraseDups.loop as bs ↔ x ∈ bs ∨ x ∈ as) := by
  intro as
  induction as with
  | nil =>
    intro bs x
    simp [List.eraseDups.loop]
  | cons a as ih =>
    intro bs x
    simp only [List.eraseDups.loop]
    cases he : bs.elem a with
    | true =>
      rw [ih bs x, List.mem_cons]
      have ha : a ∈ bs := List.elem_iff.mp he
      constructor
      · rintro (h | h)
        · exact Or.inl h
        · exact Or.inr (Or.inr h)
      · rintro (h | h | h)
        · exact Or.inl h
        · exact Or.inl (h ▸ ha)
        · exact Or.inr h
    | false =>
      rw [ih (a :: bs) x, List.mem_cons, List.mem_cons]
      tauto

theorem mem_eraseDups {α : Type} [BEq α] [LawfulBEq α] (l : List α) (x : α) :
    x ∈ l.eraseDups ↔ x ∈ l := by
  unfold List.eraseDups
  rw [mem_eraseDups_loop l [] x]
  simp

theorem nodup_eraseDups_loop {α : Type} [BEq α] [LawfulBEq α] :
    ∀ (as bs : List α), bs.Nodup → (List.eraseDups.loop as bs).Nodup := by
  intro as
  induction as with
  | nil =>
    intro bs h
    simpa [List.eraseDups.loop] using h
  | cons a as ih =>
    intro bs h
    simp only [List.eraseDups.loop]
    cases he : bs.elem a with
    | true => exact ih bs h
    | false =>
      refine ih (a :: bs) (List.nodup_cons.mpr ⟨?_, h⟩)
      intro hmem
      have hel : bs.elem a = true := List.elem_iff.mpr hmem
      rw [hel] at he
      cases he

theorem nodup_eraseDups {α : Type} [BEq α] [LawfulBEq α] (l : List α) :
    l.eraseDups.Nodup := by
  unfold List.eraseDups
  exact nodup_eraseDups_loop l [] List.nodup_nil

theorem sorted_nodup_ext : ∀ l1 l2 : List String,
    l1.Pairwise strLeB → l2.Pairwise strLeB → l1.Nodup → l2.Nodup →
    (∀ x, x ∈ l1 ↔ x ∈ l2) → l1 = l2 := by
  intro l1
  induction l1 with
  | nil =>
    intro l2 _ _ _ _ hm
    cases l2 with
    | nil => rfl
    | cons y ys => exact absurd ((hm y).mpr (List.mem_cons_self y ys)) (by simp)
  | cons x xs ih =>
    intro l2 hp1 hp2 hn1 hn2 hm
    cases l2 with
    | nil => exact absurd ((hm x).mp (List.mem_cons_self x xs)) (by simp)
    | cons y ys =>
      rw [List.pairwise_cons] at hp1 hp2
      rw [List.nodup_cons] at hn1 hn2
      have hxy : x = y := by
        rcases List.mem_cons.mp ((hm x).mp (List.mem_cons_self x xs)) with
          h | h
        · exact h
        · rcases List.mem_cons.mp ((hm y).mpr (List.mem_cons_self y ys)) with
            h2 | h2
          · exact h2.symm
          · exact strLeB_antisymm (hp1.1 y h2) (hp2.1 x h)
      subst hxy
      congr 1
      refine ih ys hp1.2 hp2.2 hn1.2 hn2.2 fun z => ?_
      constructor
      · intro hz
        have hzx : z ≠ x := fun h => hn1.1 (h ▸ hz)
        rcases List.mem_cons.mp ((hm z).mp (List.mem_cons_of_mem x hz)) with
          h | h
        · exact absurd h hzx
        · exact h
      · intro hz
        have hzx : z ≠ x := fun h => hn2.1 (h ▸ hz)
        rcases List.mem_cons.mp ((hm z).mpr (List.mem_cons_of_mem x hz)) with
          h | h
        · exact absurd h hzx
        · exact h

theorem uniqSortedTokens_pairwise (s : String) :
    (uniqSortedTokens s).Pairwise strLeB :=
  insSortStr_pairwise _

theorem uniqSortedTokens_nodup (s : String) : (uniqSortedTokens s).Nodup :=
  insSortStr_nodup _ (nodup_eraseDups _)

theorem uniqSortedTokens_mem (s : String) (x : String) :
    x ∈ uniqSortedTokens s ↔ x ∈ splitWS s := by
  unfold uniqSortedTokens
  rw [insSortStr_mem, mem_eraseDups]

theorem inter_comm_sorted (a b : String) :
    (uniqSortedTokens a).filter (fun x => (uniqSortedTokens b).contains x) =
    (uniqSortedTokens b).filter (fun x => (uniqSortedTokens a).contains x) := by
  refine sorted_nodup_ext _ _
    ((uniqSortedTokens_pairwise a).filter _)
    ((uniqSortedTokens_pairwise b).filter _)
    ((uniqSortedTokens_nodup a).filter _)
    ((uniqSortedTokens_nodup b).filter _) fun x => ?_
  rw [List.mem_filter, List.mem_filter]
  constructor
  · rintro ⟨h1, h2⟩
    exact ⟨by simpa using h2, by simp [h1]⟩
  · rintro ⟨h1, h2⟩
    exact ⟨by simpa using h2, by simp [h1]⟩

theorem tokenSetRatio_comm (a b : String) :
    tokenSetRatio a b = tokenSetRatio b a := by
  unfold tokenSetRatio
  dsimp only
  rw [inter_comm_sorted b a]
  refine if_congr (by rw [Bool.or_comm]) rfl ?_
  refine if_congr ⟨fun h => ⟨h.1, h.2.symm⟩, fun h => ⟨h.1, h.2.symm⟩⟩ rfl ?_
  rw [fuzzRatio_comm]
  congr 1
  exact max_comm _ _

theorem tokenRatioFn_comm (a b : String) : tokenRatioFn a b = tokenRatioFn b a := by
  unfold tokenRatioFn
  rw [tokenSortRatio_comm, tokenSetRatio_comm]

theorem partialTokenRatio_comm (a b : String) :
    partialTokenRatio a b = partialTokenRatio b a := by
  have hco : ∀ (u v : List String), ((u.any fun t => v.contains t) = true ↔
      ∃ t, t ∈ u ∧ t ∈ v) := by
    intro u v
    rw [List.any_eq_true]
    constructor
    · rintro ⟨t, ht, hc⟩
      exact ⟨t, ht, by simpa using hc⟩
    · rintro ⟨t, ht, hc⟩
      exact ⟨t, ht, by simpa using hc⟩
  unfold partialTokenRatio
  dsimp only
  refine if_congr ?_ rfl ?_
  · rw [hco, hco]
    exact ⟨fun ⟨t, h1, h2⟩ => ⟨t, h2, h1⟩, fun ⟨t, h1, h2⟩ => ⟨t, h2, h1⟩⟩
  · refine if_congr ⟨fun h => ⟨h.2, h.1⟩, fun h => ⟨h.2, h.1⟩⟩
      (partialRatio_comm _ _) ?_
    rw [partialRatio_comm]
    congr 1
    exact partialRatio_comm _ _

theorem wratio_comm (a b : String) : wratio a b = wratio b a := by
  unfold wratio
  dsimp only
  refine if_congr ⟨fun h => Or.symm h, fun h => Or.symm h⟩ rfl ?_
  rw [Nat.max_comm b.data.length a.data.length,
    Nat.min_comm b.data.length a.data.length]
  refine if_congr Iff.rfl ?_ ?_
  · rw [fuzzRatio_comm, tokenRatioFn_comm]
  · rw [fuzzRatio_comm, partialRatio_comm, partialTokenRatio_comm]

theorem tpc_mirror : ∀ (fuel : Nat) (is js : List Nat) (bd : Nat),
    tpc fuel js is bd = (tpc fuel is js bd).map (fun p => (p.2, p.1)) := by
  intro fuel
  induction fuel with
  | zero => intro is js bd; rfl
  | succ n ih =>
    intro is js bd
    match is, js with
    | [], [] => rfl
    | [], _ :: _ => rfl
    | _ :: _, [] => rfl
    | i :: is', j :: js' =>
      simp only [tpc]
      by_cases h1 : j + bd < i
      · rw [if_neg (by omega : ¬ i + bd < j), if_pos h1, if_pos h1]
        exact ih (i :: is') js' bd
      · by_cases h2 : i + bd < j
        · rw [if_pos h2, if_neg h1, if_pos h2]
          exact ih is' (j :: js') bd
        · rw [if_neg h2, if_neg h1, if_neg h1, if_neg h2, List.map_cons]
          rw [ih is' js' bd]

theorem grdy_nil_right : ∀ (is : List Nat) (bd : Nat), grdy is [] bd = [] := by
  intro is bd
  induction is with
  | nil => rfl
  | cons i is' ih => simp only [grdy, grdyPick, List.find?_nil]; exact ih

theorem grdy_stale (s bd : Nat) : ∀ (is js : List Nat),
    (∀ i ∈ is, s + bd < i) → grdy is (s :: js) bd = grdy is js bd := by
  intro is
  induction is with
  | nil => intro js _; rfl
  | cons i is' ih =>
    intro js hst
    have hsi : s + bd < i := hst i (List.mem_cons_self i is')
    have hpick : grdyPick i bd (s :: js) = grdyPick i bd js := by
      unfold grdyPick
      rw [List.find?_cons_of_neg]
      simp only [Bool.and_eq_true, decide_eq_true_eq, not_and]
      intro h
      omega
    simp only [grdy, hpick]
    cases hp : grdyPick i bd js with
    | some j =>
      dsimp only
      have hjs : j ∈ js := by
        have := List.find?_some hp
        exact List.mem_of_find?_eq_some hp
      have hji : i ≤ j + bd := by
        have hpred := List.find?_some hp
        simp only [Bool.and_eq_true, decide_eq_true_eq] at hpred
        exact hpred.1
      have hsj : s ≠ j := by omega
      rw [List.erase_cons_tail (show ¬ (s == j) = true by simpa using hsj)]
      exact congrArg _ (ih (js.erase j) fun i' hi' => hst i'
        (List.mem_cons_of_mem i hi'))
    | none =>
      dsimp only
      exact ih js fun i' hi' => hst i' (List.mem_cons_of_mem i hi')

theorem grdy_eq_tpc : ∀ (fuel : Nat) (is js : List Nat) (bd : Nat),
    is.length + js.length ≤ fuel →
    is.Pairwise (· < ·) → js.Pairwise (· < ·) →
    grdy is js bd = tpc fuel is js bd := by
  intro fuel
  induction fuel with
  | zero =>
    intro is js bd hf _ _
    match is, js with
    | [], _ => rfl
    | _ :: _, _ => simp at hf
  | succ n ih =>
    intro is js bd hf hi hj
    match is, js with
    | [], _ => rfl
    | i :: is', [] => rw [grdy_nil_right]; rfl
    | i :: is', j :: js' =>
      rw [List.pairwise_cons] at hi hj
      simp only [tpc]
      by_cases h1 : j + bd < i
      · rw [if_pos h1]
        rw [grdy_stale j bd (i :: is') js' ?stale]
        case stale =>
          intro i' hi'
          rcases List.mem_cons.mp hi' with h | h
          · omega
          · have := hi.1 i' h
            omega
        refine ih (i :: is') js' bd ?_ (List.pairwise_cons.mpr hi) hj.2
        simp only [List.length_cons] at hf ⊢
        omega
      · rw [if_neg h1]
        by_cases h2 : i + bd < j
        · rw [if_pos h2]
          have hpick : grdyPick i bd (j :: js') = none := by
            unfold grdyPick
            rw [List.find?_eq_none]
            intro x hx
            simp only [Bool.and_eq_true, decide_eq_true_eq, not_and]
            intro _
            rcases List.mem_cons.mp hx with h | h
            · omega
            · have := hj.1 x h
              omega
          simp only [grdy, hpick]
          refine ih is' (j :: js') bd ?_ hi.2 (List.pairwise_cons.mpr hj)
          simp only [List.length_cons] at hf ⊢
          omega
        · rw [if_neg h2]
          have hpick : grdyPick i bd (j :: js') = some j := by
            unfold grdyPick
            rw [List.find?_cons_of_pos]
            simp only [Bool.and_eq_true, decide_eq_true_eq]
            omega
          simp only [grdy, hpick, List.erase_cons_head]
          refine congrArg _ (ih is' js' bd ?_ hi.2 hj.2)
          simp only [List.length_cons] at hf
          omega

theorem posC_cons_pos (c : Char) (p : Nat × Char) (l : List (Nat × Char))
    (h : p.2 = c) : posC c (p :: l) = p.1 :: posC c l := by
  simp only [posC, List.filter_cons, h]
  simp

theorem posC_cons_neg (c : Char) (p : Nat × Char) (l : List (Nat × Char))
    (h : ¬ p.2 = c) : posC c (p :: l) = posC c l := by
  simp only [posC, List.filter_cons]
  simp [h]

theorem jaroPick_char {i : Nat} {c : Char} {bd : Nat}
    {av : List (Nat × Char)} {jc : Nat × Char}
    (h : jaroPick i c bd av = some jc) : jc.2 = c := by
  have := List.find?_some h
  simp only [Bool.and_eq_true, beq_iff_eq] at this
  exact this.2

theorem jaroPick_mem {i : Nat} {c : Char} {bd : Nat}
    {av : List (Nat × Char)} {jc : Nat × Char}
    (h : jaroPick i c bd av = some jc) : jc ∈ av :=
  List.mem_of_find?_eq_some h

theorem jaroPick_posC (i : Nat) (c : Char) (bd : Nat) :
    ∀ av : List (Nat × Char),
      (jaroPick i c bd av).map Prod.fst = grdyPick i bd (posC c av) := by
  intro av
  induction av with
  | nil => rfl
  | cons p av' ih =>
    by_cases hc : p.2 = c
    · rw [posC_cons_pos c p av' hc]
      by_cases hw : i ≤ p.1 + bd ∧ p.1 ≤ i + bd
      · rw [show jaroPick i c bd (p :: av') = some p from
          List.find?_cons_of_pos _ (by simp [hw.1, hw.2, hc])]
        rw [show grdyPick i bd (p.1 :: posC c av') = some p.1 from
          List.find?_cons_of_pos _ (by simp [hw.1, hw.2])]
        rfl
      · rw [show jaroPick i c bd (p :: av') = jaroPick i c bd av' from
          List.find?_cons_of_neg _ (by
            simp only [Bool.and_eq_true, decide_eq_true_eq, beq_iff_eq]
            tauto)]
        rw [show grdyPick i bd (p.1 :: posC c av') = grdyPick i bd (posC c av')
          from List.find?_cons_of_neg _ (by
            simp only [Bool.and_eq_true, decide_eq_true_eq]
            tauto)]
        exact ih
    · rw [posC_cons_neg c p av' hc]
      rw [show jaroPick i c bd (p :: av') = jaroPick i c bd av' from
        List.find?_cons_of_neg _ (by
          simp only [Bool.and_eq_true, decide_eq_true_eq, beq_iff_eq]
          tauto)]
      exact ih

theorem posC_erase_pos (c : Char) {jc : Nat × Char} (hc : jc.2 = c) :
    ∀ av : List (Nat × Char), (av.map Prod.fst).Nodup → jc ∈ av →
      posC c (av.erase jc) = (posC c av).erase jc.1 := by
  intro av
  induction av with
  | nil => intro _ h; cases h
  | cons p av' ih =>
    intro hnd hmem
    rw [List.map_cons, List.nodup_cons] at hnd
    by_cases hpj : p = jc
    · subst hpj
      rw [List.erase_cons_head, posC_cons_pos c p av' hc,
        List.erase_cons_head]
    · have hmem' : jc ∈ av' := by
        rcases List.mem_cons.mp hmem with h | h
        · exact absurd h.symm hpj
        · exact h
      rw [List.erase_cons_tail (by simpa using fun h => hpj (by simpa using h))]
      by_cases hpc : p.2 = c
      · rw [posC_cons_pos c p _ hpc, posC_cons_pos c p av' hpc]
        have hne : p.1 ≠ jc.1 := by
          intro h
          exact hnd.1 (h ▸ List.mem_map_of_mem Prod.fst hmem')
        rw [List.erase_cons_tail (by simpa using hne)]
        rw [ih hnd.2 hmem']
      · rw [posC_cons_neg c p _ hpc, posC_cons_neg c p av' hpc]
        exact ih hnd.2 hmem'

theorem posC_erase_neg (c : Char) {jc : Nat × Char} (hc : ¬ jc.2 = c) :
    ∀ av : List (Nat × Char), posC c (av.erase jc) = posC c av := by
  intro av
  induction av with
  | nil => rfl
  | cons p av' ih =>
    by_cases hpj : p = jc
    · subst hpj
      rw [List.erase_cons_head, posC_cons_neg c p av' hc]
    · rw [List.erase_cons_tail (by simpa using fun h => hpj (by simpa using h))]
      by_cases hpc : p.2 = c
      · rw [posC_cons_pos c p _ hpc, posC_cons_pos c p av' hpc, ih]
      · rw [posC_cons_neg c p _ hpc, posC_cons_neg c p av' hpc, ih]

theorem jaroRun_classes (c : Char) : ∀ (l av : List (Nat × Char)) (bd : Nat),
    (av.map Prod.fst).Nodup →
    ((jaroRun l av bd).filter fun p => p.1.2 = c) =
      (grdy (posC c l) (posC c av) bd).map fun q => ((q.1, c), (q.2, c)) := by
  intro l
  induction l with
  | nil => intro av bd _; rfl
  | cons ic rest ih =>
    intro av bd hnd
    by_cases hc : ic.2 = c
    · rw [posC_cons_pos c ic rest hc]
      cases hp : jaroPick ic.1 ic.2 bd av with
      | some jc =>
        have hp' : jaroPick ic.1 c bd av = some jc := by rw [← hc]; exact hp
        have hjc : jc.2 = c := jaroPick_char hp'
        have hgp : grdyPick ic.1 bd (posC c av) = some jc.1 := by
          rw [← jaroPick_posC ic.1 c bd av, hp']
          rfl
        simp only [jaroRun, hp, grdy, hgp, List.filter_cons]
        rw [if_pos (by simpa using hc)]
        rw [List.map_cons]
        have hic : ((ic.1, c), (jc.1, c)) = (ic, jc) := by
          rw [show (ic.1, c) = ic from by rw [← hc],
            show (jc.1, c) = jc from by rw [← hjc]]
        rw [hic]
        refine congrArg _ ?_
        rw [ih (av.erase jc) bd (List.Nodup.sublist
          (List.Sublist.map Prod.fst (List.erase_sublist jc av)) hnd)]
        rw [posC_erase_pos c hjc av hnd (jaroPick_mem hp)]
      | none =>
        have hp' : jaroPick ic.1 c bd av = none := by rw [← hc]; exact hp
        have hgp : grdyPick ic.1 bd (posC c av) = none := by
          rw [← jaroPick_posC ic.1 c bd av, hp']
          rfl
        simp only [jaroRun, hp, grdy, hgp]
        exact ih av bd hnd
    · rw [posC_cons_neg c ic rest hc]
      cases hp : jaroPick ic.1 ic.2 bd av with
      | some jc =>
        have hjc : ¬ jc.2 = c := by
          rw [jaroPick_char hp]
          exact hc
        simp only [jaroRun, hp, List.filter_cons]
        rw [if_neg (by simpa using hc)]
        rw [ih (av.erase jc) bd (List.Nodup.sublist
          (List.Sublist.map Prod.fst (List.erase_sublist jc av)) hnd)]
        rw [posC_erase_neg c hjc av]
      | none =>
        simp only [jaroRun, hp]
        exact ih av bd hnd

theorem insPair_mem (x y : (Nat × Char) × (Nat × Char)) :
    ∀ l, (y ∈ insPair x l ↔ y = x ∨ y ∈ l) := by
  intro l
  induction l with
  | nil => simp [insPair]
  | cons z zs ih =>
    simp only [insPair]
    split
    · rw [List.mem_cons, ih, List.mem_cons]
      tauto
    · rw [List.mem_cons, List.mem_cons]

theorem insPair_pairwise (x : (Nat × Char) × (Nat × Char)) :
    ∀ l, l.Pairwise sndKeyLe → (insPair x l).Pairwise sndKeyLe := by
  intro l
  induction l with
  | nil => intro _; simp [insPair, List.pairwise_cons, sndKeyLe]
  | cons z zs ih =>
    intro hp
    rw [List.pairwise_cons] at hp
    simp only [insPair]
    split
    · rename_i hlt
      rw [List.pairwise_cons]
      refine ⟨fun w hw => ?_, ih hp.2⟩
      rcases (insPair_mem x w zs).mp hw with h | h
      · rw [h]
        exact le_of_lt hlt
      · exact hp.1 w h
    · rename_i hnlt
      have hxz : sndKeyLe x z := by
        simp only [sndKeyLe]
        omega
      rw [List.pairwise_cons]
      refine ⟨fun w hw => ?_, List.pairwise_cons.mpr hp⟩
      rcases List.mem_cons.mp hw with h | h
      · rw [h]; exact hxz
      · exact le_trans hxz (hp.1 w h)

theorem sortByJ_pairwise (l : List ((Nat × Char) × (Nat × Char))) :
    (sortByJ l).Pairwise sndKeyLe := by
  induction l with
  | nil => simp [sortByJ]
  | cons x xs ih =>
    simp only [sortByJ, List.foldr_cons] at ih ⊢
    exact insPair_pairwise x _ ih

theorem insPair_perm (x : (Nat × Char) × (Nat × Char)) :
    ∀ l, (insPair x l).Perm (x :: l) := by
  intro l
  induction l with
  | nil => exact List.Perm.refl _
  | cons z zs ih =>
    simp only [insPair]
    split
    · exact (List.Perm.cons z ih).trans (List.Perm.swap x z zs)
    · exact List.Perm.refl _

theorem sortByJ_perm (l : List ((Nat × Char) × (Nat × Char))) :
    (sortByJ l).Perm l := by
  induction l with
  | nil => exact List.Perm.refl _
  | cons x xs ih =>
    simp only [sortByJ, List.foldr_cons] at ih ⊢
    exact (insPair_perm x _).trans (List.Perm.cons x ih)

theorem sorted_key_ext {α : Type} (key : α → Nat) : ∀ l1 l2 : List α,
    l1.Pairwise (fun p q => key p < key q) →
    l2.Pairwise (fun p q => key p < key q) →
    (∀ x, x ∈ l1 ↔ x ∈ l2) → l1 = l2 := by
  intro l1
  induction l1 with
  | nil =>
    intro l2 _ _ hm
    cases l2 with
    | nil => rfl
    | cons y ys => exact absurd ((hm y).mpr (List.mem_cons_self y ys)) (by simp)
  | cons x xs ih =>
    intro l2 hp1 hp2 hm
    cases l2 with
    | nil => exact absurd ((hm x).mp (List.mem_cons_self x xs)) (by simp)
    | cons y ys =>
      rw [List.pairwise_cons] at hp1 hp2
      have hxy : x = y := by
        rcases List.mem_cons.mp ((hm x).mp (List.mem_cons_self x xs)) with
          h | h
        · exact h
        · rcases List.mem_cons.mp ((hm y).mpr (List.mem_cons_self y ys)) with
            h2 | h2
          · exact h2.symm
          · have k1 := hp2.1 x h
            have k2 := hp1.1 y h2
            omega
      subst hxy
      congr 1
      refine ih ys hp1.2 hp2.2 fun z => ?_
      constructor
      · intro hz
        have hzx : z ≠ x := by
          intro h
          have := hp1.1 z hz
          rw [h] at this
          omega
        rcases List.mem_cons.mp ((hm z).mp (List.mem_cons_of_mem x hz)) with
          h | h
        · exact absurd h hzx
        · exact h
      · intro hz
        have hzx : z ≠ x := by
          intro h
          have := hp2.1 z hz
          rw [h] at this
          omega
        rcases List.mem_cons.mp ((hm z).mpr (List.mem_cons_of_mem x hz)) with
          h | h
        · exact absurd h hzx
        · exact h

theorem pairwise_le_nodup_strict {α : Type} (key : α → Nat)
    (l : List α) (hle : l.Pairwise (fun p q => key p ≤ key q))
    (hnd : (l.map key).Nodup) : l.Pairwise (fun p q => key p < key q) := by
  have hne : l.Pairwise (fun p q => key p ≠ key q) := by
    rw [List.Nodup, List.pairwise_map] at hnd
    exact hnd
  exact (hle.and hne).imp fun h => lt_of_le_of_ne h.1 h.2

theorem jaroRun_char_eq : ∀ (l av : List (Nat × Char)) (bd : Nat)
    (p : (Nat × Char) × (Nat × Char)),
    p ∈ jaroRun l av bd → p.2.2 = p.1.2 := by
  intro l
  induction l with
  | nil => intro av bd p h; cases h
  | cons ic rest ih =>
    intro av bd p h
    cases hp : jaroPick ic.1 ic.2 bd av with
    | some jc =>
      rw [jaroRun, hp] at h
      rcases List.mem_cons.mp h with h2 | h2
      · rw [h2]
        exact jaroPick_char hp
      · exact ih _ _ _ h2
    | none =>
      rw [jaroRun, hp] at h
      exact ih _ _ _ h

theorem jaroRun_fst_mem : ∀ (l av : List (Nat × Char)) (bd : Nat)
    (p : (Nat × Char) × (Nat × Char)), p ∈ jaroRun l av bd → p.1 ∈ l := by
  intro l
  induction l with
  | nil => intro av bd p h; cases h
  | cons ic rest ih =>
    intro av bd p h
    cases hp : jaroPick ic.1 ic.2 bd av with
    | some jc =>
      rw [jaroRun, hp] at h
      rcases List.mem_cons.mp h with h2 | h2
      · rw [h2]
        exact List.mem_cons_self _ _
      · exact List.mem_cons_of_mem _ (ih _ _ _ h2)
    | none =>
      rw [jaroRun, hp] at h
      exact List.mem_cons_of_mem _ (ih _ _ _ h)

theorem jaroRun_snd_mem : ∀ (l av : List (Nat × Char)) (bd : Nat)
    (p : (Nat × Char) × (Nat × Char)), p ∈ jaroRun l av bd → p.2 ∈ av := by
  intro l
  induction l with
  | nil => intro av bd p h; cases h
  | cons ic rest ih =>
    intro av bd p h
    cases hp : jaroPick ic.1 ic.2 bd av with
    | some jc =>
      rw [jaroRun, hp] at h
      rcases List.mem_cons.mp h with h2 | h2
      · rw [h2]
        exact jaroPick_mem hp
      · exact (List.erase_sublist jc av).mem (ih _ _ _ h2)
    | none =>
      rw [jaroRun, hp] at h
      exact ih _ _ _ h

theorem jaroRun_fst_pairwise : ∀ (l av : List (Nat × Char)) (bd : Nat),
    l.Pairwise (fun a b => a.1 < b.1) →
    (jaroRun l av bd).Pairwise (fun p q => p.1.1 < q.1.1) := by
  intro l
  induction l with
  | nil => intro av bd _; simp [jaroRun]
  | cons ic rest ih =>
    intro av bd hp
    rw [List.pairwise_cons] at hp
    cases hpick : jaroPick ic.1 ic.2 bd av with
    | some jc =>
      rw [jaroRun, hpick]
      rw [List.pairwise_cons]
      refine ⟨fun q hq => hp.1 q.1 (jaroRun_fst_mem _ _ _ _ hq), ih _ _ hp.2⟩
    | none =>
      rw [jaroRun, hpick]
      exact ih _ _ hp.2

theorem key_not_mem_erase {jc : Nat × Char} : ∀ av : List (Nat × Char),
    (av.map Prod.fst).Nodup → jc ∈ av →
    jc.1 ∉ (av.erase jc).map Prod.fst := by
  intro av
  induction av with
  | nil => intro _ h; cases h
  | cons p av' ih =>
    intro hnd hmem
    rw [List.map_cons, List.nodup_cons] at hnd
    by_cases hpj : p = jc
    · subst hpj
      rw [List.erase_cons_head]
      exact hnd.1
    · have hmem' : jc ∈ av' := by
        rcases List.mem_cons.mp hmem with h | h
        · exact absurd h.symm hpj
        · exact h
      rw [List.erase_cons_tail (by simpa using fun h => hpj (by simpa using h))]
      rw [List.map_cons]
      intro hcon
      rcases List.mem_cons.mp hcon with h | h
      · exact hnd.1 (h ▸ List.mem_map_of_mem Prod.fst hmem')
      · exact ih hnd.2 hmem' h

theorem jaroRun_sndkey_nodup : ∀ (l av : List (Nat × Char)) (bd : Nat),
    (av.map Prod.fst).Nodup →
    ((jaroRun l av bd).map fun p => p.2.1).Nodup := by
  intro l
  induction l with
  | nil => intro av bd _; simp [jaroRun]
  | cons ic rest ih =>
    intro av bd hnd
    cases hpick : jaroPick ic.1 ic.2 bd av with
    | some jc =>
      rw [jaroRun, hpick, List.map_cons, List.nodup_cons]
      constructor
      · intro hcon
        obtain ⟨q, hq, hkey⟩ := List.mem_map.mp hcon
        have hq2 : q.2 ∈ av.erase jc := jaroRun_snd_mem _ _ _ _ hq
        exact key_not_mem_erase av hnd (jaroPick_mem hpick)
          (hkey ▸ List.mem_map_of_mem Prod.fst hq2)
      · exact ih _ _ (List.Nodup.sublist
          (List.Sublist.map Prod.fst (List.erase_sublist jc av)) hnd)
    | none =>
      rw [jaroRun, hpick]
      exact ih _ _ hnd

theorem posC_pairwise (c : Char) (l : List (Nat × Char))
    (h : l.Pairwise fun a b => a.1 < b.1) : (posC c l).Pairwise (· < ·) := by
  unfold posC
  rw [List.pairwise_map]
  exact h.filter _

theorem mem_jaroRun_iff (l av : List (Nat × Char)) (bd : Nat)
    (hnd : (av.map Prod.fst).Nodup) (e : (Nat × Char) × (Nat × Char)) :
    e ∈ jaroRun l av bd ↔
      e.2.2 = e.1.2 ∧
      (e.1.1, e.2.1) ∈ grdy (posC e.1.2 l) (posC e.1.2 av) bd := by
  constructor
  · intro h
    have hce := jaroRun_char_eq l av bd e h
    refine ⟨hce, ?_⟩
    have hf : e ∈ (jaroRun l av bd).filter fun p => p.1.2 = e.1.2 :=
      List.mem_filter.mpr ⟨h, by simp⟩
    rw [jaroRun_classes e.1.2 l av bd hnd] at hf
    obtain ⟨q, hq, henc⟩ := List.mem_map.mp hf
    have h1 : q.1 = e.1.1 := by
      have := congrArg (fun z => z.1.1) henc
      simpa using this
    have h2 : q.2 = e.2.1 := by
      have := congrArg (fun z => z.2.1) henc
      simpa using this
    rw [← h1, ← h2]
    simpa using hq
  · rintro ⟨hce, hq⟩
    have henc : (((e.1.1, e.1.2) : Nat × Char),
        ((e.2.1, e.1.2) : Nat × Char)) = e := by
      rw [show ((e.2.1, e.1.2) : Nat × Char) = e.2 from by rw [← hce]]
    have hf : e ∈ (grdy (posC e.1.2 l) (posC e.1.2 av) bd).map
        fun q => ((q.1, e.1.2), (q.2, e.1.2)) := by
      refine List.mem_map.mpr ⟨(e.1.1, e.2.1), hq, ?_⟩
      simpa using henc
    rw [← jaroRun_classes e.1.2 l av bd hnd] at hf
    exact (List.mem_filter.mp hf).1

theorem jaroRun_mem_swap (x y : List (Nat × Char)) (bd : Nat)
    (hxp : x.Pairwise fun a b => a.1 < b.1)
    (hyp : y.Pairwise fun a b => a.1 < b.1)
    (hxn : (x.map Prod.fst).Nodup) (hyn : (y.map Prod.fst).Nodup)
    (e : (Nat × Char) × (Nat × Char)) (h : e ∈ jaroRun y x bd) :
    swapP e ∈ jaroRun x y bd := by
  rw [mem_jaroRun_iff y x bd hxn e] at h
  obtain ⟨hce, hq⟩ := h
  rw [mem_jaroRun_iff x y bd hyn (swapP e)]
  refine ⟨hce.symm, ?_⟩
  show ((e.2.1, e.1.1) : Nat × Nat) ∈
    grdy (posC e.2.2 x) (posC e.2.2 y) bd
  rw [hce]
  have e1 : grdy (posC e.1.2 y) (posC e.1.2 x) bd =
      (grdy (posC e.1.2 x) (posC e.1.2 y) bd).map (fun p => (p.2, p.1)) := by
    rw [grdy_eq_tpc ((posC e.1.2 y).length + (posC e.1.2 x).length)
      (posC e.1.2 y) (posC e.1.2 x) bd le_rfl (posC_pairwise _ _ hyp)
      (posC_pairwise _ _ hxp)]
    rw [tpc_mirror]
    rw [← grdy_eq_tpc ((posC e.1.2 y).length + (posC e.1.2 x).length)
      (posC e.1.2 x) (posC e.1.2 y) bd (by omega) (posC_pairwise _ _ hxp)
      (posC_pairwise _ _ hyp)]
  rw [e1] at hq
  obtain ⟨q, hq2, hqe⟩ := List.mem_map.mp hq
  have hqq : q = (e.2.1, e.1.1) := by
    have h1 := congrArg Prod.fst hqe
    have h2 := congrArg Prod.snd hqe
    simp only at h1 h2
    rw [Prod.ext_iff]
    exact ⟨h2, h1⟩
  rw [← hqq]
  exact hq2

theorem jaroRun_swap (x y : List (Nat × Char)) (bd : Nat)
    (hxp : x.Pairwise fun a b => a.1 < b.1)
    (hyp : y.Pairwise fun a b => a.1 < b.1)
    (hxn : (x.map Prod.fst).Nodup) (hyn : (y.map Prod.fst).Nodup) :
    jaroRun y x bd = (sortByJ (jaroRun x y bd)).map swapP := by
  refine sorted_key_ext (fun p => p.1.1) _ _ ?_ ?_ ?_
  · exact jaroRun_fst_pairwise y x bd hyp
  · rw [List.pairwise_map]
    have hle : (sortByJ (jaroRun x y bd)).Pairwise
        (fun p q => p.2.1 ≤ q.2.1) := sortByJ_pairwise _
    have hnd2 : ((sortByJ (jaroRun x y bd)).map fun p => p.2.1).Nodup :=
      (List.Perm.nodup_iff
        (List.Perm.map _ (sortByJ_perm (jaroRun x y bd)))).mpr
        (jaroRun_sndkey_nodup x y bd hyn)
    exact pairwise_le_nodup_strict
      (fun p : (Nat × Char) × (Nat × Char) => p.2.1) _ hle hnd2
  · intro e
    constructor
    · intro h
      have hs := jaroRun_mem_swap x y bd hxp hyp hxn hyn e h
      have hmem : swapP e ∈ sortByJ (jaroRun x y bd) :=
        ((sortByJ_perm _).mem_iff).mpr hs
      refine List.mem_map.mpr ⟨swapP e, hmem, rfl⟩
    · intro h
      obtain ⟨q, hq, hqe⟩ := List.mem_map.mp h
      have hq2 : q ∈ jaroRun x y bd := ((sortByJ_perm _).mem_iff).mp hq
      have hs := jaroRun_mem_swap y x bd hyp hxp hyn hxn q hq2
      rw [show swapP q = e from hqe] at hs
      exact hs

theorem sortByJ_swap_sorted (P : List ((Nat × Char) × (Nat × Char)))
    (hfst : P.Pairwise fun p q => p.1.1 < q.1.1) :
    sortByJ ((sortByJ P).map swapP) = P.map swapP := by
  refine sorted_key_ext (fun p => p.2.1) _ _ ?_ ?_ ?_
  · have hle := sortByJ_pairwise ((sortByJ P).map swapP)
    have hP : (P.map fun p => p.1.1).Nodup := by
      rw [List.Nodup, List.pairwise_map]
      exact hfst.imp fun h => Nat.ne_of_lt h
    have hnd : ((sortByJ ((sortByJ P).map swapP)).map
        fun p : (Nat × Char) × (Nat × Char) => p.2.1).Nodup := by
      refine (List.Perm.nodup_iff (List.Perm.map _ (sortByJ_perm _))).mpr ?_
      rw [List.map_map]
      refine (List.Perm.nodup_iff (List.Perm.map _ (sortByJ_perm P))).mpr ?_
      exact hP
    exact pairwise_le_nodup_strict
      (fun p : (Nat × Char) × (Nat × Char) => p.2.1) _ hle hnd
  · rw [List.pairwise_map]
    exact hfst
  · intro e
    rw [(sortByJ_perm _).mem_iff]
    constructor
    · intro h
      obtain ⟨q, hq, hqe⟩ := List.mem_map.mp h
      exact List.mem_map.mpr ⟨q, (sortByJ_perm P).mem_iff.mp hq, hqe⟩
    · intro h
      obtain ⟨q, hq, hqe⟩ := List.mem_map.mp h
      exact List.mem_map.mpr ⟨q, (sortByJ_perm P).mem_iff.mpr hq, hqe⟩

theorem zip_filter_ne_comm : ∀ (u v : List Char),
    ((u.zip v).filter fun cc => ¬ cc.1 = cc.2).length =
    ((v.zip u).filter fun cc => ¬ cc.1 = cc.2).length := by
  intro u
  induction u with
  | nil => intro v; cases v <;> rfl
  | cons c cs ih =>
    intro v
    cases v with
    | nil => rfl
    | cons d ds =>
      simp only [List.zip_cons_cons, List.filter_cons]
      by_cases h : c = d
      · rw [if_neg (by simp [h]), if_neg (by simp [h.symm])]
        exact ih ds
      · rw [if_pos (by simpa using h),
          if_pos (by simpa using fun h2 => h h2.symm)]
        simp only [List.length_cons]
        rw [ih ds]

theorem jaroK_swap (x y : List (Nat × Char)) (bd : Nat)
    (hxp : x.Pairwise fun a b => a.1 < b.1)
    (hyp : y.Pairwise fun a b => a.1 < b.1)
    (hxn : (x.map Prod.fst).Nodup) (hyn : (y.map Prod.fst).Nodup) :
    jaroK (jaroRun y x bd) = jaroK (jaroRun x y bd) := by
  rw [jaroRun_swap x y bd hxp hyp hxn hyn]
  unfold jaroK
  rw [sortByJ_swap_sorted (jaroRun x y bd) (jaroRun_fst_pairwise x y bd hxp)]
  rw [List.map_map, List.map_map]
  exact zip_filter_ne_comm _ _

theorem jaroRun_length_swap (x y : List (Nat × Char)) (bd : Nat)
    (hxp : x.Pairwise fun a b => a.1 < b.1)
    (hyp : y.Pairwise fun a b => a.1 < b.1)
    (hxn : (x.map Prod.fst).Nodup) (hyn : (y.map Prod.fst).Nodup) :
    (jaroRun y x bd).length = (jaroRun x y bd).length := by
  rw [jaroRun_swap x y bd hxp hyp hxn hyn, List.length_map, sortByJ_length]

theorem enum_fst_pairwise (l : List Char) :
    l.enum.Pairwise fun a b => a.1 < b.1 := by
  have h := List.pairwise_lt_range l.length
  rw [← List.enum_map_fst l] at h
  exact List.pairwise_map.mp h

theorem enum_fst_nodup (l : List Char) : (l.enum.map Prod.fst).Nodup := by
  rw [List.enum_map_fst]
  exact List.nodup_range l.length

theorem jaroSim_comm (a b : String) : jaroSim a b = jaroSim b a := by
  unfold jaroSim
  dsimp only
  by_cases hab : a.data.isEmpty = true ∧ b.data.isEmpty = true
  · rw [if_pos hab, if_pos ⟨hab.2, hab.1⟩]
  · rw [if_neg hab,
      if_neg (show ¬ (b.data.isEmpty = true ∧ a.data.isEmpty = true) from
        fun h => hab ⟨h.2, h.1⟩)]
    by_cases h1 : a.data.isEmpty = true ∨ b.data.isEmpty = true
    · rw [if_pos h1,
        if_pos (show b.data.isEmpty = true ∨ a.data.isEmpty = true from
          Or.symm h1)]
    · rw [if_neg h1,
        if_neg (show ¬ (b.data.isEmpty = true ∨ a.data.isEmpty = true) from
          fun h => h1 (Or.symm h))]
      have hbd : jaroBound b.data.length a.data.length =
          jaroBound a.data.length b.data.length := by
        unfold jaroBound
        rw [Nat.max_comm]
      rw [hbd]
      have hlen := jaroRun_length_swap a.data.enum b.data.enum
        (jaroBound a.data.length b.data.length) (enum_fst_pairwise a.data)
        (enum_fst_pairwise b.data) (enum_fst_nodup a.data)
        (enum_fst_nodup b.data)
      have hk := jaroK_swap a.data.enum b.data.enum
        (jaroBound a.data.length b.data.length) (enum_fst_pairwise a.data)
        (enum_fst_pairwise b.data) (enum_fst_nodup a.data)
        (enum_fst_nodup b.data)
      rw [hlen, hk]
      by_cases hm : (jaroRun a.data.enum b.data.enum
          (jaroBound a.data.length b.data.length)).length = 0
      · rw [if_pos hm, if_pos hm]
      · rw [if_neg hm, if_neg hm]
        ring

theorem jaroWinklerSim_comm (a b : String) :
    jaroWinklerSim a b = jaroWinklerSim b a := by
  unfold jaroWinklerSim
  dsimp only
  rw [jaroSim_comm a b]
  have hpre : commonPre4 b.data a.data = commonPre4 a.data b.data := by
    unfold commonPre4
    rw [commonPreLen_comm]
  rw [hpre]

theorem compositeScore_comm (a b : String) :
    compositeScore a b = compositeScore b a := by
  unfold compositeScore
  rw [wratio_comm, tokenSetRatio_comm, jaroWinklerSim_comm]

theorem textSimilarity_comm (a b : String) :
    textSimilarity a b = textSimilarity b a :=
  compositeScore_comm (normalizeText a) (normalizeText b)

theorem lcsAux_self : ∀ (fuel : Nat) (a : List Char),
    2 * a.length ≤ fuel → lcsAux fuel a a = a.length := by
  intro fuel
  induction fuel with
  | zero =>
    intro a h
    match a with
    | [] => rfl
    | _ :: _ => simp at h
  | succ n ih =>
    intro a h
    match a with
    | [] => rfl
    | c :: cs =>
      simp only [lcsAux, eq_self_iff_true, if_true, List.length_cons]
      rw [ih cs (by simp only [List.length_cons] at h; omega)]

theorem fuzzRatio_self (x : String) : fuzzRatio x x = 100 := by
  unfold fuzzRatio ratioL
  by_cases h0 : x.data.length + x.data.length = 0
  · rw [if_pos h0]
  · rw [if_neg h0]
    rw [show lcsLen x.data x.data = x.data.length from
      lcsAux_self _ x.data (by omega)]
    rw [Rat.mkRat_eq_div]
    rw [div_eq_iff (by exact_mod_cast h0)]
    push_cast
    ring

theorem tokenSortRatio_self (x : String) : tokenSortRatio x x = 100 :=
  fuzzRatio_self _

theorem tokenSetRatio_self (x : String) (hsw : splitWS x ≠ []) :
    tokenSetRatio x x = 100 := by
  unfold tokenSetRatio
  dsimp only
  have hne : uniqSortedTokens x ≠ [] := by
    intro h
    rcases List.exists_mem_of_ne_nil _ hsw with ⟨t, ht⟩
    have : t ∈ uniqSortedTokens x := (uniqSortedTokens_mem x t).mpr ht
    rw [h] at this
    cases this
  rw [if_neg (by
    intro hcon
    rw [Bool.or_self] at hcon
    exact hne (List.isEmpty_iff.mp hcon))]
  have hinter : (uniqSortedTokens x).filter
      (fun t => (uniqSortedTokens x).contains t) = uniqSortedTokens x := by
    refine List.filter_eq_self.mpr fun t ht => by simpa using ht
  have hdiff : (uniqSortedTokens x).filter
      (fun t => ¬ (uniqSortedTokens x).contains t) = [] := by
    refine List.filter_eq_nil_iff.mpr fun t ht => by simpa using ht
  rw [if_pos ?gd]
  case gd =>
    refine ⟨by
      rw [hinter]
      intro hcon
      exact hne (List.isEmpty_iff.mp hcon), Or.inl ?_⟩
    rw [hdiff]
    rfl

theorem tokenRatioFn_self (x : String) (hsw : splitWS x ≠ []) :
    tokenRatioFn x x = 100 := by
  unfold tokenRatioFn
  rw [tokenSortRatio_self, tokenSetRatio_self x hsw]
  norm_num

theorem wratio_self (x : String) (hx : x ≠ "") : wratio x x = 100 := by
  unfold wratio
  dsimp only
  have hL : x.data.length ≠ 0 := by
    intro h
    exact hx (string_eq_of_data_eq (List.length_eq_zero.mp h))
  rw [if_neg (by tauto)]
  rw [if_pos (by rw [Nat.max_self, Nat.min_self]; omega)]
  rw [fuzzRatio_self]
  rw [max_eq_left ?hb]
  case hb =>
    have h1 := tokenRatioFn_le_100 x x
    have h0 := tokenRatioFn_nonneg x x
    rw [show (mkRat 95 100 : ℚ) = 95 / 100 from by
      rw [Rat.mkRat_eq_div]; norm_num]
    nlinarith

theorem jaroRun_enumFrom_self (bd : Nat) : ∀ (cs : List Char) (n : Nat),
    jaroRun (List.enumFrom n cs) (List.enumFrom n cs) bd =
      (List.enumFrom n cs).map (fun p => (p, p)) := by
  intro cs
  induction cs with
  | nil => intro n; rfl
  | cons c cs' ih =>
    intro n
    rw [show List.enumFrom n (c :: cs') = (n, c) :: List.enumFrom (n + 1) cs'
      from rfl]
    have hpick : jaroPick n c bd ((n, c) :: List.enumFrom (n + 1) cs') =
        some (n, c) :=
      List.find?_cons_of_pos _ (by simp)
    simp only [jaroRun, hpick]
    rw [List.erase_cons_head, List.map_cons, ih (n + 1)]

theorem sortByJ_map_dup_enumFrom : ∀ (cs : List Char) (n : Nat),
    sortByJ ((List.enumFrom n cs).map (fun p => (p, p))) =
      (List.enumFrom n cs).map (fun p => (p, p)) := by
  intro cs
  induction cs with
  | nil => intro n; rfl
  | cons c cs' ih =>
    intro n
    show sortByJ (((n, c), (n, c)) :: _) = _
    simp only [sortByJ, List.foldr_cons] at ih ⊢
    rw [ih (n + 1)]
    cases hcs : cs' with
    | nil => rfl
    | cons d ds =>
      simp only [List.enumFrom, List.map_cons, insPair]
      rw [if_neg (by omega)]

theorem zip_self_filter_ne (u : List Char) :
    ((u.zip u).filter fun cc => ¬ cc.1 = cc.2) = [] := by
  induction u with
  | nil => rfl
  | cons c cs ih =>
    simp only [List.zip_cons_cons, List.filter_cons]
    rw [if_neg (by simp)]
    exact ih

theorem jaroK_dup_enumFrom (cs : List Char) (n : Nat) :
    jaroK ((List.enumFrom n cs).map (fun p => (p, p))) = 0 := by
  unfold jaroK
  rw [sortByJ_map_dup_enumFrom cs n, List.map_map, List.map_map]
  rw [show ((List.enumFrom n cs).map
      ((fun p : (Nat × Char) × (Nat × Char) => p.1.2) ∘ (fun p => (p, p)))) =
      (List.enumFrom n cs).map Prod.snd from rfl]
  rw [show ((List.enumFrom n cs).map
      ((fun p : (Nat × Char) × (Nat × Char) => p.2.2) ∘ (fun p => (p, p)))) =
      (List.enumFrom n cs).map Prod.snd from rfl]
  rw [zip_self_filter_ne]
  rfl

theorem jaroSim_self (x : String) (hx : x ≠ "") : jaroSim x x = 1 := by
  unfold jaroSim
  dsimp only
  have hL : x.data.length ≠ 0 := by
    intro h
    exact hx (string_eq_of_data_eq (List.length_eq_zero.mp h))
  have hie : ¬ x.data.isEmpty = true := by
    simpa [List.isEmpty_iff, ← List.length_eq_zero] using hL
  rw [if_neg (by tauto), if_neg (by tauto)]
  have hrun : jaroRun x.data.enum x.data.enum
      (jaroBound x.data.length x.data.length) =
      x.data.enum.map (fun p => (p, p)) :=
    jaroRun_enumFrom_self _ x.data 0
  rw [hrun]
  have hlen : (x.data.enum.map
      (fun p : Nat × Char => (p, p))).length = x.data.length := by
    rw [List.length_map, List.enum_length]
  rw [if_neg (by rw [hlen]; exact hL)]
  rw [show jaroK (x.data.enum.map (fun p => (p, p))) = 0 from
    jaroK_dup_enumFrom x.data 0]
  rw [hlen]
  have h1 : (mkRat x.data.length x.data.length : ℚ) = 1 := by
    rw [Rat.mkRat_eq_div]
    push_cast
    rw [div_self (by exact_mod_cast hL)]
  have hpos : (0 : ℚ) < (x.data.length : ℚ) := by
    exact_mod_cast Nat.pos_of_ne_zero hL
  have h2 : (mkRat (2 * (x.data.length : Int) - (0 : Nat))
      (2 * x.data.length) : ℚ) = 1 := by
    rw [Rat.mkRat_eq_div]
    push_cast
    rw [sub_zero]
    rw [div_self (ne_of_gt (by linarith))]
  rw [h1, h2]
  rw [show (mkRat 1 3 : ℚ) = 1 / 3 from by rw [Rat.mkRat_eq_div]; norm_num]
  norm_num

theorem jaroWinklerSim_self (x : String) (hx : x ≠ "") :
    jaroWinklerSim x x = 1 := by
  unfold jaroWinklerSim
  dsimp only
  rw [jaroSim_self x hx]
  rw [if_pos (by rw [show (mkRat 7 10 : ℚ) = 7 / 10 from by
    rw [Rat.mkRat_eq_div]; norm_num]; norm_num)]
  ring

theorem compositeScore_self (x : String) (hx : x ≠ "") (hsw : splitWS x ≠ []) :
    compositeScore x x = 100 := by
  unfold compositeScore
  rw [wratio_self x hx, tokenSetRatio_self x hsw, jaroWinklerSim_self x hx]
  rw [show (mkRat 45 100 : ℚ) = 45 / 100 from by rw [Rat.mkRat_eq_div]; norm_num,
    show (mkRat 35 100 : ℚ) = 35 / 100 from by rw [Rat.mkRat_eq_div]; norm_num,
    show (mkRat 20 100 : ℚ) = 20 / 100 from by rw [Rat.mkRat_eq_div]; norm_num]
  norm_num

theorem rev_nil_iff (cur : List Char) :
    (cur.reverse = []) ↔ cur.isEmpty = true := by
  rw [List.reverse_eq_nil_iff, List.isEmpty_iff]

theorem splitWSAux_tokens : ∀ (cs cur : List Char),
    (∀ c ∈ cur, c ≠ ' ') →
    ∀ t ∈ splitWSAux cs cur, t.data ≠ [] ∧ ∀ c ∈ t.data, c ≠ ' ' := by
  intro cs
  induction cs with
  | nil =>
    intro cur hcur t ht
    simp only [splitWSAux] at ht
    split at ht
    · cases ht
    · rename_i hne
      rcases List.mem_singleton.mp ht with rfl
      refine ⟨fun h => hne ((rev_nil_iff cur).mp h), ?_⟩
      intro c hc
      exact hcur c (List.mem_reverse.mp hc)
  | cons c cs' ih =>
    intro cur hcur t ht
    simp only [splitWSAux] at ht
    by_cases hsp : c = ' '
    · rw [if_pos (by simpa using hsp)] at ht
      split at ht
      · exact ih [] (by simp) t ht
      · rcases List.mem_cons.mp ht with rfl | hmem
        · rename_i hne
          refine ⟨fun h => hne ((rev_nil_iff cur).mp h), ?_⟩
          intro d hd
          exact hcur d (List.mem_reverse.mp hd)
        · exact ih [] (by simp) t hmem
    · rw [if_neg (by simpa using hsp)] at ht
      refine ih (c :: cur) ?_ t ht
      intro d hd
      rcases List.mem_cons.mp hd with rfl | hmem
      · exact hsp
      · exact hcur d hmem

theorem splitWS_tokens (s : String) :
    ∀ t ∈ splitWS s, t.data ≠ [] ∧ ∀ c ∈ t.data, c ≠ ' ' :=
  splitWSAux_tokens s.data [] (by simp)

theorem intercalate_go_data : ∀ (ts : List String) (acc : String),
    (String.intercalate.go acc " " ts).data = acc.data ++ joinSp ts := by
  intro ts
  induction ts with
  | nil => intro acc; simp [String.intercalate.go, joinSp]
  | cons t ts' ih =>
    intro acc
    simp only [String.intercalate.go]
    rw [ih (acc ++ " " ++ t)]
    simp only [String.data_append, joinSp, List.map_cons, List.flatten]
    simp [List.append_assoc]

theorem intercalate_data (t : String) (ts : List String) :
    (String.intercalate " " (t :: ts)).data = t.data ++ joinSp ts := by
  show (String.intercalate.go t " " ts).data = _
  exact intercalate_go_data ts t

theorem joinSp_cons (t : String) (ts : List String) :
    joinSp (t :: ts) = ' ' :: (t.data ++ joinSp ts) := by
  simp [joinSp]

theorem splitWSAux_token_step : ∀ (cs cur : List Char) (ts : List String),
    (∀ c ∈ cs, c ≠ ' ') →
    splitWSAux (cs ++ joinSp ts) cur =
      (if cur.reverse ++ cs = [] then [] else [⟨cur.reverse ++ cs⟩]) ++
        splitWSAux (joinSp ts) [] := by
  intro cs
  induction cs with
  | nil =>
    intro cur ts _
    rw [List.nil_append, List.append_nil]
    cases ts with
    | nil =>
      rw [show joinSp [] = [] from rfl]
      rw [show splitWSAux ([] : List Char) [] = [] from rfl]
      rw [List.append_nil]
      rw [show splitWSAux ([] : List Char) cur =
        (if cur.isEmpty = true then [] else [⟨cur.reverse⟩]) from rfl]
      by_cases hc : cur.isEmpty = true
      · rw [if_pos hc, if_pos ((rev_nil_iff cur).mpr hc)]
      · rw [if_neg hc, if_neg (fun h => hc ((rev_nil_iff cur).mp h))]
    | cons t ts' =>
      rw [joinSp_cons]
      rw [show splitWSAux (' ' :: (t.data ++ joinSp ts')) cur =
        (if cur.isEmpty = true then splitWSAux (t.data ++ joinSp ts') []
         else ⟨cur.reverse⟩ :: splitWSAux (t.data ++ joinSp ts') [])
        from rfl]
      rw [show splitWSAux (' ' :: (t.data ++ joinSp ts')) [] =
        splitWSAux (t.data ++ joinSp ts') [] from rfl]
      by_cases hc : cur.isEmpty = true
      · rw [if_pos hc, if_pos ((rev_nil_iff cur).mpr hc), List.nil_append]
      · rw [if_neg hc, if_neg (fun h => hc ((rev_nil_iff cur).mp h))]
        rfl
  | cons c cs' ih =>
    intro cur ts hcs
    have hcsp : c ≠ ' ' := hcs c (List.mem_cons_self c cs')
    rw [List.cons_append]
    rw [show splitWSAux (c :: (cs' ++ joinSp ts)) cur =
      (if (c == ' ') = true then
        (if cur.isEmpty = true then splitWSAux (cs' ++ joinSp ts) []
         else ⟨cur.reverse⟩ :: splitWSAux (cs' ++ joinSp ts) [])
       else splitWSAux (cs' ++ joinSp ts) (c :: cur)) from rfl]
    rw [if_neg (by simpa using hcsp)]
    rw [ih (c :: cur) ts fun d hd => hcs d (List.mem_cons_of_mem c hd)]
    have hrw : (c :: cur).reverse ++ cs' = cur.reverse ++ (c :: cs') := by
      rw [List.reverse_cons, List.append_assoc]
      rfl
    rw [hrw]

theorem splitWS_joinSp : ∀ ts : List String,
    (∀ t ∈ ts, t.data ≠ [] ∧ ∀ c ∈ t.data, c ≠ ' ') →
    splitWSAux (joinSp ts) [] = ts := by
  intro ts
  induction ts with
  | nil => intro _; rfl
  | cons t ts' ih =>
    intro hts
    have ht := hts t (List.mem_cons_self t ts')
    rw [joinSp_cons]
    rw [show splitWSAux (' ' :: (t.data ++ joinSp ts')) [] =
      splitWSAux (t.data ++ joinSp ts') [] from rfl]
    rw [splitWSAux_token_step t.data [] ts' ht.2]
    rw [show (([] : List Char).reverse ++ t.data) = t.data from rfl]
    rw [if_neg ht.1]
    rw [ih fun u hu => hts u (List.mem_cons_of_mem t hu)]
    rfl

theorem splitWS_intercalate (ts : List String)
    (hts : ∀ t ∈ ts, t.data ≠ [] ∧ ∀ c ∈ t.data, c ≠ ' ') :
    splitWS (String.intercalate " " ts) = ts := by
  cases ts with
  | nil => rfl
  | cons t ts' =>
    unfold splitWS
    rw [intercalate_data t ts']
    have ht := hts t (List.mem_cons_self t ts')
    rw [splitWSAux_token_step t.data [] ts' ht.2]
    rw [show (([] : List Char).reverse ++ t.data) = t.data from rfl]
    rw [if_neg ht.1]
    rw [splitWS_joinSp ts' fun u hu => hts u (List.mem_cons_of_mem t hu)]
    rfl

theorem normalizeText_splitWS (a : String) :
    splitWS (normalizeText a) = splitWS ⟨((spellingVariants.foldl
      (fun acc kv => ciSub kv.1 kv.2 acc) a).data.map Char.toLower).map
      fun c => if isAlnumLower c then c else ' '⟩ := by
  unfold normalizeText
  dsimp only
  exact splitWS_intercalate _ (splitWS_tokens _)

theorem splitWS_normalizeText_ne (a : String) (hne : normalizeText a ≠ "") :
    splitWS (normalizeText a) ≠ [] := by
  intro hcon
  rw [normalizeText_splitWS a] at hcon
  apply hne
  unfold normalizeText
  dsimp only
  rw [hcon]
  rfl

theorem textSimilarity_self_counterexample :
    normalizeText "" = normalizeText "" ∧ textSimilarity "" "" = 20 ∧
    ((20 : ℚ) ≠ 100) :=
  ⟨rfl, by decide, by decide⟩

theorem textSimilarity_symm_and_id (a b : String) :
    textSimilarity a b = textSimilarity b a ∧
    (normalizeText a = normalizeText b → normalizeText a ≠ "" →
      textSimilarity a b = 100) := by
  refine ⟨textSimilarity_comm a b, fun heq hne => ?_⟩
  unfold textSimilarity
  rw [← heq]
  exact compositeScore_self (normalizeText a) hne
    (splitWS_normalizeText_ne a hne)

theorem textSimilarity_symm_and_id_witness :
    textSimilarity "vata" "Vata!" = textSimilarity "Vata!" "vata" ∧
    textSimilarity "vata" "Vata!" = 100 :=
  ⟨(textSimilarity_symm_and_id "vata" "Vata!").1,
    (textSimilarity_symm_and_id "vata" "Vata!").2 (by decide) (by decide)⟩

end CM
